import Mathlib

/-!
filecoin-rpc-proxy: the cache-and-forward transport and the response cacher.

A shallow embedding of the request path of the caching JSON-RPC proxy:

* `internal/utils/utils.go`        : `Equal`, `Min`
* `internal/requests/requests.go`  : `RPCRequest`, `RPCResponse`, `FindByID`,
  `FindByPositions`, `SplitEmptyResponsePositions`, `Response`, `ParseResponses`,
  `isBatch`
* `internal/cache/cache.go`        : the `Cache` interface and `MemoryCache`
* `internal/matcher/matcher.go`    : the `Matcher` interface, `cacheKey`,
  `cacheMethod.match` (as `matchParams`), `toKey`, `interfaceSliceToString`,
  `cacheKeys.sort`, `addMethod`, `FromConfig`, `Keys`, `IsCacheable`,
  `IsUpdatable`, `Custom`
* `internal/config/config.go`      : `CacheMethod`, `MethodType`
* `internal/proxy/request_cache.go`: `SetResponseCache`, `GetResponseCache`
* `internal/proxy/handler.go`      : `fromCache`, `isCacheableRequests`, `RoundTrip`
* `internal/updater/updater.go`    : `methodRequests`, `cacheRequests`, the
  chunking loop of `update` and the body of one of its workers

Go interfaces become structures of functions, the mutable store becomes an
explicit state `σ` that is threaded through, a run-time panic is an explicit
outcome, and logging and metrics are left out.
-/

namespace RpcProxy

/-! ## Dynamic values -/

/-- Value held by a Go `interface{}`: what `encoding/json` and `bson` decode
into, plus the numeric kinds that `utils.Equal` lists. Floats are idealised as
rationals; an integer kind carries its value, which Go keeps within the range
of the kind. -/
inductive Value where
  | nil
  | bool (b : Bool)
  | str (s : String)
  | float64 (x : ℚ)
  | float32 (x : ℚ)
  | int (i : ℤ)
  | int8 (i : ℤ)
  | int16 (i : ℤ)
  | int32 (i : ℤ)
  | int64 (i : ℤ)
  | byte (i : ℤ)
  | slice (xs : List Value)
  | map (kvs : List (String × Value))

instance : Inhabited Value := ⟨Value.nil⟩

/-- Go `math.MinInt64`. -/
def minInt64 : ℤ := -9223372036854775808

/-- Go `math.MaxInt64`. -/
def maxInt64 : ℤ := 9223372036854775807

/-- Go conversion `int(x)` of a float on a 64-bit platform: the fractional part
is discarded. When the result does not fit an `int` Go leaves the value to the
implementation; this is amd64, where the conversion instruction then yields
`math.MinInt64`. -/
def truncate (x : ℚ) : ℤ :=
  if minInt64 ≤ Int.tdiv x.num x.den ∧ Int.tdiv x.num x.den ≤ maxInt64 then
    Int.tdiv x.num x.den
  else minInt64

/-- The closure `convert` of `utils.Equal`: every listed numeric kind becomes an `int`. -/
def convert : Value → Value
  | .float64 x => .int (truncate x)
  | .float32 x => .int (truncate x)
  | .int i => .int i
  | .int8 i => .int i
  | .int16 i => .int i
  | .int32 i => .int i
  | .int64 i => .int i
  | .byte i => .int i
  | v => v

/-- Go `==` on two interface values. Values of different dynamic types are
unequal; two values of the same uncomparable type (slice, map) make the
comparison panic, which is `none`. -/
def ifaceEq : Value → Value → Option Bool
  | .nil, .nil => some true
  | .bool a, .bool b => some (a == b)
  | .str a, .str b => some (a == b)
  | .float64 a, .float64 b => some (decide (a = b))
  | .float32 a, .float32 b => some (decide (a = b))
  | .int a, .int b => some (decide (a = b))
  | .int8 a, .int8 b => some (decide (a = b))
  | .int16 a, .int16 b => some (decide (a = b))
  | .int32 a, .int32 b => some (decide (a = b))
  | .int64 a, .int64 b => some (decide (a = b))
  | .byte a, .byte b => some (decide (a = b))
  | .slice _, .slice _ => none
  | .map _, .map _ => none
  | _, _ => some false

/-- Embeds `utils.Equal`: `convert(i) == convert(j)`. -/
def Equal (i j : Value) : Option Bool := ifaceEq (convert i) (convert j)

/-! ## Requests and responses -/

/-- Embeds `requests.rpcError`. -/
structure rpcError where
  Code : ℤ
  Message : String
  Data : Value

/-- Embeds `requests.RPCRequest`. -/
structure RPCRequest where
  remoteAddr : String
  JSONRPC : String
  ID : Value
  Method : String
  Params : Value

/-- Embeds `requests.RPCResponse`; `Error` is a nullable pointer. -/
structure RPCResponse where
  JSONRPC : String
  ID : Value
  Result : Value
  Error : Option rpcError

/-- Go zero value `RPCRequest{}`. -/
instance : Inhabited RPCRequest := ⟨⟨"", "", Value.nil, "", Value.nil⟩⟩

/-- Go zero value `RPCResponse{}`. -/
instance : Inhabited RPCResponse := ⟨⟨"", Value.nil, Value.nil, none⟩⟩

abbrev RPCRequests := List RPCRequest
abbrev RPCResponses := List RPCResponse

/-- Embeds `RPCResponse.IsEmpty`. -/
def RPCResponse.IsEmpty (r : RPCResponse) : Bool := r.JSONRPC == ""

/-- Embeds `RPCRequests.FindByID`: the first request whose ID is `Equal` to `id`.
`none` is a panic raised by a comparison on the way. -/
def FindByID : RPCRequests → Value → Option (RPCRequest × Bool)
  | [], _ => some (default, false)
  | req :: rest, id =>
    match Equal req.ID id with
    | none => none
    | some true => some (req, true)
    | some false => FindByID rest id

/-- Embeds `RPCRequests.FindByPositions`. Positions are Go ints produced by range
loops; on `Nat` the guard `idx >= 0` always holds. -/
def FindByPositions (r : RPCRequests) : List Nat → RPCRequests
  | [] => []
  | idx :: ids =>
    if h : idx < r.length ∧ 0 ≤ idx then r.get ⟨idx, h.1⟩ :: FindByPositions r ids
    else FindByPositions r ids

/-- Embeds `RPCRequests.Methods`. -/
def Methods (r : RPCRequests) : List String := r.map (fun q => q.Method)

/-- Loop of `SplitEmptyResponsePositions`, at index `idx`, with the two
accumulators `nonEmpty` and `empty`. -/
def splitLoop : RPCResponses → Nat → List Nat → List Nat → List Nat × List Nat
  | [], _, nonEmpty, empty => (nonEmpty, empty)
  | response :: rest, idx, nonEmpty, empty =>
    if response.IsEmpty then splitLoop rest (idx + 1) nonEmpty (empty ++ [idx])
    else splitLoop rest (idx + 1) (nonEmpty ++ [idx]) empty

/-- Embeds `RPCResponses.SplitEmptyResponsePositions`: `(nonEmpty, empty)`. -/
def SplitEmptyResponsePositions (r : RPCResponses) : List Nat × List Nat :=
  splitLoop r 0 [] []

/-- Body shapes handed to `JSONRPCResponse` and `json.Marshal`: the `nil`
interface, one object, or an array. -/
inductive Payload (α : Type) where
  | null
  | object (v : α)
  | array (vs : List α)

/-- The `*http.Response` built by `JSONRPCResponse` (marshalling a decoded
value does not fail). -/
structure HTTPReply where
  StatusCode : Nat
  ContentType : String
  Body : Payload RPCResponse

/-- Embeds `RPCResponses.Response`. -/
def Response (r : RPCResponses) : HTTPReply :=
  match r with
  | [] => ⟨200, "application/json", .null⟩
  | [r0] => ⟨200, "application/json", .object r0⟩
  | _ => ⟨200, "application/json", .array r⟩

/-! ## Errors, store and matcher interfaces -/

/-- Go `error` values told apart by what the code inspects: a `cache.Error`,
a `*rpcError`, any other plain error, or a combined `*multierror.Error` as
`ErrorOrNil` returns it, which holds at least one error. -/
inductive GoError where
  | cache (message : String)
  | rpc (e : rpcError)
  | other (message : String)
  | multi (first : GoError) (rest : List GoError)

/-- Embeds `multierror.Append(mErr, err)` on the accumulated errors: a nil error adds
nothing, a combined error is flattened. -/
def multierrorAppend (mErr : List GoError) : Option GoError → List GoError
  | none => mErr
  | some (.multi e es) => mErr ++ e :: es
  | some e => mErr ++ [e]

/-- Embeds `(*multierror.Error).ErrorOrNil`. -/
def ErrorOrNil : List GoError → Option GoError
  | [] => none
  | e :: es => some (.multi e es)

/-- Embeds `errors.As(err, &cache.Error{})`. -/
def asCacheError : GoError → Bool
  | .cache _ => true
  | _ => false

/-- The `cache.Cache` interface over a store state `σ`. `Set` yields the new
state and its error; `Get` and `Requests` read the state. -/
structure Cache (σ : Type) where
  Set : σ → String → RPCRequest → RPCResponse → σ × Option GoError
  Get : σ → String → RPCResponse × Option GoError
  Requests : σ → List RPCRequest × Option GoError

/-- Embeds `matcher.cacheKey`. -/
structure cacheKey where
  Key : String
  cardinality : Nat

/-- Embeds `matcher.customMethod`. -/
structure customMethod where
  Name : String
  Params : Value

/-- The `matcher.Matcher` interface. -/
structure Matcher where
  Keys : String → Value → List cacheKey
  Methods : List customMethod
  IsUpdatable : String → Bool
  IsCacheable : String → Bool

/-- Embeds `proxy.ResponseCache`. -/
structure ResponseCache (σ : Type) where
  cache : Cache σ
  matcher : Matcher

/-! ## In-memory store -/

/-- Embeds `cache.cacheValue`. -/
structure cacheValue where
  Request : RPCRequest
  Response : RPCResponse

/-- Items of a `MemoryCache` created without expiry: key/value pairs with
pairwise distinct keys. -/
abbrev MemoryState := List (String × cacheValue)

/-- Embeds `m.Cache.Set(key, value, 0)` of go-cache: overwrite in place or add. -/
def memoryPut : MemoryState → String → cacheValue → MemoryState
  | [], key, v => [(key, v)]
  | (k, w) :: rest, key, v =>
    if k = key then (k, v) :: rest else (k, w) :: memoryPut rest key v

/-- Embeds `m.Cache.Get(key)` of go-cache. -/
def memoryLookup : MemoryState → String → Option cacheValue
  | [], _ => none
  | (k, w) :: rest, key => if k = key then some w else memoryLookup rest key

/-- Embeds `MemoryCache.Set`. -/
def MemoryCache.Set (m : MemoryState) (key : String) (request : RPCRequest)
    (response : RPCResponse) : MemoryState × Option GoError :=
  (memoryPut m key ⟨request, response⟩, none)

/-- Embeds `MemoryCache.Get`. -/
def MemoryCache.Get (m : MemoryState) (key : String) : RPCResponse × Option GoError :=
  match memoryLookup m key with
  | some val => (val.Response, none)
  | none => (default, none)

/-- Embeds `MemoryCache.Requests`: `make([]RPCRequest, ItemCount)` followed by one
`append` per item. -/
def MemoryCache.Requests (m : MemoryState) : List RPCRequest × Option GoError :=
  (List.replicate m.length default ++ m.map (fun item => item.2.Request), none)

/-- Embeds `cache.MemoryCache` as a `Cache`. -/
def MemoryCache : Cache MemoryState :=
  ⟨MemoryCache.Set, MemoryCache.Get, MemoryCache.Requests⟩

/-! ## Response cacher -/

/-- Loop of `SetResponseCache` over the keys. -/
def setLoop {σ : Type} (c : Cache σ) (req : RPCRequest) (resp : RPCResponse) :
    List cacheKey → σ → List GoError → σ × List GoError
  | [], s, mErr => (s, mErr)
  | key :: keys, s, mErr =>
    let r := c.Set s key.Key req resp
    setLoop c req resp keys r.1 (multierrorAppend mErr r.2)

/-- Embeds `ResponseCache.SetResponseCache`. -/
def SetResponseCache {σ : Type} (rc : ResponseCache σ) (s : σ) (req : RPCRequest)
    (resp : RPCResponse) : σ × Option GoError :=
  let keys := rc.matcher.Keys req.Method req.Params
  if keys.length = 0 then (s, none)
  else
    let r := setLoop rc.cache req resp keys s []
    (r.1, ErrorOrNil r.2)

/-- Loop of `GetResponseCache` over the keys. -/
def getLoop {σ : Type} (c : Cache σ) (s : σ) : List cacheKey → List GoError →
    RPCResponse × Option GoError
  | [], _ => (default, none)
  | key :: keys, mErr =>
    let r := c.Get s key.Key
    match r.2 with
    | some err => getLoop c s keys (multierrorAppend mErr (some err))
    | none => if r.1.IsEmpty then getLoop c s keys mErr else (r.1, none)

/-- Embeds `ResponseCache.GetResponseCache`. -/
def GetResponseCache {σ : Type} (rc : ResponseCache σ) (s : σ) (req : RPCRequest) :
    RPCResponse × Option GoError :=
  let keys := rc.matcher.Keys req.Method req.Params
  if keys.length = 0 then (default, none)
  else getLoop rc.cache s keys []

/-! ## Transport -/

/-- Embeds `requests.errResponse`. -/
structure errResponse where
  Version : String
  ID : Value
  Error : rpcError

/-- Embeds `requests.jsonRPCError`. -/
def jsonRPCError (id : Value) (jsonCode : ℤ) (msg : String) : errResponse :=
  ⟨"2.0", id, ⟨jsonCode, msg, Value.nil⟩⟩

def jsonRPCInvalidParams : ℤ := -32602
def jsonRPCInternal : ℤ := -32603

/-- An `*http.Response` whose body is a marshalled `errResponse`. -/
structure ErrorReply where
  StatusCode : Nat
  Body : errResponse

/-- Embeds `requests.JSONInvalidResponse`; 400 is `http.StatusBadRequest`. -/
def JSONInvalidResponse (message : String) : ErrorReply :=
  ⟨400, jsonRPCError Value.nil jsonRPCInvalidParams message⟩

/-- Embeds `requests.JSONRPCErrorResponse`. -/
def JSONRPCErrorResponse (httpCode : Nat) (data : String) : ErrorReply :=
  ⟨httpCode, jsonRPCError Value.nil jsonRPCInternal data⟩

/-- Upstream `*http.Response`. `decoded` is what `parseResponseBody` yields on
`Body`; the JSON decoder itself is outside the embedding. -/
structure UpstreamResponse where
  StatusCode : Nat
  Body : String
  decoded : Except String RPCResponses

/-- Embeds `requests.ParseResponses`, as the Go triple (responses, body, error): an
empty body parses to no response; on a parse error the returned body is nil. -/
def ParseResponses (res : UpstreamResponse) : RPCResponses × String × Option String :=
  if res.Body.length > 0 then
    match res.decoded with
    | .error err => ([], "", some err)
    | .ok responses => (responses, res.Body, none)
  else ([], res.Body, none)

/-- Upstream endpoint as seen through `http.DefaultTransport.RoundTrip`: the
rewritten body goes in, a response or a transport error comes out. -/
abbrev Upstream := Payload RPCRequest → Except GoError UpstreamResponse

/-- Embeds `transport.isCacheableRequests`. -/
def isCacheableRequests {σ : Type} (rc : ResponseCache σ) : RPCRequests → Bool
  | [] => true
  | req :: rest =>
    if !rc.matcher.IsCacheable req.Method then false else isCacheableRequests rc rest

/-- Loop of `transport.fromCache` at index `idx`. An error that is not a
`cache.Error` returns the results built so far together with the error. -/
def fromCacheLoop {σ : Type} (rc : ResponseCache σ) (s : σ) :
    RPCRequests → Nat → RPCResponses → RPCResponses × Option GoError
  | [], _, results => (results, none)
  | request :: rest, idx, results =>
    let r := GetResponseCache rc s request
    if (match r.2 with
        | some err => !asCacheError err
        | none => false) then (results, r.2)
    else fromCacheLoop rc s rest (idx + 1) (results.set idx { r.1 with ID := request.ID })

/-- Embeds `transport.fromCache`. -/
def fromCache {σ : Type} (rc : ResponseCache σ) (s : σ) (reqs : RPCRequests) :
    RPCResponses × Option GoError :=
  fromCacheLoop rc s reqs 0 (List.replicate reqs.length default)

/-- State carried by the merge loop of `RoundTrip`: the store, the prepared
responses, the `SetResponseCache` calls made so far and whether a run-time
panic stopped the loop. -/
structure MergeState (σ : Type) where
  store : σ
  preparedResponses : RPCResponses
  writes : List (RPCRequest × RPCResponse)
  panicked : Bool

/-- Cache population for one upstream response (handler.go lines 123-131):
`none` is a panic inside `FindByID`. -/
def cacheStep {σ : Type} (rc : ResponseCache σ) (parsedRequests : RPCRequests)
    (response : RPCResponse) (s : σ) (writes : List (RPCRequest × RPCResponse)) :
    Option (σ × List (RPCRequest × RPCResponse)) :=
  if response.Error.isNone then
    match FindByID parsedRequests response.ID with
    | none => none
    | some (request, ok) =>
      if ok && rc.matcher.IsCacheable request.Method then
        some ((SetResponseCache rc s request response).1, writes ++ [(request, response)])
      else some (s, writes)
  else some (s, writes)

/-- Merge loop of `RoundTrip` (handler.go lines 122-133) at index `idx`:
cache population, then `preparedResponses[proxyRequestIdx[idx]] = response`,
which panics when an index is out of range. -/
def mergeLoop {σ : Type} (rc : ResponseCache σ) (parsedRequests : RPCRequests)
    (proxyRequestIdx : List Nat) : RPCResponses → Nat → MergeState σ → MergeState σ
  | [], _, st => st
  | response :: rest, idx, st =>
    match cacheStep rc parsedRequests response st.store st.writes with
    | none => { st with panicked := true }
    | some (s1, w1) =>
      match proxyRequestIdx[idx]? with
      | none => ⟨s1, st.preparedResponses, w1, true⟩
      | some pos =>
        if pos < st.preparedResponses.length then
          mergeLoop rc parsedRequests proxyRequestIdx rest (idx + 1)
            ⟨s1, st.preparedResponses.set pos response, w1, false⟩
        else ⟨s1, st.preparedResponses, w1, true⟩

/-- What `RoundTrip` hands back to the reverse proxy. -/
inductive Reply where
  | json (r : HTTPReply)
  | error (r : ErrorReply)
  | upstream (res : UpstreamResponse)
  | transportError (err : GoError)
  | panic

/-- Observable outcome of one `RoundTrip`: the store afterwards, the body sent
upstream (if any), the `SetResponseCache` calls in order, and the reply. -/
structure RoundTripResult (σ : Type) where
  store : σ
  forwarded : Option (Payload RPCRequest)
  writes : List (RPCRequest × RPCResponse)
  reply : Reply

/-- Rewritten outbound body (handler.go lines 82-90) for a non-empty list of
requests to proxy: one object for a single request, an array otherwise. -/
def proxyBodyOf (first : RPCRequest) (more : RPCRequests) : Payload RPCRequest :=
  match more with
  | [] => .object first
  | _ => .array (first :: more)

/-- Merge, cache population and response assembly of `RoundTrip` (handler.go
lines 122-140) for the parsed upstream `responses`. -/
def mergeResponses {σ : Type} (rc : ResponseCache σ) (s : σ) (parsedRequests : RPCRequests)
    (preparedResponses : RPCResponses) (proxyRequestIdx : List Nat)
    (proxyBody : Payload RPCRequest) (responses : RPCResponses) : RoundTripResult σ :=
  let st := mergeLoop rc parsedRequests proxyRequestIdx responses 0
    ⟨s, preparedResponses, [], false⟩
  if st.panicked then ⟨st.store, some proxyBody, st.writes, .panic⟩
  else ⟨st.store, some proxyBody, st.writes, .json (Response st.preparedResponses)⟩

/-- What `RoundTrip` does with the outcome of the upstream round trip
(handler.go lines 102-140). -/
def afterForward {σ : Type} (rc : ResponseCache σ) (s : σ) (parsedRequests : RPCRequests)
    (preparedResponses : RPCResponses) (proxyRequestIdx : List Nat)
    (cachedMethods : List String) (proxyBody : Payload RPCRequest)
    (result : Except GoError UpstreamResponse) : RoundTripResult σ :=
  match result with
  | .error err => ⟨s, some proxyBody, [], .transportError err⟩
  | .ok res =>
    if !isCacheableRequests rc parsedRequests && cachedMethods.length == 0 then
      ⟨s, some proxyBody, [], .upstream res⟩
    else
      match (ParseResponses res).2.2 with
      | some _ =>
        ⟨s, some proxyBody, [],
          .error (JSONRPCErrorResponse res.StatusCode (ParseResponses res).2.1)⟩
      | none =>
        mergeResponses rc s parsedRequests preparedResponses proxyRequestIdx proxyBody
          (ParseResponses res).1

/-- Embeds `transport.RoundTrip`, from the outcome of `ParseRequests` onwards. -/
def RoundTrip {σ : Type} (rc : ResponseCache σ) (s : σ)
    (parsed : Except String RPCRequests) (upstream : Upstream) : RoundTripResult σ :=
  match parsed with
  | .error err => ⟨s, none, [], .error (JSONInvalidResponse err)⟩
  | .ok parsedRequests =>
    let fc := fromCache rc s parsedRequests
    let preparedResponses : RPCResponses :=
      if fc.2.isSome then List.replicate parsedRequests.length default else fc.1
    let split := SplitEmptyResponsePositions preparedResponses
    let cachedRequestIdx := split.1
    let proxyRequestIdx := split.2
    let proxyRequests := FindByPositions parsedRequests proxyRequestIdx
    let cachedRequests := FindByPositions parsedRequests cachedRequestIdx
    let cachedMethods := Methods cachedRequests
    match proxyRequests with
    | [] => ⟨s, none, [], .json (Response preparedResponses)⟩
    | first :: more =>
      afterForward rc s parsedRequests preparedResponses proxyRequestIdx cachedMethods
        (proxyBodyOf first more) (upstream (proxyBodyOf first more))

/-! ## Refresh worker -/

/-- Outcome of one worker of `Updater.update` on its chunk: the store, the
`SetResponseCache` calls in order, the errors sent on `errs`, and whether a
panic stopped it. -/
structure WorkerResult (σ : Type) where
  store : σ
  writes : List (RPCRequest × RPCResponse)
  errs : List GoError
  panicked : Bool

/-- Response loop of a worker (updater.go lines 214-227); `multiErr` collects
the cache-write errors. -/
def workerLoop {σ : Type} (rc : ResponseCache σ) (reqs : RPCRequests) :
    RPCResponses → WorkerResult σ → List GoError → WorkerResult σ × List GoError
  | [], st, multiErr => (st, multiErr)
  | resp :: rest, st, multiErr =>
    match resp.Error with
    | some e => workerLoop rc reqs rest { st with errs := st.errs ++ [.rpc e] } multiErr
    | none =>
      match FindByID reqs resp.ID with
      | none => ({ st with panicked := true }, multiErr)
      | some (req, ok) =>
        if ok then
          let r := SetResponseCache rc st.store req resp
          workerLoop rc reqs rest
            { st with store := r.1, writes := st.writes ++ [(req, resp)] }
            (multierrorAppend multiErr r.2)
        else workerLoop rc reqs rest st multiErr

/-- Body of one worker goroutine of `Updater.update` (updater.go lines
204-232) on the chunk `reqs`, given the outcome of `requests.Request`. -/
def updateWorker {σ : Type} (rc : ResponseCache σ) (s : σ) (reqs : RPCRequests)
    (result : Except GoError RPCResponses) : WorkerResult σ :=
  match result with
  | .error err => ⟨s, [], [err], false⟩
  | .ok responses =>
    let r := workerLoop rc reqs responses ⟨s, [], [], false⟩ []
    if r.1.panicked then r.1
    else
      match ErrorOrNil r.2 with
      | some err => { r.1 with errs := r.1.errs ++ [err] }
      | none => r.1

/-! ## Matcher -/

/-- Library code the matcher calls: `json.Marshal` of a decoded value and the
SHA-256 digest, both on bytes. A SHA-256 digest has 32 bytes. -/
structure Codec where
  marshal : Value → List Nat
  sum256 : List Nat → List Nat
  sum256_length : ∀ b, (sum256 b).length = 32

/-- The sixteen lowercase hexadecimal digits. -/
def hexDigits : List Char :=
  ['0', '1', '2', '3', '4', '5', '6', '7', '8', '9', 'a', 'b', 'c', 'd', 'e', 'f']

/-- Hexadecimal digit of the low four bits of `n`. -/
def hexDigit (n : Nat) : Char := hexDigits.getD (n % 16) '0'

/-- Characters of `fmt.Sprintf("%x", bytes)`: two lowercase digits per byte. -/
def hexChars : List Nat → List Char
  | [] => []
  | b :: bs => hexDigit (b / 16) :: hexDigit b :: hexChars bs

/-- Bytes written to the hash by `interfaceSliceToString`: the JSON of each
parameter, one after the other. -/
def keyMaterial (cd : Codec) : List Value → List Nat
  | [] => []
  | ifs :: rest => cd.marshal ifs ++ keyMaterial cd rest

/-- Embeds `matcher.interfaceSliceToString`. -/
def interfaceSliceToString (cd : Codec) (params : List Value) : String :=
  if params.length = 0 then "" else String.mk (hexChars (cd.sum256 (keyMaterial cd params)))

/-- Embeds `config.MethodType`. -/
abbrev MethodType := String

def CustomMethod : MethodType := "custom"
def RegularMethod : MethodType := "regular"

/-- Embeds `MethodType.IsCustom`. -/
def MethodType.IsCustom (t : MethodType) : Bool := t == CustomMethod

/-- Embeds `config.CacheMethod`, with `Kind` as `Config.Init` leaves it (never nil). -/
structure CacheMethod where
  Name : String
  Enabled : Bool
  CacheByParams : Bool
  NoStoreCache : Bool
  NoUpdateCache : Bool
  ParamsInCacheByID : List Int
  ParamsInCacheByName : List String
  Kind : MethodType
  ParamsForRequest : Value

/-- The part of `config.Config` the matcher reads. -/
structure Config where
  CacheMethods : List CacheMethod

/-- Embeds `matcher.cacheMethod`. -/
structure cacheMethod where
  name : String
  kind : MethodType
  cacheByParams : Bool
  noStoreCache : Bool
  noUpdateCache : Bool
  paramsInCacheID : List Int
  paramsInCacheName : List String
  paramsForRequest : Value

/-- Embeds `cacheKey.IsEmpty`. -/
def cacheKey.IsEmpty (c : cacheKey) : Bool := c.Key == ""

/-- Loop `for idx := range c.paramsInCacheID` of `cacheMethod.match`: the loop
variable is the position in the list, and `sliceParams[idx]` is appended. -/
def projectByID (sliceParams : List Value) : List Int → Nat → List Value →
    Except String (List Value)
  | [], _, paramsForCache => .ok paramsForCache
  | _ :: rest, idx, paramsForCache =>
    if h : idx ≥ sliceParams.length then .error "invalid index in slice params"
    else projectByID sliceParams rest (idx + 1)
      (paramsForCache ++ [sliceParams.get ⟨idx, Nat.lt_of_not_ge h⟩])

/-- Loop `for _, key := range c.paramsInCacheName` of `cacheMethod.match`. -/
def projectByName (mapParams : List (String × Value)) : List String → List Value →
    Except String (List Value)
  | [], paramsForCache => .ok paramsForCache
  | key :: rest, paramsForCache =>
    match mapParams.lookup key with
    | none => .error "invalid parameter key in map"
    | some param => projectByName mapParams rest (paramsForCache ++ [param])

/-- Branch of `cacheMethod.match` for a non-empty `paramsInCacheID` and
`[]interface{}` params; `none` when the branch is not taken. -/
def cacheMethod.matchByID (c : cacheMethod) (params : Value) :
    Option (Except String (List Value)) :=
  if c.paramsInCacheID.length > 0 then
    match params with
    | .slice sliceParams => some (projectByID sliceParams c.paramsInCacheID 0 [])
    | _ => none
  else none

/-- Branch of `cacheMethod.match` for a non-empty `paramsInCacheName` and
`map[string]interface{}` params; `none` when the branch is not taken. -/
def cacheMethod.matchByName (c : cacheMethod) (params : Value) :
    Option (Except String (List Value)) :=
  if c.paramsInCacheName.length > 0 then
    match params with
    | .map mapParams => some (projectByName mapParams c.paramsInCacheName [])
    | _ => none
  else none

/-- Embeds `cacheMethod.match`. -/
def cacheMethod.matchParams (c : cacheMethod) (params : Value) : Except String (List Value) :=
  if !c.cacheByParams then .ok []
  else if c.paramsInCacheID.length = 0 ∧ c.paramsInCacheName.length = 0 then .ok [params]
  else
    match c.matchByID params with
    | some r => r
    | none =>
      match c.matchByName params with
      | some r => r
      | none => .error "cannot match parameters"

/-- Embeds `cacheMethod.toKey`: `strings.Join` of the method and, when it is not
empty, the digest string; the zero `cacheKey` on an error. -/
def cacheMethod.toKey (cd : Codec) (c : cacheMethod) (method : String) (params : Value) :
    cacheKey :=
  match c.matchParams params with
  | .error _ => ⟨"", 0⟩
  | .ok key =>
    ⟨if interfaceSliceToString cd key != "" then method ++ "_" ++ interfaceSliceToString cd key
      else method, key.length⟩

/-- Order of `cacheKeys.sort`: the key with the larger cardinality goes first. -/
def cardGE (a b : cacheKey) : Prop := b.cardinality ≤ a.cardinality

instance : DecidableRel cardGE := fun a b => Nat.decLe b.cardinality a.cardinality

instance : IsTotal cacheKey cardGE := ⟨fun a b => Nat.le_total b.cardinality a.cardinality⟩

instance : IsTrans cacheKey cardGE := ⟨fun _ _ _ hab hbc => Nat.le_trans hbc hab⟩

/-- Embeds `cacheKeys.sort`, `sort.Slice` by decreasing cardinality, as the stable
insertion sort that `sort.Slice` runs on slices of up to 12 elements. On longer
slices `sort.Slice` is not stable, so there the order among keys of equal
cardinality may differ from this one; the cardinalities are in the same
order. -/
def cacheKeys.sort (k : List cacheKey) : List cacheKey := k.insertionSort cardGE

/-- Embeds `matcher.methods`, `map[string]cacheMethods`, as an association list in
insertion order with pairwise distinct names. -/
abbrev methods := List (String × List cacheMethod)

/-- Embeds `matcher.match`. -/
structure Match where
  methods : methods

/-- Embeds `matcher.newMatcher`. -/
def newMatcher : Match := ⟨[]⟩

/-- Map update `m[name] = append(m[name], cm)`. -/
def methodsAppend : methods → String → cacheMethod → methods
  | [], name, cm => [(name, [cm])]
  | (k, cms) :: rest, name, cm =>
    if k = name then (k, cms ++ [cm]) :: rest else (k, cms) :: methodsAppend rest name cm

/-- Lexicographic `<=` on lists of numbers. -/
def lexLE : List Nat → List Nat → Bool
  | [], _ => true
  | _ :: _, [] => false
  | a :: as, b :: bs => if a < b then true else if a = b then lexLE as bs else false

/-- Go `<=` on strings: lexicographic on the UTF-8 bytes, which is the
lexicographic order of the code points. -/
def stringLE (a b : String) : Prop :=
  lexLE (a.toList.map Char.toNat) (b.toList.map Char.toNat) = true

instance : DecidableRel stringLE := fun a b =>
  inferInstanceAs (Decidable (lexLE (a.toList.map Char.toNat) (b.toList.map Char.toNat) = true))

/-- Embeds `sort.Strings`. -/
def sortStrings (l : List String) : List String := l.insertionSort stringLE

/-- Embeds `match.addMethod`. -/
def Match.addMethod (m : Match) (method : CacheMethod) : Match :=
  if !method.Enabled then m
  else
    ⟨methodsAppend m.methods method.Name
      { kind := method.Kind
        name := method.Name
        cacheByParams := method.CacheByParams
        paramsInCacheID := method.ParamsInCacheByID
        paramsInCacheName := sortStrings method.ParamsInCacheByName
        noStoreCache := method.NoStoreCache
        noUpdateCache := method.NoUpdateCache
        paramsForRequest := method.ParamsForRequest }⟩

/-- Embeds `matcher.FromConfig`. -/
def FromConfig (c : Config) : Match := c.CacheMethods.foldl Match.addMethod newMatcher

/-- Embeds `match.IsUpdatable`. -/
def Match.IsUpdatable (m : Match) (method : String) : Bool :=
  match m.methods.lookup method with
  | none => false
  | some ms => !ms.any (fun cm => cm.noUpdateCache)

/-- Embeds `match.IsCacheable`. -/
def Match.IsCacheable (m : Match) (method : String) : Bool :=
  match m.methods.lookup method with
  | none => false
  | some ms => !ms.any (fun cm => cm.noStoreCache)

/-- Embeds `match.Keys`. -/
def Match.Keys (cd : Codec) (m : Match) (method : String) (params : Value) : List cacheKey :=
  match m.methods.lookup method with
  | none => []
  | some ms =>
    let keys := (ms.map (fun cm => cm.toKey cd method params)).filter (fun key => !key.IsEmpty)
    if keys.length > 0 then cacheKeys.sort keys else keys

/-- Loop of `methods.Custom` over the specs of one name. -/
def customOf : List cacheMethod → List customMethod
  | [] => []
  | method :: rest =>
    if method.kind.IsCustom then ⟨method.name, method.paramsForRequest⟩ :: customOf rest
    else customOf rest

/-- Embeds `methods.Custom`, walking the map in insertion order. -/
def methods.Custom : methods → List customMethod
  | [] => []
  | (_, cMethods) :: rest => customOf cMethods ++ methods.Custom rest

/-- Embeds `match.Methods`. -/
def Match.Methods (m : Match) : List customMethod := m.methods.Custom

/-- The `matcher.Matcher` interface as implemented by `match`. -/
def Match.toMatcher (cd : Codec) (m : Match) : Matcher where
  Keys := m.Keys cd
  Methods := m.Methods
  IsUpdatable := m.IsUpdatable
  IsCacheable := m.IsCacheable

/-! ## Batch detection -/

/-- Embeds `requests.isBatch` on the bytes of the message; `0x5b` is `'['`. -/
def isBatch : List Nat → Bool
  | [] => false
  | c :: msg =>
    if c = 0x20 ∨ c = 0x09 ∨ c = 0x0a ∨ c = 0x0d then isBatch msg
    else c == 0x5b

/-! ## Refresh workloads and chunking -/

/-- Loop of `Updater.methodRequests`: `counter` is the `float64` counter and
`reqs` the slice built so far. -/
def methodRequestsLoop : List customMethod → Nat → RPCRequests → RPCRequests
  | [], _, reqs => reqs
  | method :: rest, counter, reqs =>
    methodRequestsLoop rest (counter + 1)
      (reqs ++ [⟨"", "2.0", .float64 counter, method.Name, method.Params⟩])

/-- Embeds `Updater.methodRequests`. -/
def methodRequests {σ : Type} (rc : ResponseCache σ) : RPCRequests :=
  methodRequestsLoop rc.matcher.Methods 1 []

/-- Loop of `Updater.cacheRequests` over the requests the store returned. -/
def cacheRequestsLoop (mt : Matcher) : RPCRequests → Nat → RPCRequests → RPCRequests
  | [], _, reqs => reqs
  | req :: rest, counter, reqs =>
    if !mt.IsUpdatable req.Method then cacheRequestsLoop mt rest counter reqs
    else cacheRequestsLoop mt rest (counter + 1) (reqs ++ [{ req with ID := .float64 counter }])

/-- Embeds `Updater.cacheRequests`. -/
def cacheRequests {σ : Type} (rc : ResponseCache σ) (s : σ) : RPCRequests :=
  match rc.cache.Requests s with
  | (_, some _) => []
  | (cacheReqs, none) => cacheRequestsLoop rc.matcher cacheReqs 1 []

/-- Embeds `utils.Min`. -/
def Min (v1 : Nat) : List Nat → Nat
  | [] => v1
  | v :: v2 => if v < v1 then Min v v2 else Min v1 v2

/-- Go slice expression `reqs[i:j]` for `i ≤ j ≤ len(reqs)`. -/
def sliceOf {α : Type} (reqs : List α) (i j : Nat) : List α := (reqs.drop i).take (j - i)

/-- Loop `for i := 0; i < len(reqs); i += u.batchSize` of `Updater.update`,
collecting the chunk each worker goroutine is started with; the channel of
capacity `concurrency` only delays the start of a worker. `fuel` bounds the
number of iterations; `none` when it runs out. -/
def chunkLoop (reqs : RPCRequests) (batchSize : Nat) : Nat → Nat → List RPCRequests →
    Option (List RPCRequests)
  | 0, i, chunks => if i < reqs.length then none else some chunks
  | fuel + 1, i, chunks =>
    if i < reqs.length then
      chunkLoop reqs batchSize fuel (i + batchSize)
        (chunks ++ [sliceOf reqs i (Min (i + batchSize) [reqs.length])])
    else some chunks

/-- Chunks dispatched by `Updater.update`: none for an empty list. -/
def updateChunks (reqs : RPCRequests) (batchSize fuel : Nat) : Option (List RPCRequests) :=
  if reqs.isEmpty then some [] else chunkLoop reqs batchSize fuel 0 []

/-! ## Observation helpers -/

/-- Elements carried by a payload, in order. -/
def Payload.toList {α : Type} : Payload α → List α
  | .null => []
  | .object v => [v]
  | .array vs => vs

/-- Responses carried by a reply assembled through `Response`. -/
def Reply.responses : Reply → RPCResponses
  | .json r => r.Body.toList
  | _ => []

/-- JSON-RPC identifiers of the data model: a scalar or null, never an array
or an object. -/
def Value.isScalar : Value → Bool
  | .slice _ => false
  | .map _ => false
  | _ => true

/-- Whether the cache lookup for `r` in store state `s` is a miss. -/
def isMiss {σ : Type} (rc : ResponseCache σ) (s : σ) (r : RPCRequest) : Bool :=
  (GetResponseCache rc s r).1.IsEmpty

/-- Response the cache lookup yields for `r`, carrying the caller's ID. -/
def cachedFor {σ : Type} (rc : ResponseCache σ) (s : σ) (r : RPCRequest) : RPCResponse :=
  { (GetResponseCache rc s r).1 with ID := r.ID }

/-- Store reached from `s` by the given `SetResponseCache` calls, in order. -/
def replay {σ : Type} (rc : ResponseCache σ) (s : σ) : List (RPCRequest × RPCResponse) → σ
  | [] => s
  | w :: ws => replay rc (SetResponseCache rc s w.1 w.2).1 ws

/-- One observed call of the store's `Set`. -/
structure SetCall where
  key : String
  request : RPCRequest
  response : RPCResponse
  failed : Bool

/-- Store `c` instrumented with a log of its `Set` calls. -/
def traced {σ : Type} (c : Cache σ) : Cache (σ × List SetCall) where
  Set := fun st key request response =>
    let r := c.Set st.1 key request response
    ((r.1, st.2 ++ [⟨key, request, response, r.2.isSome⟩]), r.2)
  Get := fun st key => c.Get st.1 key
  Requests := fun st => c.Requests st.1

/-- Positions `k, k+1, ...` of the elements of a list that satisfy `p`, in
increasing order. -/
def positionsFrom {α : Type} (p : α → Bool) : List α → Nat → List Nat
  | [], _ => []
  | x :: xs, k => if p x then k :: positionsFrom p xs (k + 1) else positionsFrom p xs (k + 1)

/-- Whether reading `k` from the store succeeds with a non-empty response. -/
def usable {σ : Type} (c : Cache σ) (s : σ) (k : cacheKey) : Bool :=
  (c.Get s k.Key).2.isNone && !(c.Get s k.Key).1.IsEmpty

/-- The `cacheMethod` that `addMethod` appends for an enabled spec. -/
def ingest (method : CacheMethod) : cacheMethod :=
  { kind := method.Kind
    name := method.Name
    cacheByParams := method.CacheByParams
    paramsInCacheID := method.ParamsInCacheByID
    paramsInCacheName := sortStrings method.ParamsInCacheByName
    noStoreCache := method.NoStoreCache
    noUpdateCache := method.NoUpdateCache
    paramsForRequest := method.ParamsForRequest }

/-- Digest string of the given parameters: `hex(SHA-256(json(p0) ++ json(p1) ++ ...))`. -/
def digestOf (cd : Codec) (params : List Value) : String :=
  String.mk (hexChars (cd.sum256 (keyMaterial cd params)))

/-- Text `json.Marshal` writes for a payload, given the text of one element:
the nil interface is `null`, a slice is a bracketed comma-separated list. -/
def Payload.render {α : Type} (marshal : α → String) : Payload α → String
  | .null => "null"
  | .object v => marshal v
  | .array vs => "[" ++ ",".intercalate (vs.map marshal) ++ "]"

/-- Concatenation of the methods map in iteration order. -/
def methods.specs (m : methods) : List cacheMethod := (m.map Prod.snd).flatten

/-- Whether `a` is an initial segment of `b` and shorter than `b`. -/
def properInitial : List Nat → List Nat → Bool
  | [], [] => false
  | [], _ :: _ => true
  | _ :: _, [] => false
  | x :: a, y :: b => x == y && properInitial a b

/-- Spec side of ID equality: the value of a float as an `int`, written with
floor and ceiling. The fraction is dropped towards zero; a result that does
not fit an `int` is `math.MinInt64`, as the conversion gives on amd64. -/
def specIntOfFloat (x : ℚ) : ℤ :=
  if minInt64 ≤ (if 0 ≤ x then ⌊x⌋ else ⌈x⌉) ∧ (if 0 ≤ x then ⌊x⌋ else ⌈x⌉) ≤ maxInt64 then
    (if 0 ≤ x then ⌊x⌋ else ⌈x⌉)
  else minInt64

/-- Spec side of ID equality, `norm`: a float64, float32, int, int8, int16,
int32, int64 or byte becomes its value as an int, every other value is left
unchanged. -/
def specNorm : Value → Value
  | .float64 x => .int (specIntOfFloat x)
  | .float32 x => .int (specIntOfFloat x)
  | .int i => .int i
  | .int8 i => .int i
  | .int16 i => .int i
  | .int32 i => .int i
  | .int64 i => .int i
  | .byte i => .int i
  | v => v

/-! ## Fixtures -/

/-- Matcher of a configuration that lists each of `methods` once, enabled,
with `cache_by_params: false`: the key is the method name, cardinality 0. -/
def methodMatcher (methods : List String) : Matcher where
  Keys := fun method _ => if method ∈ methods then [⟨method, 0⟩] else []
  Methods := []
  IsUpdatable := fun method => decide (method ∈ methods)
  IsCacheable := fun method => decide (method ∈ methods)

/-- Request `{jsonrpc: "2.0", id: <id>, method: <method>, params: ["1"]}`. -/
def mkRequest (id method : String) : RPCRequest :=
  ⟨"", "2.0", .str id, method, .slice [.str "1"]⟩

/-- Successful response `{jsonrpc: "2.0", id: <id>, result: <result>}`. -/
def mkResponse (id result : String) : RPCResponse :=
  ⟨"2.0", .str id, .str result, none⟩

/-- Upstream that answers every body with status 200 and the given responses. -/
def replyWith (responses : RPCResponses) : Upstream :=
  fun _ => .ok ⟨200, "[...]", .ok responses⟩

/-- Error response `{jsonrpc: "2.0", id: <id>, error: {code: -32000, message: <message>}}`. -/
def mkError (id message : String) : RPCResponse :=
  ⟨"2.0", .str id, .nil, some ⟨-32000, message, .nil⟩⟩

/-- Response cacher with the in-memory store and `methods` configured. -/
def memoryCacher (methods : List String) : ResponseCache MemoryState :=
  ⟨MemoryCache, methodMatcher methods⟩

/-- Batch with one cacheable method ("test") and one that is not configured
("other"). -/
def mixedBatch : RPCRequests := [mkRequest "1" "test", mkRequest "2" "other"]

/-- Upstream reply to `mixedBatch`: one successful response per request. -/
def mixedReply : RPCResponses := [mkResponse "1" "15", mkResponse "2" "16"]

/-- Store holding a response for method "warm", written under ID "99". -/
def warmStore : MemoryState := [("warm", ⟨mkRequest "99" "warm", mkResponse "99" "7"⟩)]

/-- Batch of `TestTransportBulkRequestReverseResponses`: IDs "1".."5", one
method each. -/
def reverseBatch : RPCRequests :=
  [mkRequest "1" "test1", mkRequest "2" "test2", mkRequest "3" "test3",
   mkRequest "4" "test4", mkRequest "5" "test5"]

/-- Upstream reply of that test: the five responses in reverse order. -/
def reverseReply : RPCResponses :=
  [mkResponse "5" "5", mkResponse "4" "4", mkResponse "3" "3",
   mkResponse "2" "2", mkResponse "1" "1"]

/-- Response cacher of that test: in-memory store, the five methods configured. -/
def reverseCacher : ResponseCache MemoryState :=
  ⟨MemoryCache, methodMatcher ["test1", "test2", "test3", "test4", "test5"]⟩

/-- Stand-in for `json.Marshal` in worked examples: a string is its quoted
text, null is `null`, anything else a question mark. -/
def toyMarshal : Value → List Nat
  | .str s => 34 :: (s.toList.map Char.toNat ++ [34])
  | .nil => [110, 117, 108, 108]
  | _ => [63]

/-- Stand-in for SHA-256 in worked examples: the first 32 bytes of the
zero-padded input. -/
def toySum (b : List Nat) : List Nat := (b ++ List.replicate 32 0).take 32

/-- Codec of the worked examples. -/
def toyCodec : Codec where
  marshal := toyMarshal
  sum256 := toySum
  sum256_length := fun b => by simp [toySum, List.length_take]

/-- Spec of `TestMatcherCacheParamsByID` with the index list of the spec's
scenario 4: `cache_by_params`, `params_in_cache_by_id: [0]`. -/
def byIndexSpec : cacheMethod :=
  { name := "m", kind := RegularMethod, cacheByParams := true, noStoreCache := false,
    noUpdateCache := false, paramsInCacheID := [0], paramsInCacheName := [],
    paramsForRequest := .nil }

/-- Spec with `cache_by_params` and no projection list. -/
def wholeParamsSpec : cacheMethod :=
  { name := "m", kind := RegularMethod, cacheByParams := true, noStoreCache := false,
    noUpdateCache := false, paramsInCacheID := [], paramsInCacheName := [],
    paramsForRequest := .nil }

/-- Spec of `TestMatcherNoCacheParams`: `cache_by_params` is false. -/
def methodOnlySpec : cacheMethod :=
  { name := "test", kind := RegularMethod, cacheByParams := false, noStoreCache := false,
    noUpdateCache := false, paramsInCacheID := [], paramsInCacheName := [],
    paramsForRequest := .nil }

/-- Configured spec of `TestMatcherCacheParamsByNameAndByID` with the names in
the given order. -/
def byNameSpec (names : List String) : CacheMethod :=
  { Name := "test", Enabled := true, CacheByParams := true, NoStoreCache := false,
    NoUpdateCache := false, ParamsInCacheByID := [1, 2], ParamsInCacheByName := names,
    Kind := RegularMethod, ParamsForRequest := .nil }

/-- Decimal digits of a natural number as bytes. -/
def decimalBytes (n : Nat) : List Nat := (Nat.toDigits 10 n).map Char.toNat

/-- Text of `json.Marshal` on the values of the worked examples: a
non-negative whole number below 1e21 is its decimal digits, a string without
escapes its quoted text, null is `null`; anything else a question mark. -/
def decimalMarshal : Value → List Nat
  | .float64 x => if x.den = 1 ∧ 0 ≤ x.num then decimalBytes x.num.toNat else [63]
  | .str s => 34 :: (s.toList.map Char.toNat ++ [34])
  | .nil => [110, 117, 108, 108]
  | _ => [63]

/-- Codec of the worked examples with numbers. -/
def decimalCodec : Codec where
  marshal := decimalMarshal
  sum256 := toySum
  sum256_length := fun b => by simp [toySum, List.length_take]

/-- Spec with `cache_by_params` and `params_in_cache_by_id: [0, 1]`. -/
def byTwoIndexSpec : cacheMethod :=
  { name := "m", kind := RegularMethod, cacheByParams := true, noStoreCache := false,
    noUpdateCache := false, paramsInCacheID := [0, 1], paramsInCacheName := [],
    paramsForRequest := .nil }

/-- Configured spec named `name` of the given kind, with request params `["x"]`. -/
def kindSpec (name : String) (kind : MethodType) (enabled : Bool) : CacheMethod :=
  { Name := name, Enabled := enabled, CacheByParams := false, NoStoreCache := false,
    NoUpdateCache := false, ParamsInCacheByID := [], ParamsInCacheByName := [],
    Kind := kind, ParamsForRequest := .slice [.str "x"] }

/-- Upstream that answers every body with status 502 and a body that is not
JSON. -/
def badGateway : Upstream :=
  fun _ => .ok ⟨502, "Bad Gateway", .error "invalid character"⟩

/-- Text of a response in worked examples: its JSON-RPC version, standing in
for the marshalled object. -/
def versionText (r : RPCResponse) : String := r.JSONRPC

/-- Workload of the size of `TestMethodsUpdaterConcurrency`: 100 requests, with
IDs 1 to 100. -/
def hundredRequests : RPCRequests :=
  (List.range 100).map (fun k => ⟨"", "2.0", .float64 ((k + 1 : ℕ) : ℚ), "test", .nil⟩)

/-! ## Response cacher: lemmas -/

theorem multierrorAppend_eq_nil (mErr : List GoError) (e : Option GoError) :
    multierrorAppend mErr e = [] ↔ mErr = [] ∧ e = none := by
  cases e with
  | none => simp [multierrorAppend]
  | some err => cases err <;> simp [multierrorAppend]

theorem ErrorOrNil_isSome (mErr : List GoError) :
    (ErrorOrNil mErr).isSome = true ↔ mErr ≠ [] := by
  cases mErr <;> simp [ErrorOrNil]

theorem getLoop_cons {σ : Type} (c : Cache σ) (s : σ) (key : cacheKey)
    (keys : List cacheKey) (mErr : List GoError) :
    getLoop c s (key :: keys) mErr =
      match (c.Get s key.Key).2 with
      | some err => getLoop c s keys (multierrorAppend mErr (some err))
      | none =>
        if (c.Get s key.Key).1.IsEmpty then getLoop c s keys mErr
        else ((c.Get s key.Key).1, none) := rfl

theorem getLoop_err {σ : Type} (c : Cache σ) (s : σ) (keys : List cacheKey)
    (mErr : List GoError) : (getLoop c s keys mErr).2 = none := by
  induction keys generalizing mErr with
  | nil => rfl
  | cons key keys ih =>
    rw [getLoop_cons]
    split
    · exact ih _
    · split
      · exact ih _
      · rfl

theorem GetResponseCache_err {σ : Type} (rc : ResponseCache σ) (s : σ) (req : RPCRequest) :
    (GetResponseCache rc s req).2 = none := by
  unfold GetResponseCache
  by_cases h : (rc.matcher.Keys req.Method req.Params).length = 0
  · simp [h]
  · simpa [h] using getLoop_err _ _ _ _

theorem getLoop_find {σ : Type} (c : Cache σ) (s : σ) (keys : List cacheKey)
    (mErr : List GoError) :
    getLoop c s keys mErr =
      (match keys.find? (usable c s) with
        | some k => (c.Get s k.Key).1
        | none => default, none) := by
  induction keys generalizing mErr with
  | nil => rfl
  | cons key keys ih =>
    rw [getLoop_cons]
    cases h : (c.Get s key.Key).2 with
    | some err => simp [List.find?, usable, h, ih]
    | none =>
      by_cases he : (c.Get s key.Key).1.IsEmpty = true
      · simp [List.find?, usable, h, he, ih]
      · simp [List.find?, usable, h, he]

theorem memoryLookup_put_same (m : MemoryState) (key : String) (v : cacheValue) :
    memoryLookup (memoryPut m key v) key = some v := by
  induction m with
  | nil => simp [memoryPut, memoryLookup]
  | cons kv rest ih =>
    obtain ⟨k, w⟩ := kv
    by_cases h : k = key
    · simp [memoryPut, memoryLookup, h]
    · simp [memoryPut, memoryLookup, h, ih]

theorem memoryLookup_put_other (m : MemoryState) (key key2 : String) (v : cacheValue)
    (hne : key2 ≠ key) : memoryLookup (memoryPut m key v) key2 = memoryLookup m key2 := by
  induction m with
  | nil =>
    have : ¬ key = key2 := fun h => hne h.symm
    simp [memoryPut, memoryLookup, this]
  | cons kv rest ih =>
    obtain ⟨k, w⟩ := kv
    by_cases h : k = key
    · subst h
      have : ¬ k = key2 := fun h => hne h.symm
      simp [memoryPut, memoryLookup, this]
    · by_cases h2 : k = key2
      · subst h2
        simp [memoryPut, memoryLookup, h]
      · simp [memoryPut, memoryLookup, h, h2, ih]

theorem setLoop_memory_err (req : RPCRequest) (resp : RPCResponse) (keys : List cacheKey)
    (m : MemoryState) (mErr : List GoError) :
    (setLoop MemoryCache req resp keys m mErr).2 = mErr := by
  induction keys generalizing m mErr with
  | nil => rfl
  | cons key keys ih =>
    unfold setLoop
    simpa [MemoryCache, MemoryCache.Set, multierrorAppend] using ih _ _

theorem setLoop_memory_lookup (req : RPCRequest) (resp : RPCResponse) (keys : List cacheKey)
    (m : MemoryState) (mErr : List GoError) (key : String) :
    memoryLookup (setLoop MemoryCache req resp keys m mErr).1 key =
      if key ∈ keys.map (fun k => k.Key) then some ⟨req, resp⟩ else memoryLookup m key := by
  induction keys generalizing m mErr with
  | nil => simp [setLoop]
  | cons k keys ih =>
    unfold setLoop
    rw [ih]
    simp only [MemoryCache, MemoryCache.Set]
    by_cases h1 : key ∈ keys.map (fun k => k.Key)
    · simp [h1]
    · by_cases h2 : key = k.Key
      · subst h2
        simp [h1, memoryLookup_put_same]
      · simp [h1, h2, memoryLookup_put_other _ _ _ _ h2]

theorem SetResponseCache_memory_lookup (mt : Matcher) (m : MemoryState) (req : RPCRequest)
    (resp : RPCResponse) (key : String) :
    memoryLookup (SetResponseCache ⟨MemoryCache, mt⟩ m req resp).1 key =
      if key ∈ (mt.Keys req.Method req.Params).map (fun k => k.Key) then some ⟨req, resp⟩
      else memoryLookup m key := by
  unfold SetResponseCache
  by_cases h : (mt.Keys req.Method req.Params).length = 0
  · have h0 : mt.Keys req.Method req.Params = [] := List.length_eq_zero.mp h
    simp [h0]
  · simp only [h, if_false]
    exact setLoop_memory_lookup _ _ _ _ _ _

theorem SetResponseCache_memory_err (mt : Matcher) (m : MemoryState) (req : RPCRequest)
    (resp : RPCResponse) : (SetResponseCache ⟨MemoryCache, mt⟩ m req resp).2 = none := by
  unfold SetResponseCache
  by_cases h : (mt.Keys req.Method req.Params).length = 0
  · simp [h]
  · simp [h, setLoop_memory_err, ErrorOrNil]

theorem GetResponseCache_memory_hit (mt : Matcher) (m : MemoryState) (req : RPCRequest)
    (resp : RPCResponse) (key : cacheKey) (rest : List cacheKey)
    (hk : mt.Keys req.Method req.Params = key :: rest)
    (hl : memoryLookup m key.Key = some ⟨req, resp⟩) (hs : resp.IsEmpty = false) :
    GetResponseCache ⟨MemoryCache, mt⟩ m req = (resp, none) := by
  unfold GetResponseCache
  simp only [hk, List.length_cons, Nat.succ_ne_zero, if_false]
  unfold getLoop
  simp [MemoryCache, MemoryCache.Get, hl, hs]

theorem setLoop_cons {σ : Type} (c : Cache σ) (req : RPCRequest) (resp : RPCResponse)
    (key : cacheKey) (keys : List cacheKey) (s : σ) (mErr : List GoError) :
    setLoop c req resp (key :: keys) s mErr =
      setLoop c req resp keys (c.Set s key.Key req resp).1
        (multierrorAppend mErr (c.Set s key.Key req resp).2) := rfl

theorem setLoop_traced {σ : Type} (c : Cache σ) (req : RPCRequest) (resp : RPCResponse)
    (keys : List cacheKey) (s : σ) (log : List SetCall) (mErr : List GoError) :
    ∃ calls : List SetCall,
      setLoop (traced c) req resp keys (s, log) mErr =
        (((setLoop c req resp keys s mErr).1, log ++ calls),
          (setLoop c req resp keys s mErr).2) ∧
      calls.map (fun x => x.key) = keys.map (fun k => k.Key) ∧
      (∀ x ∈ calls, x.request = req ∧ x.response = resp) ∧
      ((setLoop c req resp keys s mErr).2 = [] ↔
        mErr = [] ∧ ∀ x ∈ calls, x.failed = false) := by
  induction keys generalizing s log mErr with
  | nil => exact ⟨[], by simp [setLoop]⟩
  | cons key keys ih =>
    obtain ⟨calls, h1, h2, h3, h4⟩ :=
      ih (c.Set s key.Key req resp).1
        (log ++ [⟨key.Key, req, resp, (c.Set s key.Key req resp).2.isSome⟩])
        (multierrorAppend mErr (c.Set s key.Key req resp).2)
    refine ⟨⟨key.Key, req, resp, (c.Set s key.Key req resp).2.isSome⟩ :: calls, ?_, ?_, ?_, ?_⟩
    · rw [setLoop_cons, setLoop_cons]
      simpa [traced] using h1
    · simp [h2]
    · intro x hx
      rcases List.mem_cons.mp hx with rfl | hx
      · exact ⟨rfl, rfl⟩
      · exact h3 x hx
    · rw [setLoop_cons, h4, multierrorAppend_eq_nil]
      constructor
      · rintro ⟨⟨hm, he⟩, hall⟩
        refine ⟨hm, fun x hx => ?_⟩
        rcases List.mem_cons.mp hx with rfl | hx
        · simp [he]
        · exact hall x hx
      · rintro ⟨hm, hall⟩
        refine ⟨⟨hm, ?_⟩, fun x hx => hall x (List.mem_cons_of_mem _ hx)⟩
        have := hall _ (List.mem_cons_self _ _)
        cases hset : (c.Set s key.Key req resp).2 with
        | none => rfl
        | some e => simp [hset] at this

theorem SetResponseCache_then_get (mt : Matcher) (m : MemoryState) (r : RPCRequest)
    (s : RPCResponse) (hk : mt.Keys r.Method r.Params ≠ []) (hs : s.IsEmpty = false) :
    GetResponseCache ⟨MemoryCache, mt⟩ (SetResponseCache ⟨MemoryCache, mt⟩ m r s).1 r
      = (s, none) := by
  cases hkeys : mt.Keys r.Method r.Params with
  | nil => exact absurd hkeys hk
  | cons key rest =>
    refine GetResponseCache_memory_hit mt _ r s key rest hkeys ?_ hs
    rw [SetResponseCache_memory_lookup, hkeys]
    simp

theorem GetResponseCache_memory_miss (mt : Matcher) (m : MemoryState) (r : RPCRequest)
    (hmiss : ∀ k ∈ mt.Keys r.Method r.Params, memoryLookup m k.Key = none) :
    GetResponseCache ⟨MemoryCache, mt⟩ m r = (default, none) := by
  unfold GetResponseCache
  by_cases h : (mt.Keys r.Method r.Params).length = 0
  · simp [h]
  · simp only [h, if_false]
    rw [getLoop_find]
    have : (mt.Keys r.Method r.Params).find? (usable MemoryCache m) = none := by
      rw [List.find?_eq_none]
      intro k hk
      simp [usable, MemoryCache, MemoryCache.Get, hmiss k hk, RPCResponse.IsEmpty]
      rfl
    simp [this]

/-! ## Response cacher: claims -/

/-- C8. Cacher round trip on the in-memory store without expiry: when the
matcher yields at least one key for `r` and `s` has a non-empty `jsonrpc`,
`SetResponseCache(r, s)` reports no error and a following
`GetResponseCache(r)` returns exactly `s` with a nil error, whatever the
store held before. -/
theorem cacher_set_then_get (mt : Matcher) (m : MemoryState) (r : RPCRequest) (s : RPCResponse)
    (hk : mt.Keys r.Method r.Params ≠ []) (hs : s.IsEmpty = false) :
    (SetResponseCache ⟨MemoryCache, mt⟩ m r s).2 = none ∧
    GetResponseCache ⟨MemoryCache, mt⟩ (SetResponseCache ⟨MemoryCache, mt⟩ m r s).1 r
      = (s, none) := by
  exact ⟨SetResponseCache_memory_err _ _ _ _, SetResponseCache_then_get mt m r s hk hs⟩

theorem cacher_set_then_get_witness :
    (SetResponseCache ⟨MemoryCache, methodMatcher ["test"]⟩
        [("test", ⟨mkRequest "7" "test", mkResponse "7" "old"⟩)]
        (mkRequest "1" "test") (mkResponse "1" "15")).2 = none ∧
    GetResponseCache ⟨MemoryCache, methodMatcher ["test"]⟩
      (SetResponseCache ⟨MemoryCache, methodMatcher ["test"]⟩
        [("test", ⟨mkRequest "7" "test", mkResponse "7" "old"⟩)]
        (mkRequest "1" "test") (mkResponse "1" "15")).1 (mkRequest "1" "test")
      = (mkResponse "1" "15", none) :=
  cacher_set_then_get (methodMatcher ["test"])
    [("test", ⟨mkRequest "7" "test", mkResponse "7" "old"⟩)]
    (mkRequest "1" "test") (mkResponse "1" "15") (by simp [methodMatcher, mkRequest]) rfl

/-- C9. Most-specific-first read: `GetResponseCache` walks the keys in the
order `Keys` returns them and returns the response read under the first key
whose read succeeds with a non-empty response; a key whose read fails or is
empty is skipped; with no such key, or no key at all, it returns the empty
response; the returned error is always nil. -/
theorem GetResponseCache_most_specific_first {σ : Type} (rc : ResponseCache σ) (s : σ)
    (req : RPCRequest) :
    GetResponseCache rc s req =
      (match (rc.matcher.Keys req.Method req.Params).find? (usable rc.cache s) with
        | some k => (rc.cache.Get s k.Key).1
        | none => default, none) := by
  unfold GetResponseCache
  by_cases h : (rc.matcher.Keys req.Method req.Params).length = 0
  · have h0 : rc.matcher.Keys req.Method req.Params = [] := List.length_eq_zero.mp h
    simp [h0]
  · simp only [h, if_false]
    exact getLoop_find _ _ _ _

/-- C10. Write to all keys and nothing else: on a store whose `Set` calls are
logged, `SetResponseCache(req, resp)` adds to the log exactly one call per key
of `Keys(req.Method, req.Params)`, in order, each with the pair `(req, resp)`;
the store and the error are those of the uninstrumented run; the error is
non-nil exactly when one of these calls failed; with no key the store is
unchanged and the error is nil. -/
theorem SetResponseCache_writes_every_key {σ : Type} (c : Cache σ) (mt : Matcher) (s : σ)
    (log : List SetCall) (req : RPCRequest) (resp : RPCResponse) :
    ∃ calls : List SetCall,
      SetResponseCache ⟨traced c, mt⟩ (s, log) req resp =
        (((SetResponseCache ⟨c, mt⟩ s req resp).1, log ++ calls),
          (SetResponseCache ⟨c, mt⟩ s req resp).2) ∧
      calls.map (fun x => x.key) = (mt.Keys req.Method req.Params).map (fun k => k.Key) ∧
      (∀ x ∈ calls, x.request = req ∧ x.response = resp) ∧
      ((SetResponseCache ⟨c, mt⟩ s req resp).2.isSome = true ↔ ∃ x ∈ calls, x.failed = true) ∧
      (mt.Keys req.Method req.Params = [] → SetResponseCache ⟨c, mt⟩ s req resp = (s, none)) := by
  by_cases h : (mt.Keys req.Method req.Params).length = 0
  · have h0 : mt.Keys req.Method req.Params = [] := List.length_eq_zero.mp h
    exact ⟨[], by simp [SetResponseCache, h0]⟩
  · obtain ⟨calls, h1, h2, h3, h4⟩ :=
      setLoop_traced c req resp (mt.Keys req.Method req.Params) s log []
    refine ⟨calls, ?_, h2, h3, ?_, ?_⟩
    · simp only [SetResponseCache, h, if_false, h1]
    · simp only [SetResponseCache, h, if_false, ErrorOrNil_isSome]
      rw [Ne, h4]
      simp
    · intro h0
      simp [h0] at h

/-! ## Transport: lemmas -/

theorem fromCacheLoop_cons {σ : Type} (rc : ResponseCache σ) (s : σ) (request : RPCRequest)
    (rest : RPCRequests) (idx : Nat) (results : RPCResponses) :
    fromCacheLoop rc s (request :: rest) idx results =
      fromCacheLoop rc s rest (idx + 1) (results.set idx (cachedFor rc s request)) := by
  simp [fromCacheLoop, GetResponseCache_err, cachedFor]

theorem fromCacheLoop_eq {σ : Type} (rc : ResponseCache σ) (s : σ) (rest : RPCRequests)
    (done : RPCResponses) :
    fromCacheLoop rc s rest done.length (done ++ List.replicate rest.length default) =
      (done ++ rest.map (cachedFor rc s), none) := by
  induction rest generalizing done with
  | nil => simp [fromCacheLoop]
  | cons request rest ih =>
    rw [fromCacheLoop_cons]
    have h := ih (done ++ [cachedFor rc s request])
    simp only [List.length_append, List.length_singleton, List.append_assoc,
      List.singleton_append] at h
    simpa [List.replicate_succ, List.set_append] using h

theorem fromCache_eq {σ : Type} (rc : ResponseCache σ) (s : σ) (reqs : RPCRequests) :
    fromCache rc s reqs = (reqs.map (cachedFor rc s), none) := by
  simpa [fromCache] using fromCacheLoop_eq rc s reqs []

theorem cachedFor_isEmpty {σ : Type} (rc : ResponseCache σ) (s : σ) (r : RPCRequest) :
    (cachedFor rc s r).IsEmpty = isMiss rc s r := rfl

theorem splitLoop_eq (r : RPCResponses) (idx : Nat) (nonEmpty empty : List Nat) :
    splitLoop r idx nonEmpty empty =
      (nonEmpty ++ positionsFrom (fun x => !x.IsEmpty) r idx,
        empty ++ positionsFrom (fun x => x.IsEmpty) r idx) := by
  induction r generalizing idx nonEmpty empty with
  | nil => simp [splitLoop, positionsFrom]
  | cons x xs ih =>
    by_cases h : x.IsEmpty = true
    · simp [splitLoop, positionsFrom, h, ih]
    · simp [splitLoop, positionsFrom, h, ih]

theorem positionsFrom_map {α β : Type} (f : α → β) (p : β → Bool) (l : List α) (k : Nat) :
    positionsFrom p (l.map f) k = positionsFrom (fun x => p (f x)) l k := by
  induction l generalizing k with
  | nil => rfl
  | cons x xs ih => simp [positionsFrom, ih]

theorem mem_positionsFrom {α : Type} (p : α → Bool) (l : List α) (k i : Nat) :
    i ∈ positionsFrom p l k ↔ ∃ j, ∃ h : j < l.length, i = k + j ∧ p (l.get ⟨j, h⟩) = true := by
  induction l generalizing k with
  | nil => simp [positionsFrom]
  | cons x xs ih =>
    have step : (∃ j, ∃ h : j < xs.length, i = k + 1 + j ∧ p (xs.get ⟨j, h⟩) = true) ↔
        ∃ j, ∃ h : j + 1 < (x :: xs).length,
          i = k + (j + 1) ∧ p ((x :: xs).get ⟨j + 1, h⟩) = true := by
      constructor
      · rintro ⟨j, h, hi, hp⟩
        exact ⟨j, by simpa using h, by omega, by simpa using hp⟩
      · rintro ⟨j, h, hi, hp⟩
        exact ⟨j, by simpa using h, by omega, by simpa using hp⟩
    constructor
    · intro hmem
      by_cases hx : p x = true
      · simp only [positionsFrom, hx, if_true, List.mem_cons] at hmem
        rcases hmem with rfl | hmem
        · exact ⟨0, by simp, by simp, by simpa using hx⟩
        · obtain ⟨j, h, hi, hp⟩ := step.mp ((ih (k + 1)).mp hmem)
          exact ⟨j + 1, h, hi, hp⟩
      · simp only [positionsFrom, hx] at hmem
        obtain ⟨j, h, hi, hp⟩ := step.mp ((ih (k + 1)).mp hmem)
        exact ⟨j + 1, h, hi, hp⟩
    · rintro ⟨j, h, hi, hp⟩
      cases j with
      | zero =>
        have hx : p x = true := by simpa using hp
        simp [positionsFrom, hx, hi]
      | succ j =>
        have hmem : i ∈ positionsFrom p xs (k + 1) := (ih (k + 1)).mpr (step.mpr ⟨j, h, hi, hp⟩)
        by_cases hx : p x = true
        · simp [positionsFrom, hx, hmem]
        · simpa [positionsFrom, hx] using hmem

theorem positionsFrom_ge {α : Type} (p : α → Bool) (l : List α) (k i : Nat)
    (h : i ∈ positionsFrom p l k) : k ≤ i := by
  obtain ⟨j, _, hi, _⟩ := (mem_positionsFrom p l k i).mp h
  omega

theorem positionsFrom_sorted {α : Type} (p : α → Bool) (l : List α) (k : Nat) :
    (positionsFrom p l k).Pairwise (fun a b => a < b) := by
  induction l generalizing k with
  | nil => simp [positionsFrom]
  | cons x xs ih =>
    by_cases hx : p x = true
    · simp only [positionsFrom, hx, if_true, List.pairwise_cons]
      refine ⟨fun a ha => ?_, ih _⟩
      have := positionsFrom_ge p xs (k + 1) a ha
      omega
    · simpa [positionsFrom, hx] using ih (k + 1)

theorem FindByPositions_positionsFrom (p : RPCRequest → Bool) (pre l : RPCRequests) :
    FindByPositions (pre ++ l) (positionsFrom p l pre.length) = l.filter p := by
  induction l generalizing pre with
  | nil => simp [positionsFrom, FindByPositions]
  | cons x xs ih =>
    have h := ih (pre ++ [x])
    simp only [List.length_append, List.length_singleton, List.append_assoc,
      List.singleton_append] at h
    by_cases hx : p x = true
    · have hget : (pre ++ x :: xs)[pre.length] = x := by
        rw [List.getElem_append_right (Nat.le_refl _)]
        simp
      simp [positionsFrom, hx, FindByPositions, h, hget]
    · simp [positionsFrom, hx, h]

theorem split_prepared {σ : Type} (rc : ResponseCache σ) (s : σ) (P : RPCRequests) :
    SplitEmptyResponsePositions (P.map (cachedFor rc s)) =
      (positionsFrom (fun r => !isMiss rc s r) P 0, positionsFrom (isMiss rc s) P 0) := by
  simp [SplitEmptyResponsePositions, splitLoop_eq, positionsFrom_map, cachedFor_isEmpty]

theorem FindByPositions_filter (p : RPCRequest → Bool) (P : RPCRequests) :
    FindByPositions P (positionsFrom p P 0) = P.filter p := by
  simpa using FindByPositions_positionsFrom p [] P

/-- Embeds `RoundTrip` on a parsed batch, with the cache lookups resolved. -/
theorem RoundTrip_ok {σ : Type} (rc : ResponseCache σ) (s : σ) (P : RPCRequests)
    (up : Upstream) :
    RoundTrip rc s (.ok P) up =
      match P.filter (isMiss rc s) with
      | [] => ⟨s, none, [], .json (Response (P.map (cachedFor rc s)))⟩
      | first :: more =>
        afterForward rc s P (P.map (cachedFor rc s)) (positionsFrom (isMiss rc s) P 0)
          (Methods (P.filter (fun r => !isMiss rc s r)))
          (proxyBodyOf first more) (up (proxyBodyOf first more)) := by
  simp only [RoundTrip, fromCache_eq, Option.isSome_none, Bool.false_eq_true, if_false,
    split_prepared, FindByPositions_filter]
  rfl

theorem Equal_scalar (a b : Value) (ha : a.isScalar = true) : Equal a b ≠ none := by
  cases a <;> cases b <;> simp_all [Equal, convert, ifaceEq, Value.isScalar]

theorem FindByID_scalar (P : RPCRequests) (id : Value) (hP : ∀ r ∈ P, r.ID.isScalar = true) :
    FindByID P id ≠ none := by
  induction P with
  | nil => simp [FindByID]
  | cons req rest ih =>
    have h1 := Equal_scalar req.ID id (hP req (List.mem_cons_self _ _))
    have h2 := ih (fun r hr => hP r (List.mem_cons_of_mem _ hr))
    unfold FindByID
    cases h : Equal req.ID id with
    | none => exact absurd h h1
    | some b => cases b <;> simp [h2]

theorem FindByID_mem (P : RPCRequests) (id : Value) (r : RPCRequest)
    (h : FindByID P id = some (r, true)) : r ∈ P ∧ Equal r.ID id = some true := by
  induction P with
  | nil => simp [FindByID] at h
  | cons req rest ih =>
    unfold FindByID at h
    cases he : Equal req.ID id with
    | none => simp [he] at h
    | some b =>
      cases b with
      | true =>
        simp only [he, Option.some.injEq, Prod.mk.injEq, and_true] at h
        subst h
        exact ⟨List.mem_cons_self _ _, he⟩
      | false =>
        simp only [he] at h
        exact ⟨List.mem_cons_of_mem _ (ih h).1, (ih h).2⟩

theorem cacheStep_cases {σ : Type} (rc : ResponseCache σ) (P : RPCRequests)
    (response : RPCResponse) (s : σ) (w : List (RPCRequest × RPCResponse)) :
    cacheStep rc P response s w = none ∨ cacheStep rc P response s w = some (s, w) ∨
      ∃ request, cacheStep rc P response s w =
          some ((SetResponseCache rc s request response).1, w ++ [(request, response)]) ∧
        response.Error = none ∧ FindByID P response.ID = some (request, true) ∧
        rc.matcher.IsCacheable request.Method = true := by
  unfold cacheStep
  cases herr : response.Error with
  | some e => simp
  | none =>
    cases hf : FindByID P response.ID with
    | none => simp
    | some found =>
      obtain ⟨request, ok⟩ := found
      cases ok with
      | false => simp
      | true =>
        cases hc : rc.matcher.IsCacheable request.Method with
        | false => simp [hc]
        | true => exact Or.inr (Or.inr ⟨request, by simp [hc], rfl, rfl, hc⟩)

theorem cacheStep_scalar {σ : Type} (rc : ResponseCache σ) (P : RPCRequests)
    (response : RPCResponse) (s : σ) (w : List (RPCRequest × RPCResponse))
    (hP : ∀ r ∈ P, r.ID.isScalar = true) : cacheStep rc P response s w ≠ none := by
  unfold cacheStep
  have h := FindByID_scalar P response.ID hP
  cases hf : FindByID P response.ID with
  | none => exact absurd hf h
  | some found =>
    obtain ⟨request, ok⟩ := found
    by_cases h1 : response.Error.isNone = true <;>
      by_cases h2 : (ok && rc.matcher.IsCacheable request.Method) = true <;> simp [h1, h2]

theorem mergeLoop_cons {σ : Type} (rc : ResponseCache σ) (P : RPCRequests) (pidx : List Nat)
    (response : RPCResponse) (rest : RPCResponses) (idx : Nat) (st : MergeState σ) :
    mergeLoop rc P pidx (response :: rest) idx st =
      match cacheStep rc P response st.store st.writes with
      | none => { st with panicked := true }
      | some (s1, w1) =>
        match pidx[idx]? with
        | none => ⟨s1, st.preparedResponses, w1, true⟩
        | some pos =>
          if pos < st.preparedResponses.length then
            mergeLoop rc P pidx rest (idx + 1) ⟨s1, st.preparedResponses.set pos response, w1, false⟩
          else ⟨s1, st.preparedResponses, w1, true⟩ := rfl

/-- Every `SetResponseCache` call of the merge loop is for an error-free
response of the reply, under a cacheable request found by the response's ID;
the store changes through these calls only. -/
theorem mergeLoop_trace {σ : Type} (rc : ResponseCache σ) (P : RPCRequests) (pidx : List Nat)
    (S : RPCResponses) (idx : Nat) (st : MergeState σ) :
    ∃ new : List (RPCRequest × RPCResponse),
      (mergeLoop rc P pidx S idx st).writes = st.writes ++ new ∧
      (mergeLoop rc P pidx S idx st).store = replay rc st.store new ∧
      ∀ w ∈ new, w.2 ∈ S ∧ w.2.Error = none ∧ rc.matcher.IsCacheable w.1.Method = true ∧
        FindByID P w.2.ID = some (w.1, true) := by
  induction S generalizing idx st with
  | nil => exact ⟨[], by simp [mergeLoop, replay]⟩
  | cons response rest ih =>
    rw [mergeLoop_cons]
    rcases cacheStep_cases rc P response st.store st.writes with h | h | ⟨request, h, h1, h2, h3⟩
    · rw [h]
      exact ⟨[], by simp [replay]⟩
    · rw [h]
      cases hp : pidx[idx]? with
      | none => exact ⟨[], by simp [replay]⟩
      | some pos =>
        by_cases hlt : pos < st.preparedResponses.length
        · simp only [hlt, if_true]
          obtain ⟨new, e1, e2, e3⟩ := ih (idx + 1)
            ⟨st.store, st.preparedResponses.set pos response, st.writes, false⟩
          exact ⟨new, e1, e2, fun w hw =>
            ⟨List.mem_cons_of_mem _ (e3 w hw).1, (e3 w hw).2⟩⟩
        · simp only [hlt, if_false]
          exact ⟨[], by simp [replay]⟩
    · rw [h]
      cases hp : pidx[idx]? with
      | none =>
        refine ⟨[(request, response)], by simp [replay], by simp [replay], ?_⟩
        intro w hw
        simp only [List.mem_singleton] at hw
        subst hw
        exact ⟨List.mem_cons_self _ _, h1, h3, h2⟩
      | some pos =>
        by_cases hlt : pos < st.preparedResponses.length
        · simp only [hlt, if_true]
          obtain ⟨new, e1, e2, e3⟩ := ih (idx + 1)
            ⟨(SetResponseCache rc st.store request response).1,
              st.preparedResponses.set pos response, st.writes ++ [(request, response)], false⟩
          refine ⟨(request, response) :: new, by simpa using e1, by simpa [replay] using e2, ?_⟩
          intro w hw
          rcases List.mem_cons.mp hw with rfl | hw
          · exact ⟨List.mem_cons_self _ _, h1, h3, h2⟩
          · exact ⟨List.mem_cons_of_mem _ (e3 w hw).1, (e3 w hw).2⟩
        · simp only [hlt, if_false]
          refine ⟨[(request, response)], by simp [replay], by simp [replay], ?_⟩
          intro w hw
          simp only [List.mem_singleton] at hw
          subst hw
          exact ⟨List.mem_cons_self _ _, h1, h3, h2⟩

theorem mergeLoop_length {σ : Type} (rc : ResponseCache σ) (P : RPCRequests) (pidx : List Nat)
    (S : RPCResponses) (idx : Nat) (st : MergeState σ) :
    (mergeLoop rc P pidx S idx st).preparedResponses.length = st.preparedResponses.length := by
  induction S generalizing idx st with
  | nil => rfl
  | cons response rest ih =>
    rw [mergeLoop_cons]
    cases cacheStep rc P response st.store st.writes with
    | none => rfl
    | some sw =>
      obtain ⟨s1, w1⟩ := sw
      cases hp : pidx[idx]? with
      | none => rfl
      | some pos =>
        by_cases hlt : pos < st.preparedResponses.length
        · simp only [hlt, if_true]
          rw [ih]
          simp
        · simp only [hlt, if_false]

/-- The merge loop writes only to slots listed in `pidx` from `idx` onwards. -/
theorem mergeLoop_frame {σ : Type} (rc : ResponseCache σ) (P : RPCRequests) (pidx : List Nat)
    (S : RPCResponses) (idx : Nat) (st : MergeState σ) (i : Nat)
    (hi : ∀ k, idx ≤ k → pidx[k]? ≠ some i) :
    (mergeLoop rc P pidx S idx st).preparedResponses[i]? = st.preparedResponses[i]? := by
  induction S generalizing idx st with
  | nil => rfl
  | cons response rest ih =>
    rw [mergeLoop_cons]
    cases cacheStep rc P response st.store st.writes with
    | none => rfl
    | some sw =>
      obtain ⟨s1, w1⟩ := sw
      cases hp : pidx[idx]? with
      | none => rfl
      | some pos =>
        by_cases hlt : pos < st.preparedResponses.length
        · simp only [hlt, if_true]
          rw [ih (idx + 1) _ (fun k hk => hi k (by omega))]
          have hne : pos ≠ i := fun h => hi idx (Nat.le_refl _) (by rw [hp, h])
          simp [List.getElem?_set, hne]
        · simp only [hlt, if_false]

theorem mergeLoop_no_panic {σ : Type} (rc : ResponseCache σ) (P : RPCRequests) (pidx : List Nat)
    (S : RPCResponses) (idx : Nat) (st : MergeState σ)
    (hP : ∀ r ∈ P, r.ID.isScalar = true) (hlen : idx + S.length ≤ pidx.length)
    (hpos : ∀ pos ∈ pidx, pos < st.preparedResponses.length) (hst : st.panicked = false) :
    (mergeLoop rc P pidx S idx st).panicked = false := by
  induction S generalizing idx st with
  | nil => exact hst
  | cons response rest ih =>
    rw [mergeLoop_cons]
    cases hc : cacheStep rc P response st.store st.writes with
    | none => exact absurd hc (cacheStep_scalar rc P response _ _ hP)
    | some sw =>
      obtain ⟨s1, w1⟩ := sw
      have hidx : idx < pidx.length := by simp only [List.length_cons] at hlen; omega
      have hget : pidx[idx]? = some pidx[idx] := List.getElem?_eq_getElem hidx
      have hlt : pidx[idx] < st.preparedResponses.length := hpos _ (List.getElem_mem hidx)
      simp only [hget, hlt, if_true]
      apply ih
      · simp only [List.length_cons] at hlen; omega
      · intro pos hp
        simpa using hpos pos hp
      · rfl

/-- Without a panic, the `j`-th response of the reply ends up in the slot
`pidx[idx + j]`: the merge is by position. -/
theorem mergeLoop_placed {σ : Type} (rc : ResponseCache σ) (P : RPCRequests) (pidx : List Nat)
    (S : RPCResponses) (idx : Nat) (st : MergeState σ) (hnd : pidx.Nodup)
    (hfin : (mergeLoop rc P pidx S idx st).panicked = false) (j : Nat) (hj : j < S.length) :
    ∃ pos, pidx[idx + j]? = some pos ∧
      (mergeLoop rc P pidx S idx st).preparedResponses[pos]? = some (S.get ⟨j, hj⟩) := by
  induction S generalizing idx st j with
  | nil => simp at hj
  | cons response rest ih =>
    rw [mergeLoop_cons] at hfin ⊢
    cases hc : cacheStep rc P response st.store st.writes with
    | none => simp [hc] at hfin
    | some sw =>
      obtain ⟨s1, w1⟩ := sw
      simp only [hc] at hfin ⊢
      cases hp : pidx[idx]? with
      | none => simp [hp] at hfin
      | some pos =>
        simp only [hp] at hfin ⊢
        by_cases hlt : pos < st.preparedResponses.length
        · simp only [hlt, if_true] at hfin ⊢
          cases j with
          | zero =>
            refine ⟨pos, by simpa using hp, ?_⟩
            have hidx : idx < pidx.length := by
              rcases List.getElem?_eq_some.mp hp with ⟨h, _⟩
              exact h
            rw [mergeLoop_frame rc P pidx rest (idx + 1) _ pos]
            · simp [List.getElem?_set, hlt]
            · intro k hk hkp
              have := List.getElem?_inj hidx hnd (hp.trans hkp.symm)
              omega
          | succ j =>
            obtain ⟨pos2, h1, h2⟩ := ih (idx + 1) _ hfin j (by simpa using hj)
            refine ⟨pos2, ?_, by simpa using h2⟩
            rw [← h1]
            congr 1
            omega
        · simp [hlt] at hfin

theorem mergeResponses_trace {σ : Type} (rc : ResponseCache σ) (s : σ) (P : RPCRequests)
    (prepared : RPCResponses) (pidx : List Nat) (body : Payload RPCRequest)
    (S : RPCResponses) :
    (mergeResponses rc s P prepared pidx body S).store =
        replay rc s (mergeResponses rc s P prepared pidx body S).writes ∧
      ∀ w ∈ (mergeResponses rc s P prepared pidx body S).writes,
        w.2 ∈ S ∧ w.2.Error = none ∧ rc.matcher.IsCacheable w.1.Method = true ∧
          FindByID P w.2.ID = some (w.1, true) := by
  obtain ⟨new, e1, e2, e3⟩ := mergeLoop_trace rc P pidx S 0 ⟨s, prepared, [], false⟩
  simp only [List.nil_append] at e1
  unfold mergeResponses
  cases hp : (mergeLoop rc P pidx S 0 ⟨s, prepared, [], false⟩).panicked
  · constructor
    · simp [hp, e1, e2]
    · simpa [hp, e1] using e3
  · constructor
    · simp [hp, e1, e2]
    · simpa [hp, e1] using e3

theorem afterForward_trace {σ : Type} (rc : ResponseCache σ) (s : σ) (P : RPCRequests)
    (prepared : RPCResponses) (pidx : List Nat) (cachedMethods : List String)
    (body : Payload RPCRequest) (result : Except GoError UpstreamResponse) :
    (afterForward rc s P prepared pidx cachedMethods body result).store =
        replay rc s (afterForward rc s P prepared pidx cachedMethods body result).writes ∧
      ∀ w ∈ (afterForward rc s P prepared pidx cachedMethods body result).writes,
        w.2.Error = none ∧ rc.matcher.IsCacheable w.1.Method = true ∧
          FindByID P w.2.ID = some (w.1, true) := by
  unfold afterForward
  cases result with
  | error err => simp [replay]
  | ok res =>
    by_cases hc : (!isCacheableRequests rc P && cachedMethods.length == 0) = true
    · simp [hc, replay]
    · simp only [hc, if_false]
      cases (ParseResponses res).2.2 with
      | some e => simp [replay]
      | none =>
        have h := mergeResponses_trace rc s P prepared pidx body (ParseResponses res).1
        exact ⟨h.1, fun w hw => (h.2 w hw).2⟩

/-- Every `SetResponseCache` call of a round trip is for an error-free
response under a cacheable request of the batch found by the response's ID,
and the store changes through these calls only. -/
theorem RoundTrip_trace {σ : Type} (rc : ResponseCache σ) (s : σ)
    (parsed : Except String RPCRequests) (up : Upstream) :
    (RoundTrip rc s parsed up).store = replay rc s (RoundTrip rc s parsed up).writes ∧
      ∀ w ∈ (RoundTrip rc s parsed up).writes,
        w.2.Error = none ∧ rc.matcher.IsCacheable w.1.Method = true ∧
          ∃ P, parsed = .ok P ∧ FindByID P w.2.ID = some (w.1, true) := by
  cases parsed with
  | error err => simp [RoundTrip, replay]
  | ok P =>
    rw [RoundTrip_ok]
    cases hf : P.filter (isMiss rc s) with
    | nil => simp [replay]
    | cons first more =>
      have h := afterForward_trace rc s P (P.map (cachedFor rc s))
        (positionsFrom (isMiss rc s) P 0) (Methods (P.filter (fun r => !isMiss rc s r)))
        (proxyBodyOf first more) (up (proxyBodyOf first more))
      exact ⟨h.1, fun w hw => ⟨(h.2 w hw).1, (h.2 w hw).2.1, P, rfl, (h.2 w hw).2.2⟩⟩

/-! ## Refresh worker: lemmas -/

theorem workerLoop_cons {σ : Type} (rc : ResponseCache σ) (reqs : RPCRequests)
    (resp : RPCResponse) (rest : RPCResponses) (st : WorkerResult σ) (multiErr : List GoError) :
    workerLoop rc reqs (resp :: rest) st multiErr =
      match resp.Error with
      | some e => workerLoop rc reqs rest { st with errs := st.errs ++ [.rpc e] } multiErr
      | none =>
        match FindByID reqs resp.ID with
        | none => ({ st with panicked := true }, multiErr)
        | some (req, ok) =>
          if ok then
            workerLoop rc reqs rest
              { st with store := (SetResponseCache rc st.store req resp).1,
                        writes := st.writes ++ [(req, resp)] }
              (multierrorAppend multiErr (SetResponseCache rc st.store req resp).2)
          else workerLoop rc reqs rest st multiErr := rfl

theorem workerLoop_trace {σ : Type} (rc : ResponseCache σ) (reqs : RPCRequests)
    (S : RPCResponses) (st : WorkerResult σ) (multiErr : List GoError) :
    ∃ new : List (RPCRequest × RPCResponse),
      (workerLoop rc reqs S st multiErr).1.writes = st.writes ++ new ∧
      (workerLoop rc reqs S st multiErr).1.store = replay rc st.store new ∧
      ∀ w ∈ new, w.2 ∈ S ∧ w.2.Error = none ∧ FindByID reqs w.2.ID = some (w.1, true) := by
  induction S generalizing st multiErr with
  | nil => exact ⟨[], by simp [workerLoop, replay]⟩
  | cons resp rest ih =>
    rw [workerLoop_cons]
    cases herr : resp.Error with
    | some e =>
      obtain ⟨new, e1, e2, e3⟩ := ih { st with errs := st.errs ++ [.rpc e] } multiErr
      exact ⟨new, e1, e2, fun w hw => ⟨List.mem_cons_of_mem _ (e3 w hw).1, (e3 w hw).2⟩⟩
    | none =>
      cases hf : FindByID reqs resp.ID with
      | none => exact ⟨[], by simp [replay]⟩
      | some found =>
        obtain ⟨req, ok⟩ := found
        cases ok with
        | false =>
          obtain ⟨new, e1, e2, e3⟩ := ih st multiErr
          exact ⟨new, by simpa using e1, by simpa using e2,
            fun w hw => ⟨List.mem_cons_of_mem _ (e3 w hw).1, (e3 w hw).2⟩⟩
        | true =>
          obtain ⟨new, e1, e2, e3⟩ := ih
            { st with store := (SetResponseCache rc st.store req resp).1,
                      writes := st.writes ++ [(req, resp)] }
            (multierrorAppend multiErr (SetResponseCache rc st.store req resp).2)
          refine ⟨(req, resp) :: new, by simpa using e1, by simpa [replay] using e2, ?_⟩
          intro w hw
          rcases List.mem_cons.mp hw with rfl | hw
          · exact ⟨List.mem_cons_self _ _, herr, hf⟩
          · exact ⟨List.mem_cons_of_mem _ (e3 w hw).1, (e3 w hw).2⟩

theorem workerLoop_errs {σ : Type} (rc : ResponseCache σ) (reqs : RPCRequests)
    (S : RPCResponses) (st : WorkerResult σ) (multiErr : List GoError) :
    (∀ x ∈ st.errs, x ∈ (workerLoop rc reqs S st multiErr).1.errs) ∧
      ((workerLoop rc reqs S st multiErr).1.panicked = false →
        ∀ resp ∈ S, ∀ e, resp.Error = some e →
          GoError.rpc e ∈ (workerLoop rc reqs S st multiErr).1.errs) := by
  induction S generalizing st multiErr with
  | nil => simp [workerLoop]
  | cons resp rest ih =>
    rw [workerLoop_cons]
    cases herr : resp.Error with
    | some e =>
      have h := ih { st with errs := st.errs ++ [.rpc e] } multiErr
      refine ⟨fun x hx => h.1 x (by simp [hx]), fun hp r hr e2 he2 => ?_⟩
      rcases List.mem_cons.mp hr with rfl | hr
      · rw [herr] at he2
        cases he2
        exact h.1 _ (by simp)
      · exact h.2 hp r hr e2 he2
    | none =>
      cases hf : FindByID reqs resp.ID with
      | none => simp
      | some found =>
        obtain ⟨req, ok⟩ := found
        cases ok with
        | false =>
          have h := ih st multiErr
          refine ⟨by simpa using h.1, fun hp r hr e2 he2 => ?_⟩
          simp only [Bool.false_eq_true, if_false] at hp ⊢
          rcases List.mem_cons.mp hr with rfl | hr
          · rw [herr] at he2
            cases he2
          · exact h.2 hp r hr e2 he2
        | true =>
          have h := ih
            { st with store := (SetResponseCache rc st.store req resp).1,
                      writes := st.writes ++ [(req, resp)] }
            (multierrorAppend multiErr (SetResponseCache rc st.store req resp).2)
          refine ⟨by simpa using h.1, fun hp r hr e2 he2 => ?_⟩
          simp only [if_true] at hp ⊢
          rcases List.mem_cons.mp hr with rfl | hr
          · rw [herr] at he2
            cases he2
          · exact h.2 hp r hr e2 he2

theorem positionsFrom_length {α : Type} (p : α → Bool) (l : List α) (k : Nat) :
    (positionsFrom p l k).length = (l.filter p).length := by
  induction l generalizing k with
  | nil => rfl
  | cons x xs ih =>
    by_cases hx : p x = true
    · simp [positionsFrom, hx, ih]
    · simp [positionsFrom, hx, ih]

theorem mergeResponses_forwarded {σ : Type} (rc : ResponseCache σ) (s : σ) (P : RPCRequests)
    (prepared : RPCResponses) (pidx : List Nat) (body : Payload RPCRequest)
    (S : RPCResponses) : (mergeResponses rc s P prepared pidx body S).forwarded = some body := by
  simp only [mergeResponses]
  split <;> rfl

theorem afterForward_forwarded {σ : Type} (rc : ResponseCache σ) (s : σ) (P : RPCRequests)
    (prepared : RPCResponses) (pidx : List Nat) (cachedMethods : List String)
    (body : Payload RPCRequest) (result : Except GoError UpstreamResponse) :
    (afterForward rc s P prepared pidx cachedMethods body result).forwarded = some body := by
  unfold afterForward
  cases result with
  | error err => rfl
  | ok res =>
    by_cases hc : (!isCacheableRequests rc P && cachedMethods.length == 0) = true
    · simp [hc]
    · simp only [hc, if_false]
      cases (ParseResponses res).2.2 with
      | some e => rfl
      | none => exact mergeResponses_forwarded _ _ _ _ _ _ _

theorem Response_toList (R : RPCResponses) : (Response R).Body.toList = R := by
  match R with
  | [] => rfl
  | [_] => rfl
  | _ :: _ :: _ => rfl

theorem positionsFrom_nodup {α : Type} (p : α → Bool) (l : List α) (k : Nat) :
    (positionsFrom p l k).Nodup :=
  (positionsFrom_sorted p l k).imp (fun h => Nat.ne_of_lt h)

theorem replay_memory_lookup (mt : Matcher) (ws : List (RPCRequest × RPCResponse))
    (m : MemoryState) (hw : ∀ w ∈ ws, mt.IsCacheable w.1.Method = true) (key : String)
    (v : cacheValue) (h : memoryLookup (replay ⟨MemoryCache, mt⟩ m ws) key = some v) :
    memoryLookup m key = some v ∨ mt.IsCacheable v.Request.Method = true := by
  induction ws generalizing m with
  | nil => exact Or.inl h
  | cons w ws ih =>
    rcases ih _ (fun x hx => hw x (List.mem_cons_of_mem _ hx)) h with h1 | h1
    · rw [SetResponseCache_memory_lookup] at h1
      by_cases hk : key ∈ (mt.Keys w.1.Method w.1.Params).map (fun k => k.Key)
      · simp only [hk, if_true, Option.some.injEq] at h1
        subst h1
        exact Or.inr (hw w (List.mem_cons_self _ _))
      · simp only [hk, if_false] at h1
        exact Or.inl h1
    · exact Or.inr h1

theorem RoundTrip_single_miss {σ : Type} (rc : ResponseCache σ) (s : σ) (r : RPCRequest)
    (resp : RPCResponse) (up : Upstream) (res : UpstreamResponse)
    (hm : isMiss rc s r = true) (hc : rc.matcher.IsCacheable r.Method = true)
    (hup : up (.object r) = .ok res) (hparse : ParseResponses res = ([resp], res.Body, none))
    (herr : resp.Error = none) (hid : Equal r.ID resp.ID = some true) :
    RoundTrip rc s (.ok [r]) up =
      ⟨(SetResponseCache rc s r resp).1, some (.object r), [(r, resp)],
        .json ⟨200, "application/json", .object resp⟩⟩ := by
  rw [RoundTrip_ok]
  have hstep : cacheStep rc [r] resp s [] =
      some ((SetResponseCache rc s r resp).1, [(r, resp)]) := by
    simp [cacheStep, herr, FindByID, hid, hc]
  simp [List.filter, hm, afterForward, proxyBodyOf, hup, isCacheableRequests, hc, hparse,
    mergeResponses, positionsFrom, mergeLoop_cons, hstep, mergeLoop, Response]

theorem RoundTrip_single_hit {σ : Type} (rc : ResponseCache σ) (s : σ) (r : RPCRequest)
    (up : Upstream) (hm : isMiss rc s r = false) :
    RoundTrip rc s (.ok [r]) up =
      ⟨s, none, [], .json ⟨200, "application/json", .object (cachedFor rc s r)⟩⟩ := by
  rw [RoundTrip_ok]
  simp [List.filter, hm, Response]

theorem updateWorker_ok {σ : Type} (rc : ResponseCache σ) (s : σ) (reqs : RPCRequests)
    (S : RPCResponses) :
    (updateWorker rc s reqs (.ok S)).writes =
        (workerLoop rc reqs S ⟨s, [], [], false⟩ []).1.writes ∧
      (updateWorker rc s reqs (.ok S)).store =
        (workerLoop rc reqs S ⟨s, [], [], false⟩ []).1.store ∧
      (updateWorker rc s reqs (.ok S)).panicked =
        (workerLoop rc reqs S ⟨s, [], [], false⟩ []).1.panicked ∧
      ∀ x ∈ (workerLoop rc reqs S ⟨s, [], [], false⟩ []).1.errs,
        x ∈ (updateWorker rc s reqs (.ok S)).errs := by
  simp only [updateWorker]
  split
  · exact ⟨rfl, rfl, rfl, fun _ h => h⟩
  · split
    · exact ⟨rfl, rfl, rfl, fun _ h => by simp [h]⟩
    · exact ⟨rfl, rfl, rfl, fun _ h => h⟩

/-! ## Transport: claims -/

/-- C1, the code at the failing input of the claim's example. The batch has
IDs "1".."5", all methods cacheable, the store is empty and the upstream
answers with IDs "5".."1". The assembled list carries the IDs in the upstream
order "5".."1": the merge is by position. The cache writes of the same loop
are matched by ID: each response is stored under the request with its ID. -/
theorem reversed_reply_is_merged_by_position :
    reverseBatch.map (fun r => r.ID)
      = [.str "1", .str "2", .str "3", .str "4", .str "5"] ∧
    (RoundTrip reverseCacher [] (.ok reverseBatch) (replyWith reverseReply)).reply.responses.map
        (fun r => r.ID)
      = [.str "5", .str "4", .str "3", .str "2", .str "1"] ∧
    (RoundTrip reverseCacher [] (.ok reverseBatch) (replyWith reverseReply)).writes.map
        (fun w => (w.1.ID, w.2.ID))
      = [(.str "5", .str "5"), (.str "4", .str "4"), (.str "3", .str "3"),
         (.str "2", .str "2"), (.str "1", .str "1")] :=
  ⟨rfl, rfl, rfl⟩

/-- C3. Only misses are forwarded. For every parsed batch `P` and store state,
the positions split into the hits and the misses of the cache lookups, each
list in increasing order and every position in exactly one of them; the
requests to forward are those at the miss positions, that is `P` filtered by
"lookup is empty" in the original order; and the body sent upstream is absent
when there is no miss, a single object for one miss and an array for two or
more. -/
theorem only_misses_are_forwarded {σ : Type} (rc : ResponseCache σ) (s : σ)
    (P : RPCRequests) (up : Upstream) :
    (RoundTrip rc s (.ok P) up).forwarded =
      (match P.filter (isMiss rc s) with
        | [] => none
        | [q] => some (.object q)
        | q :: qs => some (.array (q :: qs))) ∧
    FindByPositions P (SplitEmptyResponsePositions (fromCache rc s P).1).2
      = P.filter (isMiss rc s) ∧
    (∀ i, i ∈ (SplitEmptyResponsePositions (fromCache rc s P).1).2 ↔
      ∃ h : i < P.length, isMiss rc s (P.get ⟨i, h⟩) = true) ∧
    (∀ i, i ∈ (SplitEmptyResponsePositions (fromCache rc s P).1).1 ↔
      ∃ h : i < P.length, isMiss rc s (P.get ⟨i, h⟩) = false) ∧
    (SplitEmptyResponsePositions (fromCache rc s P).1).2.Pairwise (fun a b => a < b) ∧
    (SplitEmptyResponsePositions (fromCache rc s P).1).1.Pairwise (fun a b => a < b) := by
  simp only [fromCache_eq, split_prepared]
  refine ⟨?_, FindByPositions_filter _ _, ?_, ?_, positionsFrom_sorted _ _ _,
    positionsFrom_sorted _ _ _⟩
  · rw [RoundTrip_ok]
    cases hf : P.filter (isMiss rc s) with
    | nil => rfl
    | cons first more =>
      simp only [afterForward_forwarded]
      cases more <;> rfl
  · intro i
    rw [mem_positionsFrom]
    constructor
    · rintro ⟨j, h, hi, hp⟩
      have : i = j := by omega
      subst this
      exact ⟨h, hp⟩
    · rintro ⟨h, hp⟩
      exact ⟨i, h, by omega, hp⟩
  · intro i
    rw [mem_positionsFrom]
    constructor
    · rintro ⟨j, h, hi, hp⟩
      have : i = j := by omega
      subst this
      exact ⟨h, by simpa using hp⟩
    · rintro ⟨h, hp⟩
      exact ⟨i, h, by omega, by simpa using hp⟩

/-- C5, the code at a failing input. The batch holds a cacheable request
("test") and a request whose method is not cacheable ("other"); the store is
empty, so nothing is a hit and both are forwarded; the upstream answers both
without error. `RoundTrip` hands the upstream response back unparsed and
makes no cache write: the cacheable request is still a miss afterwards. With
a cache hit in the same batch the sibling path parses the reply and does
write the cacheable miss. -/
theorem mixed_batch_without_hit_is_not_cached :
    (memoryCacher ["test"]).matcher.IsCacheable "test" = true ∧
    (memoryCacher ["test"]).matcher.IsCacheable "other" = false ∧
    (RoundTrip (memoryCacher ["test"]) [] (.ok mixedBatch) (replyWith mixedReply)).forwarded
      = some (.array mixedBatch) ∧
    (RoundTrip (memoryCacher ["test"]) [] (.ok mixedBatch) (replyWith mixedReply)).writes = [] ∧
    (RoundTrip (memoryCacher ["test"]) [] (.ok mixedBatch) (replyWith mixedReply)).store = [] ∧
    isMiss (memoryCacher ["test"])
      (RoundTrip (memoryCacher ["test"]) [] (.ok mixedBatch) (replyWith mixedReply)).store
      (mkRequest "1" "test") = true ∧
    (RoundTrip (memoryCacher ["test", "warm"]) warmStore
      (.ok (mkRequest "0" "warm" :: mixedBatch)) (replyWith mixedReply)).writes
      = [(mkRequest "1" "test", mkResponse "1" "15")] :=
  ⟨rfl, rfl, rfl, rfl, rfl, rfl, rfl⟩

/-- C2. Single miss then hit, on the in-memory store: the method of `r` is
cacheable, the matcher yields a key, the store has no entry under the keys of
`r`, and the upstream answers the forwarded object `r` with one response `s`
that has a non-empty `jsonrpc`, no error and an ID equal to `r.ID`. Then the
first `RoundTrip` forwards `r` as a single object, returns `s` and makes
exactly the cache write `(r, s)`; a second `RoundTrip` of `r` on the
resulting store forwards nothing (whatever the upstream would do), writes
nothing and returns `s` with `id = r.ID`. -/
theorem single_miss_then_hit (mt : Matcher) (m : MemoryState) (r : RPCRequest)
    (s : RPCResponse) (up up2 : Upstream) (res : UpstreamResponse)
    (hc : mt.IsCacheable r.Method = true) (hk : mt.Keys r.Method r.Params ≠ [])
    (hmiss : ∀ k ∈ mt.Keys r.Method r.Params, memoryLookup m k.Key = none)
    (hup : up (.object r) = .ok res) (hparse : ParseResponses res = ([s], res.Body, none))
    (hs : s.IsEmpty = false) (herr : s.Error = none) (hid : Equal r.ID s.ID = some true) :
    RoundTrip ⟨MemoryCache, mt⟩ m (.ok [r]) up =
      ⟨(SetResponseCache ⟨MemoryCache, mt⟩ m r s).1, some (.object r), [(r, s)],
        .json ⟨200, "application/json", .object s⟩⟩ ∧
    RoundTrip ⟨MemoryCache, mt⟩ (SetResponseCache ⟨MemoryCache, mt⟩ m r s).1 (.ok [r]) up2 =
      ⟨(SetResponseCache ⟨MemoryCache, mt⟩ m r s).1, none, [],
        .json ⟨200, "application/json", .object { s with ID := r.ID }⟩⟩ := by
  have hm : isMiss ⟨MemoryCache, mt⟩ m r = true := by
    simp only [isMiss, GetResponseCache_memory_miss mt m r hmiss]
    rfl
  have hget := SetResponseCache_then_get mt m r s hk hs
  have hm2 : isMiss ⟨MemoryCache, mt⟩ (SetResponseCache ⟨MemoryCache, mt⟩ m r s).1 r = false := by
    simp only [isMiss, hget, hs]
  refine ⟨RoundTrip_single_miss _ m r s up res hm hc hup hparse herr hid, ?_⟩
  rw [RoundTrip_single_hit _ _ r up2 hm2]
  simp only [cachedFor, hget]

theorem single_miss_then_hit_witness :
    RoundTrip (memoryCacher ["test"]) [] (.ok [mkRequest "1" "test"])
        (replyWith [mkResponse "1" "15"]) =
      ⟨(SetResponseCache (memoryCacher ["test"]) [] (mkRequest "1" "test")
          (mkResponse "1" "15")).1,
        some (.object (mkRequest "1" "test")), [(mkRequest "1" "test", mkResponse "1" "15")],
        .json ⟨200, "application/json", .object (mkResponse "1" "15")⟩⟩ ∧
    RoundTrip (memoryCacher ["test"])
        (SetResponseCache (memoryCacher ["test"]) [] (mkRequest "1" "test")
          (mkResponse "1" "15")).1
        (.ok [mkRequest "1" "test"]) (fun _ => .error (.other "connection refused")) =
      ⟨(SetResponseCache (memoryCacher ["test"]) [] (mkRequest "1" "test")
          (mkResponse "1" "15")).1, none, [],
        .json ⟨200, "application/json",
          .object { mkResponse "1" "15" with ID := (mkRequest "1" "test").ID }⟩⟩ :=
  single_miss_then_hit (methodMatcher ["test"]) [] (mkRequest "1" "test")
    (mkResponse "1" "15") (replyWith [mkResponse "1" "15"])
    (fun _ => .error (.other "connection refused")) ⟨200, "[...]", .ok [mkResponse "1" "15"]⟩
    rfl (by simp [methodMatcher, mkRequest]) (fun _ _ => rfl) rfl rfl rfl rfl rfl

/-- C4, counterexample. A batch of a request for "warm" (a cache hit) and a
request for "test" whose ID is the array `["7"]` (a miss): the upstream
echoes the ID in its one response, comparing the two array IDs panics in
`FindByID`, and no response list is assembled. And a batch of a cacheable and
a non-configured method without a hit, answered with an empty array: the
upstream's reply is passed on as it is, with no entries for the two requests. -/
theorem array_id_next_to_hit_panics :
    isMiss (memoryCacher ["test", "warm"]) warmStore (mkRequest "1" "warm") = false ∧
    [(⟨"2.0", .slice [.str "7"], .str "16", none⟩ : RPCResponse)].length ≤
      ([mkRequest "1" "warm", ⟨"", "2.0", .slice [.str "7"], "test", .slice [.str "1"]⟩].filter
        (isMiss (memoryCacher ["test", "warm"]) warmStore)).length ∧
    (RoundTrip (memoryCacher ["test", "warm"]) warmStore
      (.ok [mkRequest "1" "warm", ⟨"", "2.0", .slice [.str "7"], "test", .slice [.str "1"]⟩])
      (replyWith [⟨"2.0", .slice [.str "7"], .str "16", none⟩])).reply = .panic ∧
    (RoundTrip (memoryCacher ["test"]) [] (.ok mixedBatch)
      (fun _ => .ok ⟨200, "[]", .ok []⟩)).reply = .upstream ⟨200, "[]", .ok []⟩ :=
  ⟨rfl, by decide, rfl, rfl⟩

/-- C4, amended. Cache hits keep their slot and the caller's ID. The IDs of
the batch `P` are scalars or null, the upstream answers with a reply that
parses to `S` with `|S|` at most the number of misses, and the reply is
merged (all methods cacheable, or some request was a hit). Then `RoundTrip`
assembles a list `R` of exactly `|P|` entries in which every position whose
cache lookup hit holds the response the lookup returned with its `id`
replaced by `P[i].id`; the merge of `S` does not touch these positions. -/
theorem hits_keep_slot_and_id {σ : Type} (rc : ResponseCache σ) (s : σ) (P : RPCRequests)
    (up : Upstream) (res : UpstreamResponse) (S : RPCResponses)
    (hid : ∀ r ∈ P, r.ID.isScalar = true)
    (hup : ∀ body, up body = .ok res) (hS : ParseResponses res = (S, res.Body, none))
    (hlen : S.length ≤ (P.filter (isMiss rc s)).length)
    (hasm : isCacheableRequests rc P = true ∨ ∃ r ∈ P, isMiss rc s r = false) :
    ∃ R : RPCResponses,
      (RoundTrip rc s (.ok P) up).reply = .json (Response R) ∧ R.length = P.length ∧
      ∀ i (h : i < P.length), isMiss rc s (P.get ⟨i, h⟩) = false →
        R[i]? = some (cachedFor rc s (P.get ⟨i, h⟩)) := by
  rw [RoundTrip_ok]
  cases hf : P.filter (isMiss rc s) with
  | nil => exact ⟨P.map (cachedFor rc s), rfl, by simp, fun i h _ => by simp [h]⟩
  | cons first more =>
    have hcond : (!isCacheableRequests rc P &&
        (Methods (P.filter (fun r => !isMiss rc s r))).length == 0) = false := by
      rcases hasm with h | ⟨r, hr, hm⟩
      · simp [h]
      · have hmem : r ∈ P.filter (fun r => !isMiss rc s r) := by
          simp [List.mem_filter, hr, hm]
        have hne : (P.filter (fun r => !isMiss rc s r)) ≠ [] := List.ne_nil_of_mem hmem
        simp [Methods, hne]
    have hnp := mergeLoop_no_panic rc P (positionsFrom (isMiss rc s) P 0) S 0
      ⟨s, P.map (cachedFor rc s), [], false⟩ hid
      (by rw [positionsFrom_length]; omega)
      (by
        intro pos hp
        obtain ⟨j, hj, hi, _⟩ := (mem_positionsFrom _ _ _ _).mp hp
        simp only [List.length_map]
        omega)
      rfl
    simp only [afterForward, hup, hcond, hS, mergeResponses, hnp]
    refine ⟨_, rfl, by rw [mergeLoop_length]; simp, fun i h hm => ?_⟩
    rw [mergeLoop_frame]
    · simp [h]
    · intro k _ hk
      obtain ⟨j, hj, hi, hp⟩ := (mem_positionsFrom _ _ _ _).mp (List.getElem?_mem hk)
      have : i = j := by omega
      subst this
      rw [hm] at hp
      cases hp

theorem hits_keep_slot_and_id_witness :
    ∃ R : RPCResponses,
      (RoundTrip (memoryCacher ["test", "warm"]) warmStore
        (.ok [mkRequest "10" "warm", mkRequest "20" "test"])
        (replyWith [mkResponse "20" "16"])).reply = .json (Response R) ∧
      R.length = [mkRequest "10" "warm", mkRequest "20" "test"].length ∧
      ∀ i (h : i < [mkRequest "10" "warm", mkRequest "20" "test"].length),
        isMiss (memoryCacher ["test", "warm"]) warmStore
          ([mkRequest "10" "warm", mkRequest "20" "test"].get ⟨i, h⟩) = false →
        R[i]? = some (cachedFor (memoryCacher ["test", "warm"]) warmStore
          ([mkRequest "10" "warm", mkRequest "20" "test"].get ⟨i, h⟩)) :=
  hits_keep_slot_and_id (memoryCacher ["test", "warm"]) warmStore
    [mkRequest "10" "warm", mkRequest "20" "test"] (replyWith [mkResponse "20" "16"])
    ⟨200, "[...]", .ok [mkResponse "20" "16"]⟩ [mkResponse "20" "16"]
    (by intro r hr; simp at hr; rcases hr with rfl | rfl <;> rfl)
    (fun _ => rfl) rfl (by decide) (Or.inl rfl)

/-- C6. Error responses are never cached. In every `RoundTrip` and in every
worker of the refresher's `update`, each `SetResponseCache` call is made with
a response whose `error` is null, and the store changes through these calls
only. When the transport assembles a reply from parsed upstream responses,
every one of them, with or without error, is in the assembled list; a worker
that ran to the end has sent the error of every error response on `errs`. -/
theorem error_responses_are_never_cached {σ : Type} (rc : ResponseCache σ) (s : σ)
    (parsed : Except String RPCRequests) (up : Upstream) (reqs : RPCRequests)
    (result : Except GoError RPCResponses) :
    ((∀ w ∈ (RoundTrip rc s parsed up).writes, w.2.Error = none) ∧
      (RoundTrip rc s parsed up).store = replay rc s (RoundTrip rc s parsed up).writes) ∧
    ((∀ w ∈ (updateWorker rc s reqs result).writes, w.2.Error = none) ∧
      (updateWorker rc s reqs result).store =
        replay rc s (updateWorker rc s reqs result).writes) ∧
    (∀ body res S h, (RoundTrip rc s parsed up).forwarded = some body → up body = .ok res →
      ParseResponses res = (S, res.Body, none) → (RoundTrip rc s parsed up).reply = .json h →
      ∀ resp ∈ S, resp ∈ h.Body.toList) ∧
    (∀ S, result = .ok S → (updateWorker rc s reqs result).panicked = false →
      ∀ resp ∈ S, ∀ e, resp.Error = some e →
        GoError.rpc e ∈ (updateWorker rc s reqs result).errs) := by
  refine ⟨⟨fun w hw => ((RoundTrip_trace rc s parsed up).2 w hw).1,
    (RoundTrip_trace rc s parsed up).1⟩, ?_, ?_, ?_⟩
  · cases result with
    | error err => simp [updateWorker, replay]
    | ok S =>
      obtain ⟨h1, h2, _, _⟩ := updateWorker_ok rc s reqs S
      obtain ⟨new, e1, e2, e3⟩ := workerLoop_trace rc reqs S ⟨s, [], [], false⟩ []
      simp only [List.nil_append] at e1
      rw [h1, h2, e1, e2]
      exact ⟨fun w hw => (e3 w hw).2.1, rfl⟩
  · intro body res S h hfw hup hS hrep resp hresp
    cases parsed with
    | error err => simp [RoundTrip] at hfw
    | ok P =>
      rw [RoundTrip_ok] at hfw hrep
      cases hf : P.filter (isMiss rc s) with
      | nil => simp [hf] at hfw
      | cons first more =>
        simp only [hf, afterForward_forwarded, Option.some.injEq] at hfw
        subst hfw
        simp only [hf, afterForward, hup, hS] at hrep
        split at hrep
        · cases hrep
        · simp only [mergeResponses] at hrep
          split at hrep
          · cases hrep
          · next hnp =>
            simp only [Reply.json.injEq] at hrep
            subst hrep
            rw [Response_toList]
            obtain ⟨j, hj, rfl⟩ := List.mem_iff_get.mp hresp
            obtain ⟨pos, _, hpos⟩ := mergeLoop_placed rc P (positionsFrom (isMiss rc s) P 0) S 0
              ⟨s, P.map (cachedFor rc s), [], false⟩ (positionsFrom_nodup _ _ _)
              (by simpa using hnp) j.1 j.2
            exact List.getElem?_mem hpos
  · intro S hres hnp resp hresp e he
    subst hres
    obtain ⟨_, _, h3, h4⟩ := updateWorker_ok rc s reqs S
    rw [h3] at hnp
    exact h4 _ ((workerLoop_errs rc reqs S ⟨s, [], [], false⟩ []).2 hnp resp hresp e he)

theorem error_responses_are_never_cached_witness :
    mkError "1" "boom" ∈ (Response [mkError "1" "boom"]).Body.toList ∧
    GoError.rpc ⟨-32000, "boom", .nil⟩ ∈
      (updateWorker (memoryCacher ["test"]) [] [mkRequest "1" "test"]
        (.ok [mkError "1" "boom"])).errs ∧
    (RoundTrip (memoryCacher ["test"]) [] (.ok [mkRequest "1" "test"])
        (replyWith [mkError "1" "boom"])).store =
      replay (memoryCacher ["test"]) []
        (RoundTrip (memoryCacher ["test"]) [] (.ok [mkRequest "1" "test"])
          (replyWith [mkError "1" "boom"])).writes :=
  ⟨(error_responses_are_never_cached (memoryCacher ["test"]) []
      (.ok [mkRequest "1" "test"]) (replyWith [mkError "1" "boom"]) [mkRequest "1" "test"]
      (.ok [mkError "1" "boom"])).2.2.1 (.object (mkRequest "1" "test"))
      ⟨200, "[...]", .ok [mkError "1" "boom"]⟩ [mkError "1" "boom"]
      (Response [mkError "1" "boom"]) rfl rfl rfl rfl _ (List.mem_singleton_self _),
    (error_responses_are_never_cached (memoryCacher ["test"]) []
      (.ok [mkRequest "1" "test"]) (replyWith [mkError "1" "boom"]) [mkRequest "1" "test"]
      (.ok [mkError "1" "boom"])).2.2.2 [mkError "1" "boom"] rfl rfl _
      (List.mem_singleton_self _) _ rfl,
    (error_responses_are_never_cached (memoryCacher ["test"]) []
      (.ok [mkRequest "1" "test"]) (replyWith [mkError "1" "boom"]) [mkRequest "1" "test"]
      (.ok [mkError "1" "boom"])).1.2⟩

/-- C7. Non-cacheable methods are never stored by the transport: every
`SetResponseCache` call of a `RoundTrip` is for a request whose method is
cacheable, and the store changes through these calls only. On the in-memory
store, every entry present after the round trip was either present before
with the same value or belongs to a request with a cacheable method, so no
entry is created for a non-cacheable request. -/
theorem noncacheable_methods_are_never_stored {σ : Type} (rc : ResponseCache σ) (s : σ)
    (mt : Matcher) (m : MemoryState) (parsed : Except String RPCRequests) (up : Upstream) :
    ((∀ w ∈ (RoundTrip rc s parsed up).writes, rc.matcher.IsCacheable w.1.Method = true) ∧
      (RoundTrip rc s parsed up).store = replay rc s (RoundTrip rc s parsed up).writes) ∧
    (∀ key v, memoryLookup (RoundTrip ⟨MemoryCache, mt⟩ m parsed up).store key = some v →
      memoryLookup m key = some v ∨ mt.IsCacheable v.Request.Method = true) := by
  refine ⟨⟨fun w hw => ((RoundTrip_trace rc s parsed up).2 w hw).2.1,
    (RoundTrip_trace rc s parsed up).1⟩, fun key v h => ?_⟩
  have ht := RoundTrip_trace ⟨MemoryCache, mt⟩ m parsed up
  rw [ht.1] at h
  exact replay_memory_lookup mt _ m (fun w hw => (ht.2 w hw).2.1) key v h

/-! ## Matcher: lemmas -/

theorem hexChars_length (bs : List Nat) : (hexChars bs).length = 2 * bs.length := by
  induction bs with
  | nil => rfl
  | cons b bs ih => simp [hexChars, ih]; omega

theorem hexDigit_mem (n : Nat) : hexDigit n ∈ hexDigits := by
  unfold hexDigit
  have h : n % 16 < 16 := Nat.mod_lt _ (by decide)
  generalize n % 16 = k at h
  interval_cases k <;> decide

theorem hexChars_mem (bs : List Nat) : ∀ ch ∈ hexChars bs, ch ∈ hexDigits := by
  induction bs with
  | nil => simp [hexChars]
  | cons b bs ih =>
    intro ch hch
    simp only [hexChars, List.mem_cons] at hch
    rcases hch with rfl | rfl | hch
    · exact hexDigit_mem _
    · exact hexDigit_mem _
    · exact ih ch hch

theorem digest_length (cd : Codec) (b : List Nat) : (hexChars (cd.sum256 b)).length = 64 := by
  rw [hexChars_length, cd.sum256_length]

theorem digestOf_ne_empty (cd : Codec) (params : List Value) : digestOf cd params ≠ "" := by
  intro h
  have hl : (digestOf cd params).length = 64 := by
    simp [digestOf, String.length, digest_length]
  rw [h] at hl
  simp at hl

theorem interfaceSliceToString_cons (cd : Codec) (p : Value) (ps : List Value) :
    interfaceSliceToString cd (p :: ps) = digestOf cd (p :: ps) := by
  simp [interfaceSliceToString, digestOf]

theorem toKey_error (cd : Codec) (c : cacheMethod) (method : String) (params : Value)
    (e : String) (h : c.matchParams params = .error e) :
    c.toKey cd method params = ⟨"", 0⟩ := by
  simp [cacheMethod.toKey, h]

theorem toKey_ok_nil (cd : Codec) (c : cacheMethod) (method : String) (params : Value)
    (h : c.matchParams params = .ok []) : c.toKey cd method params = ⟨method, 0⟩ := by
  simp [cacheMethod.toKey, h, interfaceSliceToString]

theorem toKey_ok_cons (cd : Codec) (c : cacheMethod) (method : String) (params : Value)
    (p : Value) (ps : List Value) (h : c.matchParams params = .ok (p :: ps)) :
    c.toKey cd method params =
      ⟨method ++ "_" ++ digestOf cd (p :: ps), (p :: ps).length⟩ := by
  simp [cacheMethod.toKey, h, interfaceSliceToString_cons, digestOf_ne_empty]

theorem key_with_digest_not_empty (method d : String) (n : Nat) :
    (⟨method ++ "_" ++ d, n⟩ : cacheKey).IsEmpty = false := by
  have hl : (method ++ "_" ++ d).length ≠ 0 := by
    simp only [String.length_append]
    have : ("_" : String).length = 1 := rfl
    omega
  have hne : method ++ "_" ++ d ≠ "" := by
    intro h
    rw [h] at hl
    exact hl rfl
  simp [cacheKey.IsEmpty, hne]

theorem projectByID_ok (xs : List Value) (ids : List Int) (idx : Nat) (acc : List Value)
    (h : idx + ids.length ≤ xs.length) :
    projectByID xs ids idx acc = .ok (acc ++ (xs.drop idx).take ids.length) := by
  induction ids generalizing idx acc with
  | nil => simp [projectByID]
  | cons i rest ih =>
    have hlt : idx < xs.length := by simp only [List.length_cons] at h; omega
    have hnot : ¬ idx ≥ xs.length := by omega
    unfold projectByID
    simp only [hnot, dite_false]
    rw [ih (idx + 1) _ (by simp only [List.length_cons] at h; omega)]
    have hd : xs.drop idx = xs[idx] :: xs.drop (idx + 1) := List.drop_eq_getElem_cons hlt
    rw [hd, List.length_cons, List.take_succ_cons, List.append_assoc]
    rfl

theorem projectByID_error (xs : List Value) (ids : List Int) (idx : Nat) (acc : List Value)
    (hidx : idx ≤ xs.length) (h : xs.length < idx + ids.length) :
    ∃ e, projectByID xs ids idx acc = .error e := by
  induction ids generalizing idx acc with
  | nil => simp only [List.length_nil] at h; omega
  | cons i rest ih =>
    unfold projectByID
    by_cases hge : idx ≥ xs.length
    · refine ⟨"invalid index in slice params", ?_⟩
      simp [hge]
    · simp only [hge, dite_false]
      exact ih (idx + 1) _ (by omega) (by simp only [List.length_cons] at h; omega)

theorem projectByName_ok (kvs : List (String × Value)) (names : List String)
    (acc : List Value) (h : ∀ n ∈ names, (kvs.lookup n).isSome = true) :
    projectByName kvs names acc = .ok (acc ++ names.filterMap (fun n => kvs.lookup n)) := by
  induction names generalizing acc with
  | nil => simp [projectByName]
  | cons n rest ih =>
    have hn := h n (List.mem_cons_self _ _)
    cases hl : kvs.lookup n with
    | none => simp [hl] at hn
    | some v =>
      unfold projectByName
      simp only [hl]
      rw [ih _ (fun m hm => h m (List.mem_cons_of_mem _ hm))]
      simp [List.filterMap_cons, hl]

theorem projectByName_error (kvs : List (String × Value)) (names : List String)
    (acc : List Value) (h : ∃ n ∈ names, kvs.lookup n = none) :
    ∃ e, projectByName kvs names acc = .error e := by
  induction names generalizing acc with
  | nil => simp at h
  | cons n rest ih =>
    unfold projectByName
    cases hl : kvs.lookup n with
    | none => exact ⟨_, rfl⟩
    | some v =>
      simp only
      obtain ⟨m, hm, hmn⟩ := h
      rcases List.mem_cons.mp hm with rfl | hm
      · rw [hl] at hmn; cases hmn
      · exact ih _ ⟨m, hm, hmn⟩

theorem projectByName_length (kvs : List (String × Value)) (names : List String)
    (acc key : List Value) (h : projectByName kvs names acc = .ok key) :
    key.length = acc.length + names.length := by
  induction names generalizing acc with
  | nil =>
    simp only [projectByName, Except.ok.injEq] at h
    subst h
    simp
  | cons n rest ih =>
    unfold projectByName at h
    cases hl : kvs.lookup n with
    | none => simp [hl] at h
    | some v =>
      simp only [hl] at h
      rw [ih _ h]
      simp
      omega

theorem toKey_ok (cd : Codec) (c : cacheMethod) (method : String) (params : Value)
    (key : List Value) (h : c.matchParams params = .ok key) (hne : key ≠ []) :
    c.toKey cd method params = ⟨method ++ "_" ++ digestOf cd key, key.length⟩ := by
  cases key with
  | nil => exact absurd rfl hne
  | cons p ps => exact toKey_ok_cons cd c method params p ps h

theorem matchParams_slice (c : cacheMethod) (xs : List Value)
    (hc : c.cacheByParams = true) (hid : c.paramsInCacheID ≠ []) :
    c.matchParams (.slice xs) = projectByID xs c.paramsInCacheID 0 [] := by
  have hl : c.paramsInCacheID.length ≠ 0 := fun h => hid (List.length_eq_zero.mp h)
  have hl2 : c.paramsInCacheID.length > 0 := Nat.pos_of_ne_zero hl
  simp [cacheMethod.matchParams, cacheMethod.matchByID, hc, hl, hl2]

theorem matchParams_map (c : cacheMethod) (kvs : List (String × Value))
    (hc : c.cacheByParams = true) (hn : c.paramsInCacheName ≠ []) :
    c.matchParams (.map kvs) = projectByName kvs c.paramsInCacheName [] := by
  have hl : c.paramsInCacheName.length ≠ 0 := fun h => hn (List.length_eq_zero.mp h)
  have hl2 : c.paramsInCacheName.length > 0 := Nat.pos_of_ne_zero hl
  by_cases hid : c.paramsInCacheID.length > 0
  · simp [cacheMethod.matchParams, cacheMethod.matchByID, cacheMethod.matchByName, hc, hl, hl2,
      hid]
  · simp [cacheMethod.matchParams, cacheMethod.matchByID, cacheMethod.matchByName, hc, hl, hl2,
      hid]

theorem matchParams_slice_names_only (c : cacheMethod) (xs : List Value)
    (hc : c.cacheByParams = true) (hid : c.paramsInCacheID = [])
    (hn : c.paramsInCacheName ≠ []) : ∃ e, c.matchParams (.slice xs) = .error e := by
  have hl : c.paramsInCacheName.length ≠ 0 := fun h => hn (List.length_eq_zero.mp h)
  refine ⟨"cannot match parameters", ?_⟩
  simp [cacheMethod.matchParams, cacheMethod.matchByID, cacheMethod.matchByName, hc, hl, hid]

theorem matchParams_map_ids_only (c : cacheMethod) (kvs : List (String × Value))
    (hc : c.cacheByParams = true) (hid : c.paramsInCacheID ≠ [])
    (hn : c.paramsInCacheName = []) : ∃ e, c.matchParams (.map kvs) = .error e := by
  have hl : c.paramsInCacheID.length ≠ 0 := fun h => hid (List.length_eq_zero.mp h)
  refine ⟨"cannot match parameters", ?_⟩
  simp [cacheMethod.matchParams, cacheMethod.matchByID, cacheMethod.matchByName, hc, hl, hn]

theorem matchParams_scalar (c : cacheMethod) (params : Value)
    (hc : c.cacheByParams = true)
    (hp : c.paramsInCacheID ≠ [] ∨ c.paramsInCacheName ≠ [])
    (hs : params.isScalar = true) : ∃ e, c.matchParams params = .error e := by
  have hl : ¬ (c.paramsInCacheID.length = 0 ∧ c.paramsInCacheName.length = 0) := by
    rintro ⟨h1, h2⟩
    rcases hp with h | h
    · exact h (List.length_eq_zero.mp h1)
    · exact h (List.length_eq_zero.mp h2)
  refine ⟨"cannot match parameters", ?_⟩
  cases params <;>
    simp_all [cacheMethod.matchParams, cacheMethod.matchByID, cacheMethod.matchByName,
      Value.isScalar]

theorem Keys_eq (cd : Codec) (m : Match) (method : String) (params : Value)
    (ms : List cacheMethod) (h : m.methods.lookup method = some ms) :
    m.Keys cd method params =
      cacheKeys.sort
        ((ms.map (fun cm => cm.toKey cd method params)).filter (fun key => !key.IsEmpty)) := by
  simp only [Match.Keys, h]
  split
  · rfl
  · next hlen =>
    have : (ms.map (fun cm => cm.toKey cd method params)).filter (fun key => !key.IsEmpty) = [] :=
      List.length_eq_zero.mp (by omega)
    rw [this]
    rfl

theorem Keys_none (cd : Codec) (m : Match) (method : String) (params : Value)
    (h : m.methods.lookup method = none) : m.Keys cd method params = [] := by
  simp [Match.Keys, h]

theorem lexLE_total (a b : List Nat) : lexLE a b = true ∨ lexLE b a = true := by
  induction a generalizing b with
  | nil => exact Or.inl (by simp [lexLE])
  | cons x xs ih =>
    cases b with
    | nil => exact Or.inr (by simp [lexLE])
    | cons y ys =>
      rcases Nat.lt_trichotomy x y with h | h | h
      · exact Or.inl (by simp [lexLE, h])
      · subst h
        simpa [lexLE] using ih ys
      · exact Or.inr (by simp [lexLE, h])

theorem lexLE_trans (a b c : List Nat) (hab : lexLE a b = true) (hbc : lexLE b c = true) :
    lexLE a c = true := by
  induction a generalizing b c with
  | nil => simp [lexLE]
  | cons x xs ih =>
    cases b with
    | nil => simp [lexLE] at hab
    | cons y ys =>
      cases c with
      | nil => simp [lexLE] at hbc
      | cons z zs =>
        simp only [lexLE] at hab hbc ⊢
        by_cases hxy : x < y
        · by_cases hyz : y < z
          · have : x < z := Nat.lt_trans hxy hyz
            simp [this]
          · by_cases hyz2 : y = z
            · subst hyz2
              simp [hxy]
            · simp [hyz, hyz2] at hbc
        · by_cases hxy2 : x = y
          · subst hxy2
            by_cases hxz : x < z
            · simp [hxz]
            · by_cases hxz2 : x = z
              · subst hxz2
                simp only [Nat.lt_irrefl, if_false, if_true] at hab hbc ⊢
                exact ih ys zs hab hbc
              · simp [hxz, hxz2] at hbc
          · simp [hxy, hxy2] at hab

theorem lexLE_antisymm (a b : List Nat) (hab : lexLE a b = true) (hba : lexLE b a = true) :
    a = b := by
  induction a generalizing b with
  | nil =>
    cases b with
    | nil => rfl
    | cons y ys => simp [lexLE] at hba
  | cons x xs ih =>
    cases b with
    | nil => simp [lexLE] at hab
    | cons y ys =>
      simp only [lexLE] at hab hba
      rcases Nat.lt_trichotomy x y with h | h | h
      · have h1 : ¬ y < x := by omega
        have h2 : ¬ y = x := by omega
        simp [h1, h2] at hba
      · subst h
        simp only [Nat.lt_irrefl, if_false, if_true] at hab hba
        rw [ih ys hab hba]
      · have h1 : ¬ x < y := by omega
        have h2 : ¬ x = y := by omega
        simp [h1, h2] at hab

theorem codePoints_injective (a b : String)
    (h : a.toList.map Char.toNat = b.toList.map Char.toNat) : a = b := by
  have hinj : Function.Injective Char.toNat := by
    intro c d hcd
    rw [← Char.ofNat_toNat c, ← Char.ofNat_toNat d, hcd]
  exact String.ext (List.map_injective_iff.mpr hinj h)

theorem sortStrings_sorted (N : List String) : (sortStrings N).Sorted stringLE := by
  haveI : IsTotal String stringLE := ⟨fun a b => lexLE_total _ _⟩
  haveI : IsTrans String stringLE := ⟨fun a b c hab hbc => lexLE_trans _ _ _ hab hbc⟩
  exact List.sorted_insertionSort stringLE N

theorem sortStrings_perm (N : List String) : (sortStrings N).Perm N :=
  List.perm_insertionSort stringLE N

theorem sortStrings_congr (N N2 : List String) (h : N2.Perm N) :
    sortStrings N2 = sortStrings N := by
  haveI : IsAntisymm String stringLE :=
    ⟨fun a b hab hba => codePoints_injective a b (lexLE_antisymm _ _ hab hba)⟩
  exact List.eq_of_perm_of_sorted
    ((sortStrings_perm N2).trans (h.trans (sortStrings_perm N).symm))
    (sortStrings_sorted N2) (sortStrings_sorted N)

theorem FromConfig_single (spec : CacheMethod) (hE : spec.Enabled = true) :
    FromConfig ⟨[spec]⟩ = ⟨[(spec.Name, [ingest spec])]⟩ := by
  simp [FromConfig, Match.addMethod, newMatcher, methodsAppend, ingest, hE]

theorem lookup_single (name : String) (ms : List cacheMethod) :
    List.lookup name [(name, ms)] = some ms := by
  simp [List.lookup]

theorem toKey_by_name (cd : Codec) (c : cacheMethod) (method : String)
    (kvs : List (String × Value)) (hc : c.cacheByParams = true)
    (hn : c.paramsInCacheName ≠ [])
    (hall : ∀ n ∈ c.paramsInCacheName, (kvs.lookup n).isSome = true) :
    c.toKey cd method (.map kvs) =
      ⟨method ++ "_" ++ digestOf cd (c.paramsInCacheName.filterMap (fun n => kvs.lookup n)),
        c.paramsInCacheName.length⟩ := by
  have hm : c.matchParams (.map kvs) =
      .ok (c.paramsInCacheName.filterMap (fun n => kvs.lookup n)) := by
    rw [matchParams_map c kvs hc hn, projectByName_ok kvs _ [] hall]
    simp
  have hlen : (c.paramsInCacheName.filterMap (fun n => kvs.lookup n)).length =
      c.paramsInCacheName.length := by
    have := projectByName_length kvs c.paramsInCacheName [] _
      (projectByName_ok kvs _ [] hall)
    simpa using this
  have hne : c.paramsInCacheName.filterMap (fun n => kvs.lookup n) ≠ [] := by
    intro h
    rw [h] at hlen
    exact hn (List.length_eq_zero.mp hlen.symm)
  rw [toKey_ok cd c method _ _ hm hne, hlen]

theorem toKey_by_index (cd : Codec) (c : cacheMethod) (method : String) (xs : List Value)
    (hc : c.cacheByParams = true) (hid : c.paramsInCacheID ≠ [])
    (hlen : c.paramsInCacheID.length ≤ xs.length) :
    c.toKey cd method (.slice xs) =
      ⟨method ++ "_" ++ digestOf cd (xs.take c.paramsInCacheID.length),
        c.paramsInCacheID.length⟩ := by
  have hm : c.matchParams (.slice xs) = .ok (xs.take c.paramsInCacheID.length) := by
    rw [matchParams_slice c xs hc hid, projectByID_ok xs _ 0 [] (by omega)]
    simp
  have hk : 0 < c.paramsInCacheID.length :=
    Nat.pos_of_ne_zero (fun h => hid (List.length_eq_zero.mp h))
  have hne : xs.take c.paramsInCacheID.length ≠ [] := by
    intro h
    have := congrArg List.length h
    simp only [List.length_take, List.length_nil] at this
    omega
  rw [toKey_ok cd c method _ _ hm hne, List.length_take, Nat.min_eq_left hlen]

theorem toKey_error_isEmpty (cd : Codec) (c : cacheMethod) (method : String) (params : Value)
    (h : ∃ e, c.matchParams params = .error e) :
    (c.toKey cd method params).IsEmpty = true := by
  obtain ⟨e, he⟩ := h
  rw [toKey_error cd c method params e he]
  rfl

theorem not_scalar_cases (v : Value) (h : v.isScalar = false) :
    (∃ xs, v = .slice xs) ∨ ∃ kvs, v = .map kvs := by
  cases v <;> simp [Value.isScalar] at h ⊢

theorem lookup_methodsAppend_same (ms : methods) (name : String) (cm : cacheMethod) :
    (methodsAppend ms name cm).lookup name = some ((ms.lookup name).getD [] ++ [cm]) := by
  induction ms with
  | nil => simp [methodsAppend, List.lookup]
  | cons kv rest ih =>
    obtain ⟨k, cms⟩ := kv
    by_cases h : k = name
    · subst h
      simp [methodsAppend, List.lookup]
    · have h2 : (name == k) = false := by
        simp only [beq_eq_false_iff_ne, ne_eq]
        exact fun e => h e.symm
      simp [methodsAppend, List.lookup, h, h2, ih]

theorem lookup_methodsAppend_other (ms : methods) (name other : String) (cm : cacheMethod)
    (hne : other ≠ name) : (methodsAppend ms name cm).lookup other = ms.lookup other := by
  induction ms with
  | nil =>
    have h2 : (other == name) = false := by simpa using hne
    simp [methodsAppend, List.lookup, h2]
  | cons kv rest ih =>
    obtain ⟨k, cms⟩ := kv
    by_cases h : k = name
    · subst h
      have h2 : (other == k) = false := by simpa using hne
      simp [methodsAppend, List.lookup, h2]
    · cases h3 : (other == k) <;> simp [methodsAppend, List.lookup, h, h3, ih]

/-- Specs that `FromConfig` ingests under the name `m`: the enabled ones named
`m`, in configuration order. -/
theorem lookup_foldl_addMethod (cfg : List CacheMethod) (acc : Match) (m : String) :
    (cfg.foldl Match.addMethod acc).methods.lookup m =
      if (cfg.filter (fun s => s.Enabled && s.Name == m)).isEmpty then acc.methods.lookup m
      else some ((acc.methods.lookup m).getD [] ++
        (cfg.filter (fun s => s.Enabled && s.Name == m)).map ingest) := by
  induction cfg generalizing acc with
  | nil => simp
  | cons s cfg ih =>
    rw [List.foldl_cons, ih]
    by_cases hE : s.Enabled = true
    · have hadd : acc.addMethod s = ⟨methodsAppend acc.methods s.Name (ingest s)⟩ := by
        simp [Match.addMethod, ingest, hE]
      by_cases hN : s.Name = m
      · subst hN
        rw [hadd]
        simp only [lookup_methodsAppend_same]
        cases hrest : (cfg.filter (fun t => t.Enabled && t.Name == s.Name)) with
        | nil => simp [List.filter_cons, hE, hrest]
        | cons t ts => simp [List.filter_cons, hE, hrest]
      · have hN2 : (s.Name == m) = false := by simpa using hN
        rw [hadd]
        simp only [lookup_methodsAppend_other _ _ _ _ (fun e => hN e.symm)]
        simp [List.filter_cons, hE, hN2]
    · have hadd : acc.addMethod s = acc := by
        simp [Match.addMethod, hE]
      rw [hadd]
      simp [List.filter_cons, hE]

theorem lookup_FromConfig (cfg : List CacheMethod) (m : String) :
    (FromConfig ⟨cfg⟩).methods.lookup m =
      if (cfg.filter (fun s => s.Enabled && s.Name == m)).isEmpty then none
      else some ((cfg.filter (fun s => s.Enabled && s.Name == m)).map ingest) := by
  simp [FromConfig, lookup_foldl_addMethod, newMatcher]

theorem foldl_addMethod_enabled (cfg : List CacheMethod) (acc : Match) :
    cfg.foldl Match.addMethod acc = (cfg.filter (fun s => s.Enabled)).foldl Match.addMethod acc := by
  induction cfg generalizing acc with
  | nil => rfl
  | cons s cfg ih =>
    by_cases hE : s.Enabled = true
    · simp [List.filter_cons, hE, ih]
    · have hadd : acc.addMethod s = acc := by simp [Match.addMethod, hE]
      simp [List.filter_cons, hE, hadd, ih]

theorem hexDigit_eq_digitChar (n : Nat) : hexDigit n = Nat.digitChar (n % 16) := by
  unfold hexDigit
  have h : n % 16 < 16 := Nat.mod_lt _ (by decide)
  generalize n % 16 = k at h
  interval_cases k <;> rfl

theorem hexChars_eq_nibbles (bs : List Nat) :
    hexChars bs =
      (bs.map (fun b => [Nat.digitChar (b / 16 % 16), Nat.digitChar (b % 16)])).flatten := by
  induction bs with
  | nil => rfl
  | cons b bs ih =>
    simp only [hexChars, ih, hexDigit_eq_digitChar, List.map_cons, List.flatten_cons,
      List.cons_append, List.nil_append]

theorem keyMaterial_eq_flatten (cd : Codec) (params : List Value) :
    keyMaterial cd params = (params.map cd.marshal).flatten := by
  induction params with
  | nil => rfl
  | cons p ps ih => simp only [keyMaterial, ih, List.map_cons, List.flatten_cons]

/-- The digest string written out: two lowercase hexadecimal digits, high
nibble first, for each byte of the digest of the concatenated JSON texts. -/
theorem digestOf_eq (cd : Codec) (params : List Value) :
    digestOf cd params =
      String.mk (((cd.sum256 ((params.map cd.marshal).flatten)).map
        (fun b => [Nat.digitChar (b / 16 % 16), Nat.digitChar (b % 16)])).flatten) := by
  rw [digestOf, hexChars_eq_nibbles, keyMaterial_eq_flatten]

/-! ## Matcher: claims -/

/-- C11. Keys are ordered by decreasing cardinality. For a method configured
with the specs `ms`, `Keys` returns at most `|ms|` keys, the returned list is
a permutation of the non-empty keys derived from the specs, and every key has
a cardinality greater than or equal to that of every later key (adjacent
ones in particular); cardinalities 1, 2, 100 come back as 100, 2, 1; for a
method with no spec `Keys` returns no key. -/
theorem Keys_sorted_by_cardinality (cd : Codec) (m : Match) (method : String)
    (params : Value) :
    (∀ ms, m.methods.lookup method = some ms →
      (m.Keys cd method params).length ≤ ms.length ∧
      (m.Keys cd method params).Perm
        ((ms.map (fun cm => cm.toKey cd method params)).filter (fun key => !key.IsEmpty)) ∧
      (m.Keys cd method params).Pairwise (fun a b => b.cardinality ≤ a.cardinality)) ∧
    (m.methods.lookup method = none → m.Keys cd method params = []) ∧
    cacheKeys.sort [⟨"1", 1⟩, ⟨"2", 2⟩, ⟨"3", 100⟩] = [⟨"3", 100⟩, ⟨"2", 2⟩, ⟨"1", 1⟩] := by
  refine ⟨fun ms h => ?_, Keys_none cd m method params, rfl⟩
  rw [Keys_eq cd m method params ms h]
  refine ⟨?_, List.perm_insertionSort _ _, List.sorted_insertionSort cardGE _⟩
  rw [cacheKeys.sort, List.length_insertionSort]
  exact (List.length_filter_le _ _).trans (by simp)

/-- C12. Projection by index uses the first `len(ids)` parameters. For a spec
with `cache_by_params` and a non-empty index list of length `k`, and array
params `P` with `|P| >= k`, the key is
`method_hex(SHA-256(json(P[0]) ++ ... ++ json(P[k-1])))` with cardinality
`k`, where the hex text has two lowercase digits per digest byte, high nibble
first; the index values do not enter. Hence an array `Q` with the same first
`k` elements gets the same key. -/
theorem key_by_index_uses_first_params (cd : Codec) (c : cacheMethod) (method : String)
    (P : List Value) (hc : c.cacheByParams = true) (hid : c.paramsInCacheID ≠ [])
    (hlen : c.paramsInCacheID.length ≤ P.length) :
    c.toKey cd method (.slice P) =
      ⟨method ++ "_" ++ String.mk
          (((cd.sum256 (((P.take c.paramsInCacheID.length).map cd.marshal).flatten)).map
            (fun b => [Nat.digitChar (b / 16 % 16), Nat.digitChar (b % 16)])).flatten),
        c.paramsInCacheID.length⟩ ∧
    ∀ Q : List Value, c.paramsInCacheID.length ≤ Q.length →
      Q.take c.paramsInCacheID.length = P.take c.paramsInCacheID.length →
      c.toKey cd method (.slice Q) = c.toKey cd method (.slice P) := by
  refine ⟨?_, fun Q hQ hPQ => ?_⟩
  · rw [toKey_by_index cd c method P hc hid hlen, digestOf_eq]
  · rw [toKey_by_index cd c method Q hc hid hQ, toKey_by_index cd c method P hc hid hlen, hPQ]

/-- C12, worked example with index list `[0]`, JSON text of a string its quoted
text and the digest the zero-padded input: params `["a","X"]` and `["a","Y"]`
both get the key `m_` followed by the hex of `"a"` (22 61 22) and 29 zero
bytes, with cardinality 1. -/
theorem key_by_index_uses_first_params_witness :
    byIndexSpec.toKey toyCodec "m" (.slice [.str "a", .str "X"]) =
      ⟨"m_2261220000000000000000000000000000000000000000000000000000000000", 1⟩ ∧
    byIndexSpec.toKey toyCodec "m" (.slice [.str "a", .str "Y"]) =
      ⟨"m_2261220000000000000000000000000000000000000000000000000000000000", 1⟩ :=
  ⟨(key_by_index_uses_first_params toyCodec byIndexSpec "m" [.str "a", .str "X"] rfl
      (by decide) (by decide)).1,
    ((key_by_index_uses_first_params toyCodec byIndexSpec "m" [.str "a", .str "X"] rfl
      (by decide) (by decide)).2 [.str "a", .str "Y"] (by decide) rfl).trans
    (key_by_index_uses_first_params toyCodec byIndexSpec "m" [.str "a", .str "X"] rfl
      (by decide) (by decide)).1⟩

/-- C13. Whole-params key. For a spec with `cache_by_params` and both
projection lists empty, and every params value `P`, the key is
`method_hex(SHA-256(json(P)))` with cardinality 1, where the hex text has two
lowercase digits per digest byte, high nibble first: 64 characters, each one
of `0123456789abcdef`. -/
theorem key_whole_params (cd : Codec) (c : cacheMethod) (method : String) (P : Value)
    (hc : c.cacheByParams = true) (h1 : c.paramsInCacheID = [])
    (h2 : c.paramsInCacheName = []) :
    c.toKey cd method P =
      ⟨method ++ "_" ++ String.mk (((cd.sum256 (cd.marshal P)).map
        (fun b => [Nat.digitChar (b / 16 % 16), Nat.digitChar (b % 16)])).flatten), 1⟩ ∧
    (((cd.sum256 (cd.marshal P)).map
      (fun b => [Nat.digitChar (b / 16 % 16), Nat.digitChar (b % 16)])).flatten).length = 64 ∧
    ∀ ch ∈ ((cd.sum256 (cd.marshal P)).map
        (fun b => [Nat.digitChar (b / 16 % 16), Nat.digitChar (b % 16)])).flatten,
      ch ∈ ['0', '1', '2', '3', '4', '5', '6', '7', '8', '9', 'a', 'b', 'c', 'd', 'e', 'f'] := by
  have hm : c.matchParams P = .ok [P] := by
    simp [cacheMethod.matchParams, hc, h1, h2]
  rw [← hexChars_eq_nibbles]
  refine ⟨?_, digest_length cd _, hexChars_mem _⟩
  rw [toKey_ok cd c method P [P] hm (by simp)]
  simp [digestOf, keyMaterial]

/-- C13, worked example with the JSON text of a string its quoted text and the
digest the zero-padded input: the params value `"1"` gets the key `m_`
followed by the hex of `"1"` (22 31 22) and 29 zero bytes, cardinality 1. -/
theorem key_whole_params_witness :
    wholeParamsSpec.toKey toyCodec "m" (.str "1") =
      ⟨"m_2231220000000000000000000000000000000000000000000000000000000000", 1⟩ :=
  (key_whole_params toyCodec wholeParamsSpec "m" (.str "1") rfl rfl rfl).1

/-- C14. Method-only key. For a non-empty method name with a single spec whose
`cache_by_params` is false, `Keys` returns exactly one key, the bare method
name with cardinality 0, whatever the params and the projection lists of the
spec. -/
theorem key_method_only (cd : Codec) (m : Match) (method : String) (params : Value)
    (c : cacheMethod) (hm : method ≠ "") (hl : m.methods.lookup method = some [c])
    (hc : c.cacheByParams = false) :
    m.Keys cd method params = [⟨method, 0⟩] := by
  have hmatch : c.matchParams params = .ok [] := by
    simp [cacheMethod.matchParams, hc]
  rw [Keys_eq cd m method params [c] hl]
  simp [toKey_ok_nil cd c method params hmatch, cacheKey.IsEmpty, hm, cacheKeys.sort]

theorem key_method_only_witness :
    Match.Keys toyCodec ⟨[("test", [methodOnlySpec])]⟩ "test"
      (.slice [.str "1", .str "2", .str "3"]) = [⟨"test", 0⟩] :=
  key_method_only toyCodec ⟨[("test", [methodOnlySpec])]⟩ "test"
    (.slice [.str "1", .str "2", .str "3"]) methodOnlySpec (by decide) rfl rfl

/-- C15. Projection by name is independent of the configured name order. For
the matcher built by `FromConfig` from an enabled spec with `cache_by_params`
and a non-empty name list `N`, and object params that contain every name of
`N`, `Keys` returns the single key
`method_hex(SHA-256(json(P[n1]) ++ json(P[n2]) ++ ...))` over the names of `N`
in sorted order, with cardinality `|N|`, whether or not an index list is
configured too, where the hex text has two lowercase digits per digest byte,
high nibble first; a spec that lists the same names in another order yields
the same keys. The sorted list is a permutation of `N` in lexicographic
order. -/
theorem key_by_name_ignores_configured_order (cd : Codec) (spec : CacheMethod)
    (kvs : List (String × Value)) (N2 : List String)
    (hE : spec.Enabled = true) (hc : spec.CacheByParams = true)
    (hN : spec.ParamsInCacheByName ≠ [])
    (hall : ∀ n ∈ spec.ParamsInCacheByName, (kvs.lookup n).isSome = true)
    (hperm : N2.Perm spec.ParamsInCacheByName) :
    (FromConfig ⟨[spec]⟩).Keys cd spec.Name (.map kvs) =
      [⟨spec.Name ++ "_" ++ String.mk
          (((cd.sum256 ((((sortStrings spec.ParamsInCacheByName).filterMap
              (fun n => kvs.lookup n)).map cd.marshal).flatten)).map
            (fun b => [Nat.digitChar (b / 16 % 16), Nat.digitChar (b % 16)])).flatten),
        spec.ParamsInCacheByName.length⟩] ∧
    (FromConfig ⟨[{ spec with ParamsInCacheByName := N2 }]⟩).Keys cd spec.Name (.map kvs) =
      (FromConfig ⟨[spec]⟩).Keys cd spec.Name (.map kvs) ∧
    (sortStrings spec.ParamsInCacheByName).Perm spec.ParamsInCacheByName ∧
    (sortStrings spec.ParamsInCacheByName).Sorted stringLE := by
  have hingest : ingest { spec with ParamsInCacheByName := N2 } = ingest spec := by
    simp [ingest, sortStrings_congr _ _ hperm]
  have hcfg : FromConfig ⟨[{ spec with ParamsInCacheByName := N2 }]⟩ = FromConfig ⟨[spec]⟩ := by
    rw [FromConfig_single spec hE,
      FromConfig_single { spec with ParamsInCacheByName := N2 } hE, hingest]
  refine ⟨?_, by rw [hcfg], sortStrings_perm _, sortStrings_sorted _⟩
  have hn : (ingest spec).paramsInCacheName ≠ [] := by
    intro h
    have := (sortStrings_perm spec.ParamsInCacheByName).length_eq
    simp only [ingest] at h
    rw [h] at this
    exact hN (List.length_eq_zero.mp this.symm)
  have hall2 : ∀ n ∈ (ingest spec).paramsInCacheName, (kvs.lookup n).isSome = true :=
    fun n hn => hall n ((sortStrings_perm spec.ParamsInCacheByName).mem_iff.mp hn)
  rw [FromConfig_single spec hE,
    Keys_eq cd _ spec.Name (.map kvs) [ingest spec] (lookup_single _ _)]
  have hkey := toKey_by_name cd (ingest spec) spec.Name kvs hc hn hall2
  have hlen : (ingest spec).paramsInCacheName.length = spec.ParamsInCacheByName.length :=
    (sortStrings_perm spec.ParamsInCacheByName).length_eq
  simp only [List.map_cons, List.map_nil, hkey, hlen]
  rw [← digestOf_eq]
  simp [key_with_digest_not_empty, cacheKeys.sort, ingest]

/-- C15, worked example with names configured as `["b", "a"]`, the JSON text
of a string its quoted text and the digest the zero-padded input: for params
`{"a": "x", "b": "y"}` the key is `test_` followed by the hex of `"x""y"`
(22 78 22 22 79 22) and 26 zero bytes, cardinality 2, and the configuration
`["a", "b"]` gives the same key. -/
theorem key_by_name_ignores_configured_order_witness :
    (FromConfig ⟨[byNameSpec ["b", "a"]]⟩).Keys toyCodec "test"
        (.map [("a", .str "x"), ("b", .str "y")]) =
      [⟨"test_2278222279220000000000000000000000000000000000000000000000000000", 2⟩] ∧
    (FromConfig ⟨[byNameSpec ["a", "b"]]⟩).Keys toyCodec "test"
        (.map [("a", .str "x"), ("b", .str "y")]) =
      [⟨"test_2278222279220000000000000000000000000000000000000000000000000000", 2⟩] :=
  ⟨(key_by_name_ignores_configured_order toyCodec (byNameSpec ["b", "a"])
      [("a", .str "x"), ("b", .str "y")] ["a", "b"] rfl rfl (by decide)
      (by decide) (List.Perm.swap _ _ _)).1,
    ((key_by_name_ignores_configured_order toyCodec (byNameSpec ["b", "a"])
      [("a", .str "x"), ("b", .str "y")] ["a", "b"] rfl rfl (by decide)
      (by decide) (List.Perm.swap _ _ _)).2.1).trans
    (key_by_name_ignores_configured_order toyCodec (byNameSpec ["b", "a"])
      [("a", .str "x"), ("b", .str "y")] ["a", "b"] rfl rfl (by decide)
      (by decide) (List.Perm.swap _ _ _)).1⟩

/-- C16. Derivation failure drops the key. A spec with `cache_by_params` and at
least one non-empty projection list yields a non-empty key exactly when
either its index list is non-empty and params is an array at least as long
as the index list, or its name list is non-empty and params is an object
containing every listed name. In every other case its key is empty, and
`Keys` returns the sorted non-empty keys of the method's other specs. -/
theorem derivation_failure_drops_key (cd : Codec) (c : cacheMethod) (method : String)
    (params : Value) (hc : c.cacheByParams = true)
    (hp : c.paramsInCacheID ≠ [] ∨ c.paramsInCacheName ≠ []) :
    ((c.toKey cd method params).IsEmpty = false ↔
      (c.paramsInCacheID ≠ [] ∧
        ∃ xs, params = .slice xs ∧ c.paramsInCacheID.length ≤ xs.length) ∨
      (c.paramsInCacheName ≠ [] ∧
        ∃ kvs, params = .map kvs ∧
          ∀ n ∈ c.paramsInCacheName, (kvs.lookup n).isSome = true)) ∧
    (∀ (m : Match) (pre post : List cacheMethod),
      m.methods.lookup method = some (pre ++ c :: post) →
      (c.toKey cd method params).IsEmpty = true →
      m.Keys cd method params =
        cacheKeys.sort (((pre ++ post).map (fun cm => cm.toKey cd method params)).filter
          (fun key => !key.IsEmpty))) := by
  constructor
  · cases hsc : params.isScalar with
    | true =>
      have hE := toKey_error_isEmpty cd c method params (matchParams_scalar c params hc hp hsc)
      rw [hE]
      constructor
      · intro h; cases h
      · rintro (⟨_, xs, rfl, _⟩ | ⟨_, kvs, rfl, _⟩) <;> simp [Value.isScalar] at hsc
    | false =>
      rcases not_scalar_cases params hsc with ⟨xs, rfl⟩ | ⟨kvs, rfl⟩
      · by_cases hid : c.paramsInCacheID = []
        · have hn : c.paramsInCacheName ≠ [] := by
            rcases hp with h | h
            · exact absurd hid h
            · exact h
          rw [toKey_error_isEmpty cd c method _ (matchParams_slice_names_only c xs hc hid hn)]
          constructor
          · intro h; cases h
          · rintro (⟨h, _⟩ | ⟨_, kvs, h, _⟩)
            · exact absurd hid h
            · cases h
        · by_cases hlen : c.paramsInCacheID.length ≤ xs.length
          · rw [toKey_by_index cd c method xs hc hid hlen, key_with_digest_not_empty]
            exact ⟨fun _ => Or.inl ⟨hid, xs, rfl, hlen⟩, fun _ => rfl⟩
          · have herr : ∃ e, c.matchParams (.slice xs) = .error e := by
              rw [matchParams_slice c xs hc hid]
              exact projectByID_error xs _ 0 [] (Nat.zero_le _) (by omega)
            rw [toKey_error_isEmpty cd c method _ herr]
            constructor
            · intro h; cases h
            · rintro (⟨_, ys, h, hl⟩ | ⟨_, kvs, h, _⟩)
              · cases h
                exact absurd hl hlen
              · cases h
      · by_cases hn : c.paramsInCacheName = []
        · have hid : c.paramsInCacheID ≠ [] := by
            rcases hp with h | h
            · exact h
            · exact absurd hn h
          rw [toKey_error_isEmpty cd c method _ (matchParams_map_ids_only c kvs hc hid hn)]
          constructor
          · intro h; cases h
          · rintro (⟨_, xs, h, _⟩ | ⟨h, _⟩)
            · cases h
            · exact absurd hn h
        · by_cases hall : ∀ n ∈ c.paramsInCacheName, (kvs.lookup n).isSome = true
          · rw [toKey_by_name cd c method kvs hc hn hall, key_with_digest_not_empty]
            exact ⟨fun _ => Or.inr ⟨hn, kvs, rfl, hall⟩, fun _ => rfl⟩
          · have herr : ∃ e, c.matchParams (.map kvs) = .error e := by
              rw [matchParams_map c kvs hc hn]
              apply projectByName_error
              by_contra hcon
              apply hall
              intro n hmem
              cases hl : kvs.lookup n with
              | none => exact absurd ⟨n, hmem, hl⟩ hcon
              | some v => rfl
            rw [toKey_error_isEmpty cd c method _ herr]
            constructor
            · intro h; cases h
            · rintro (⟨_, xs, h, _⟩ | ⟨_, kvs2, h, hall2⟩)
              · cases h
              · cases h
                exact absurd hall2 hall
  · intro m pre post hl hE
    rw [Keys_eq cd m method params _ hl]
    simp [List.filter_cons, hE]

theorem derivation_failure_drops_key_witness :
    ((byIndexSpec.toKey toyCodec "m" (.slice [])).IsEmpty = false ↔
      (byIndexSpec.paramsInCacheID ≠ [] ∧
        ∃ xs, Value.slice [] = .slice xs ∧ byIndexSpec.paramsInCacheID.length ≤ xs.length) ∨
      (byIndexSpec.paramsInCacheName ≠ [] ∧
        ∃ kvs, Value.slice [] = .map kvs ∧
          ∀ n ∈ byIndexSpec.paramsInCacheName, (kvs.lookup n).isSome = true)) ∧
    Match.Keys toyCodec ⟨[("m", [wholeParamsSpec, byIndexSpec])]⟩ "m" (.slice []) =
      cacheKeys.sort ((([wholeParamsSpec] ++ []).map
        (fun cm : cacheMethod => cm.toKey toyCodec "m" (.slice []))).filter
          (fun key => !key.IsEmpty)) :=
  ⟨(derivation_failure_drops_key toyCodec byIndexSpec "m" (.slice []) rfl
      (Or.inl (by decide))).1,
    (derivation_failure_drops_key toyCodec byIndexSpec "m" (.slice []) rfl
      (Or.inl (by decide))).2 ⟨[("m", [wholeParamsSpec, byIndexSpec])]⟩ [wholeParamsSpec] []
      rfl rfl⟩

/-- C17. Cacheability. For the matcher built by `FromConfig` from any list of
specs, `IsCacheable(m)` is true exactly when at least one enabled spec named
`m` exists and no enabled spec named `m` sets `no_store_cache`. Disabled
specs are not ingested: the matcher is the one built from the enabled specs
alone. -/
theorem IsCacheable_FromConfig (cfg : List CacheMethod) (m : String) :
    ((FromConfig ⟨cfg⟩).IsCacheable m = true ↔
      (∃ s ∈ cfg, s.Enabled = true ∧ s.Name = m) ∧
      ∀ s ∈ cfg, s.Enabled = true → s.Name = m → s.NoStoreCache = false) ∧
    FromConfig ⟨cfg⟩ = FromConfig ⟨cfg.filter (fun s => s.Enabled)⟩ := by
  refine ⟨?_, foldl_addMethod_enabled cfg newMatcher⟩
  simp only [Match.IsCacheable, lookup_FromConfig]
  cases hf : cfg.filter (fun s => s.Enabled && s.Name == m) with
  | nil =>
    simp only [List.isEmpty_nil, if_true]
    constructor
    · intro h; cases h
    · rintro ⟨⟨s, hs, hE, hN⟩, _⟩
      have : s ∈ cfg.filter (fun s => s.Enabled && s.Name == m) := by
        simp [List.mem_filter, hs, hE, hN]
      rw [hf] at this
      cases this
  | cons t ts =>
    have ht : t ∈ cfg.filter (fun s => s.Enabled && s.Name == m) := by
      rw [hf]; exact List.mem_cons_self _ _
    simp only [List.isEmpty_cons, Bool.false_eq_true, if_false]
    rw [← hf]
    simp only [List.mem_filter, Bool.and_eq_true, beq_iff_eq] at ht
    constructor
    · intro h
      refine ⟨⟨t, ht.1, ht.2.1, ht.2.2⟩, fun s hs hE hN => ?_⟩
      simp only [Bool.not_eq_true', List.any_eq_false, List.mem_map, List.mem_filter,
        Bool.and_eq_true, beq_iff_eq] at h
      have := h (ingest s) ⟨s, ⟨hs, hE, hN⟩, rfl⟩
      simpa [ingest] using this
    · rintro ⟨_, hall⟩
      simp only [Bool.not_eq_true', List.any_eq_false, List.mem_map, List.mem_filter,
        Bool.and_eq_true, beq_iff_eq]
      rintro cm ⟨s, ⟨hs, hE, hN⟩, rfl⟩
      simpa [ingest] using hall s hs hE hN

theorem tdiv_eq_floor_or_ceil (x : ℚ) :
    Int.tdiv x.num x.den = if 0 ≤ x then ⌊x⌋ else ⌈x⌉ := by
  by_cases hx : 0 ≤ x
  · have hn : 0 ≤ x.num := Rat.num_nonneg.2 hx
    rw [if_pos hx, Rat.floor_def, Int.tdiv_eq_ediv hn (Int.ofNat_nonneg _)]
  · have hn : x.num < 0 := by
      rcases lt_or_le x.num 0 with h | h
      · exact h
      · exact absurd (Rat.num_nonneg.1 h) hx
    have hc : ⌈x⌉ = -⌊-x⌋ := by rw [Int.floor_neg, neg_neg]
    have hq : (-x).num = -x.num := Rat.num_neg_eq_neg_num x
    have hd : (-x).den = x.den := Rat.den_neg_eq_den x
    rw [if_neg hx, hc, Rat.floor_def, hq, hd,
      ← Int.tdiv_eq_ediv (by omega) (Int.ofNat_nonneg _), Int.neg_tdiv, neg_neg]

theorem truncate_eq_spec (x : ℚ) : truncate x = specIntOfFloat x := by
  simp only [truncate, specIntOfFloat, tdiv_eq_floor_or_ceil]

theorem specNorm_eq_convert (v : Value) : specNorm v = convert v := by
  cases v <;> simp [specNorm, convert, truncate_eq_spec]

theorem truncate_three_halves : truncate (3 / 2) = 1 ∧ truncate (-3 / 2) = -1 := by
  have h1 : ⌊(3 / 2 : ℚ)⌋ = 1 := Int.floor_eq_iff.2 ⟨by norm_num, by norm_num⟩
  have h2 : ⌈(-3 / 2 : ℚ)⌉ = -1 := Int.ceil_eq_iff.2 ⟨by norm_num, by norm_num⟩
  constructor
  · rw [truncate_eq_spec]
    have hpos : (0 : ℚ) ≤ 3 / 2 := by norm_num
    simp [specIntOfFloat, h1, hpos, minInt64, maxInt64]
  · rw [truncate_eq_spec]
    have hneg : ¬ (0 : ℚ) ≤ -3 / 2 := by norm_num
    simp [specIntOfFloat, h2, hneg, minInt64, maxInt64]

/-- C18. ID equality with numeric coercion. For scalar values `i` and `j`
(JSON scalars and the Go numeric kinds), `Equal(i, j)` is true exactly when
`norm i = norm j` and false exactly when they differ, where `norm` maps a
float64, float32, int, int8, int16, int32, int64 or byte to its value as an
int (a float loses its fraction towards zero, and a float beyond the `int`
range becomes the smallest `int`, as on amd64) and leaves every other value
unchanged. So an integer-valued ID is equal across numeric kinds, 1.5 equals
1 and -1.5 equals -1, 1e19 equals 2e19, a number never equals a string,
strings compare as strings, and null equals null. -/
theorem Equal_iff_norm_eq (i j : Value) (hi : i.isScalar = true)
    (hj : j.isScalar = true) :
    (Equal i j = some true ↔ specNorm i = specNorm j) ∧
    (Equal i j = some false ↔ specNorm i ≠ specNorm j) ∧
    Equal (.float64 1) (.int64 1) = some true ∧
    Equal (.int64 1) (.int32 1) = some true ∧
    Equal (.int32 1) (.int 1) = some true ∧
    Equal (.float32 2) (.int8 2) = some true ∧
    Equal (.byte 2) (.int16 2) = some true ∧
    Equal (.float64 1) (.int 2) = some false ∧
    Equal (.float64 (3 / 2)) (.int 1) = some true ∧
    Equal (.float64 (-3 / 2)) (.int (-1)) = some true ∧
    Equal (.float64 10000000000000000000) (.float64 20000000000000000000) = some true ∧
    Equal (.float64 1) (.str "2") = some false ∧
    (∀ x s, Equal (.float64 x) (.str s) = some false) ∧
    (∀ s t, Equal (.str s) (.str t) = some (decide (s = t))) ∧
    Equal .nil .nil = some true := by
  refine ⟨?_, ?_, by decide, by decide, by decide, by decide, by decide, by decide, ?_, ?_,
    by decide, by decide, fun _ _ => rfl, fun _ _ => rfl, rfl⟩
  · rw [specNorm_eq_convert, specNorm_eq_convert]
    cases i <;> cases j <;> simp_all [Equal, convert, ifaceEq, Value.isScalar]
  · rw [specNorm_eq_convert, specNorm_eq_convert]
    cases i <;> cases j <;> simp_all [Equal, convert, ifaceEq, Value.isScalar]
  · simp [Equal, convert, ifaceEq, truncate_three_halves.1]
  · simp [Equal, convert, ifaceEq, truncate_three_halves.2]

/-- C18, worked example: float64 1 and int64 1 have the same `norm`, the int
1, and are equal; the string "1" and the byte 1 have different ones and are
not. -/
theorem Equal_iff_norm_eq_witness :
    (Equal (.float64 1) (.int64 1) = some true ↔
      specNorm (.float64 1) = specNorm (.int64 1)) ∧
    (Equal (.str "1") (.byte 1) = some false ↔ specNorm (.str "1") ≠ specNorm (.byte 1)) :=
  ⟨(Equal_iff_norm_eq (.float64 1) (.int64 1) rfl rfl).1,
    (Equal_iff_norm_eq (.str "1") (.byte 1) rfl rfl).2.1⟩

/-! ## Transport: response counts and stored responses -/

theorem afterForward_source {σ : Type} (rc : ResponseCache σ) (s : σ) (P : RPCRequests)
    (prepared : RPCResponses) (pidx : List Nat) (cachedMethods : List String)
    (body : Payload RPCRequest) (result : Except GoError UpstreamResponse) :
    ∀ w ∈ (afterForward rc s P prepared pidx cachedMethods body result).writes,
      ∃ res, result = .ok res ∧ w.2 ∈ (ParseResponses res).1 := by
  unfold afterForward
  cases result with
  | error err => simp
  | ok res =>
    by_cases hc : (!isCacheableRequests rc P && cachedMethods.length == 0) = true
    · simp [hc]
    · simp only [hc, if_false]
      cases (ParseResponses res).2.2 with
      | some e => simp
      | none =>
        intro w hw
        exact ⟨res, rfl,
          ((mergeResponses_trace rc s P prepared pidx body (ParseResponses res).1).2 w hw).1⟩

/-- Every response `RoundTrip` writes to the cache is one of the parsed
responses of the upstream reply to the forwarded body. -/
theorem RoundTrip_source {σ : Type} (rc : ResponseCache σ) (s : σ)
    (parsed : Except String RPCRequests) (up : Upstream) :
    ∀ w ∈ (RoundTrip rc s parsed up).writes,
      ∃ body res, up body = .ok res ∧ w.2 ∈ (ParseResponses res).1 := by
  cases parsed with
  | error err => simp [RoundTrip]
  | ok P =>
    rw [RoundTrip_ok]
    cases hf : P.filter (isMiss rc s) with
    | nil => simp
    | cons first more =>
      intro w hw
      obtain ⟨res, h1, h2⟩ := afterForward_source rc s P _ _ _ _ _ w hw
      exact ⟨_, res, h1, h2⟩

theorem updateWorker_source {σ : Type} (rc : ResponseCache σ) (s : σ) (reqs : RPCRequests)
    (result : Except GoError RPCResponses) :
    ∀ w ∈ (updateWorker rc s reqs result).writes, ∃ S, result = .ok S ∧ w.2 ∈ S := by
  cases result with
  | error err => simp [updateWorker]
  | ok S =>
    obtain ⟨h1, _, _, _⟩ := updateWorker_ok rc s reqs S
    obtain ⟨new, e1, _, e3⟩ := workerLoop_trace rc reqs S ⟨s, [], [], false⟩ []
    simp only [List.nil_append] at e1
    intro w hw
    rw [h1, e1] at hw
    exact ⟨S, rfl, (e3 w hw).1⟩

/-- C19, the code at two failing inputs. One request is forwarded and the
upstream answers with two responses: the merge loop indexes
`proxyRequestIdx[1]` out of range and `RoundTrip` panics. Two requests with
IDs "1" and "2" are forwarded and the upstream answers only the one with ID
"2": the response lands in the slot of request "1", and the slot of request
"2" stays the empty response with ID "2". -/
theorem response_count_mismatch_is_not_tolerated :
    (RoundTrip (memoryCacher ["test"]) [] (.ok [mkRequest "1" "test"])
      (replyWith [mkResponse "1" "15", mkResponse "7" "16"])).reply = .panic ∧
    (RoundTrip (memoryCacher ["test"]) [] (.ok [mkRequest "1" "test"])
      (replyWith [mkResponse "1" "15", mkResponse "7" "16"])).forwarded
      = some (.object (mkRequest "1" "test")) ∧
    (RoundTrip reverseCacher [] (.ok [mkRequest "1" "test1", mkRequest "2" "test2"])
      (replyWith [mkResponse "2" "16"])).reply.responses
      = [mkResponse "2" "16", ⟨"", .str "2", .nil, none⟩] :=
  ⟨rfl, rfl, rfl⟩

/-- C20, counterexample. The upstream answers the cacheable request "1" with a
response object that omits the `jsonrpc` member and carries no error. Both
the transport and a refresh worker write this response, which is the empty
sentinel, to the cache. -/
theorem response_without_jsonrpc_is_stored :
    RPCResponse.IsEmpty ⟨"", .str "1", .str "15", none⟩ = true ∧
    (RoundTrip (memoryCacher ["test"]) [] (.ok [mkRequest "1" "test"])
      (replyWith [⟨"", .str "1", .str "15", none⟩])).writes
      = [(mkRequest "1" "test", ⟨"", .str "1", .str "15", none⟩)] ∧
    memoryLookup (RoundTrip (memoryCacher ["test"]) [] (.ok [mkRequest "1" "test"])
      (replyWith [⟨"", .str "1", .str "15", none⟩])).store "test"
      = some ⟨mkRequest "1" "test", ⟨"", .str "1", .str "15", none⟩⟩ ∧
    (updateWorker (memoryCacher ["test"]) [] [mkRequest "1" "test"]
      (.ok [⟨"", .str "1", .str "15", none⟩])).writes
      = [(mkRequest "1" "test", ⟨"", .str "1", .str "15", none⟩)] :=
  ⟨rfl, rfl, rfl, rfl⟩

/-- C20, amended. Every response written to the cache by `RoundTrip` is one
of the responses parsed from the upstream's reply, unchanged, and every
response written by a refresh worker is one of the responses the upstream
returned to it, unchanged; so when every response the upstream returns has a
non-empty `jsonrpc` field, every response written to the cache has one. -/
theorem stored_responses_are_upstream_responses {σ : Type} (rc : ResponseCache σ) (s : σ)
    (parsed : Except String RPCRequests) (up : Upstream) (reqs : RPCRequests)
    (result : Except GoError RPCResponses) :
    (∀ w ∈ (RoundTrip rc s parsed up).writes,
      ∃ body res, up body = .ok res ∧ w.2 ∈ (ParseResponses res).1) ∧
    (∀ w ∈ (updateWorker rc s reqs result).writes, ∃ S, result = .ok S ∧ w.2 ∈ S) ∧
    ((∀ body res, up body = .ok res →
        ∀ resp ∈ (ParseResponses res).1, resp.IsEmpty = false) →
      ∀ w ∈ (RoundTrip rc s parsed up).writes, w.2.IsEmpty = false) ∧
    ((∀ S, result = .ok S → ∀ resp ∈ S, resp.IsEmpty = false) →
      ∀ w ∈ (updateWorker rc s reqs result).writes, w.2.IsEmpty = false) := by
  refine ⟨RoundTrip_source rc s parsed up, updateWorker_source rc s reqs result, ?_, ?_⟩
  · intro hup w hw
    obtain ⟨body, res, h1, h2⟩ := RoundTrip_source rc s parsed up w hw
    exact hup body res h1 _ h2
  · intro hres w hw
    obtain ⟨S, h1, h2⟩ := updateWorker_source rc s reqs result w hw
    exact hres S h1 _ h2

/-- C20, worked example: the response the upstream gives to request "1" is
the one written, by the transport and by a refresh worker. -/
theorem stored_responses_are_upstream_responses_witness :
    (RoundTrip (memoryCacher ["test"]) [] (.ok [mkRequest "1" "test"])
        (replyWith [mkResponse "1" "15"])).writes =
      [(mkRequest "1" "test", mkResponse "1" "15")] ∧
    (∃ body res, replyWith [mkResponse "1" "15"] body = .ok res ∧
      mkResponse "1" "15" ∈ (ParseResponses res).1) ∧
    (updateWorker (memoryCacher ["test"]) [] [mkRequest "1" "test"]
        (.ok [mkResponse "1" "15"])).writes =
      [(mkRequest "1" "test", mkResponse "1" "15")] ∧
    (∃ S, (Except.ok [mkResponse "1" "15"] : Except GoError RPCResponses) = .ok S ∧
      mkResponse "1" "15" ∈ S) :=
  ⟨rfl,
    (stored_responses_are_upstream_responses (memoryCacher ["test"]) []
      (.ok [mkRequest "1" "test"]) (replyWith [mkResponse "1" "15"]) [mkRequest "1" "test"]
      (.ok [mkResponse "1" "15"])).1 (mkRequest "1" "test", mkResponse "1" "15")
      (show (mkRequest "1" "test", mkResponse "1" "15") ∈
        [(mkRequest "1" "test", mkResponse "1" "15")] from List.mem_singleton.2 rfl),
    rfl,
    (stored_responses_are_upstream_responses (memoryCacher ["test"]) []
      (.ok [mkRequest "1" "test"]) (replyWith [mkResponse "1" "15"]) [mkRequest "1" "test"]
      (.ok [mkResponse "1" "15"])).2.1 (mkRequest "1" "test", mkResponse "1" "15")
      (show (mkRequest "1" "test", mkResponse "1" "15") ∈
        [(mkRequest "1" "test", mkResponse "1" "15")] from List.mem_singleton.2 rfl)⟩

/-! ## Refresh workloads: lemmas -/

theorem truncate_natCast (n : Nat) (hn : n < 2 ^ 63) : truncate (n : ℚ) = (n : ℤ) := by
  have h1 : minInt64 ≤ (n : ℤ) := by simp only [minInt64]; omega
  have h2 : (n : ℤ) ≤ maxInt64 := by simp only [maxInt64]; omega
  simp [truncate, h1, h2]

theorem Equal_float64_natCast (a b : Nat) (ha : a < 2 ^ 63) (hb : b < 2 ^ 63) :
    Equal (.float64 (a : ℚ)) (.float64 (b : ℚ)) = some (decide (a = b)) := by
  simp only [Equal, convert, ifaceEq, truncate_natCast a ha, truncate_natCast b hb]
  simp

theorem cacheRequestsLoop_erased (mt : Matcher) (e : RPCRequest → RPCRequest)
    (he : ∀ (r : RPCRequest) (v : Value), e { r with ID := v } = e r)
    (L : RPCRequests) (counter : Nat) (reqs : RPCRequests) :
    (cacheRequestsLoop mt L counter reqs).map e =
      reqs.map e ++ (L.filter (fun r => mt.IsUpdatable r.Method)).map e := by
  induction L generalizing counter reqs with
  | nil => simp [cacheRequestsLoop]
  | cons req rest ih =>
    by_cases hu : mt.IsUpdatable req.Method = true
    · simp [cacheRequestsLoop, hu, ih, List.filter_cons, he]
    · simp [cacheRequestsLoop, hu, ih, List.filter_cons]

theorem cacheRequestsLoop_ids (mt : Matcher) (L : RPCRequests) (counter : Nat)
    (reqs : RPCRequests) :
    (cacheRequestsLoop mt L counter reqs).map (fun r => r.ID) =
      reqs.map (fun r => r.ID) ++
        (List.range (L.filter (fun r => mt.IsUpdatable r.Method)).length).map
          (fun k => Value.float64 ((counter + k : ℕ) : ℚ)) := by
  induction L generalizing counter reqs with
  | nil => simp [cacheRequestsLoop]
  | cons req rest ih =>
    by_cases hu : mt.IsUpdatable req.Method = true
    · simp only [cacheRequestsLoop, hu, Bool.not_true, Bool.false_eq_true, if_false, ih,
        List.filter_cons, if_true, List.length_cons, List.range_succ_eq_map, List.map_cons,
        List.map_append, List.map_map, List.append_assoc, List.singleton_append, List.map_nil,
        Nat.add_zero]
      congr 2
      apply List.map_congr_left
      intro k _
      simp only [Function.comp, Nat.succ_eq_add_one]
      congr 2
      omega
    · simp [cacheRequestsLoop, hu, ih, List.filter_cons]

theorem cacheRequestsLoop_length (mt : Matcher) (L : RPCRequests) (counter : Nat)
    (reqs : RPCRequests) :
    (cacheRequestsLoop mt L counter reqs).length =
      reqs.length + (L.filter (fun r => mt.IsUpdatable r.Method)).length := by
  have h := congrArg List.length (cacheRequestsLoop_ids mt L counter reqs)
  simpa using h

/-- Identifiers `1, 2, ...` as the refreshers write them are pairwise different
under `utils.Equal`, for a list of a length that a Go slice can have. -/
theorem counter_ids_distinct (reqs : RPCRequests)
    (hids : reqs.map (fun r => r.ID) =
      (List.range reqs.length).map (fun k => Value.float64 ((k + 1 : ℕ) : ℚ)))
    (hbound : reqs.length < 2 ^ 63)
    (i j : Nat) (hi : i < reqs.length) (hj : j < reqs.length) (hij : i ≠ j) :
    Equal (reqs.get ⟨i, hi⟩).ID (reqs.get ⟨j, hj⟩).ID = some false := by
  have hget : ∀ k (hk : k < reqs.length),
      (reqs.get ⟨k, hk⟩).ID = Value.float64 ((k + 1 : ℕ) : ℚ) := by
    intro k hk
    have h1 : (reqs.map (fun r => r.ID))[k]? = some (reqs.get ⟨k, hk⟩).ID := by
      simp [List.getElem?_map, List.getElem?_eq_getElem hk]
    rw [hids] at h1
    simp only [List.getElem?_map, List.getElem?_range hk, Option.map_some', Option.some.injEq]
      at h1
    exact h1.symm
  rw [hget i hi, hget j hj, Equal_float64_natCast _ _ (by omega) (by omega)]
  simp [hij]

/-- Identifiers `1, 2, ...` are pairwise different values. -/
theorem counter_ids_nodup (n : Nat) :
    ((List.range n).map (fun k => Value.float64 ((k + 1 : ℕ) : ℚ))).Nodup := by
  refine (List.nodup_range n).map ?_
  intro a b h
  simp only [Value.float64.injEq, Nat.cast_inj] at h
  omega

/-! ## Refresh workloads: claims -/

/-- C21 (the code as written). On the in-memory store `Requests` starts from a
slice of `ItemCount` zero-valued requests and appends the stored requests to
it: after one `Set` on an empty store it returns two requests, a zero-valued
one and the stored one, and in every state it returns twice as many requests
as there are live entries, the first half zero-valued. -/
theorem MemoryCache_Requests_prepends_zero_values :
    (MemoryCache.Requests
        (MemoryCache.Set [] "test" (mkRequest "1" "test") (mkResponse "1" "15")).1).1 =
      [default, mkRequest "1" "test"] ∧
    ∀ m : MemoryState,
      (MemoryCache.Requests m).1.length = 2 * m.length ∧
      (MemoryCache.Requests m).1.take m.length = List.replicate m.length default ∧
      (MemoryCache.Requests m).1.drop m.length = m.map (fun item => item.2.Request) := by
  refine ⟨rfl, fun m => ⟨?_, ?_, ?_⟩⟩
  · simp [MemoryCache.Requests]; omega
  · simp [MemoryCache.Requests, List.take_append_eq_append_take]
  · simp [MemoryCache.Requests, List.drop_append_eq_append_drop]

/-- C22. Cache refresher workload. When the store returns the list `L`,
`cacheRequests` returns the requests of `L` whose method is updatable, in the
same order and unchanged except for the ID; the k-th one (from 1) has ID `k`,
so the IDs are pairwise different values, and pairwise different under
`utils.Equal` for a list of fewer than 2^63 requests, which every Go slice
is (beyond the `int` range `Equal` converts every number to the same
`int`). When the store fails to
enumerate, the result is empty. For a matcher built by `FromConfig`, a method
is updatable exactly when an enabled spec of that name exists and no enabled
spec of that name sets `no_update_cache`. -/
theorem cacheRequests_filters_and_renumbers {σ : Type} (rc : ResponseCache σ) (s : σ) :
    (∀ L, rc.cache.Requests s = (L, none) →
      (cacheRequests rc s).map (fun r => { r with ID := Value.nil }) =
        (L.filter (fun r => rc.matcher.IsUpdatable r.Method)).map
          (fun r => { r with ID := Value.nil }) ∧
      (cacheRequests rc s).map (fun r => r.ID) =
        (List.range (cacheRequests rc s).length).map
          (fun k => Value.float64 ((k + 1 : ℕ) : ℚ)) ∧
      ((cacheRequests rc s).map (fun r => r.ID)).Nodup ∧
      ((cacheRequests rc s).length < 2 ^ 63 →
        ∀ (i j : Nat) (hi : i < (cacheRequests rc s).length)
          (hj : j < (cacheRequests rc s).length), i ≠ j →
          Equal ((cacheRequests rc s).get ⟨i, hi⟩).ID ((cacheRequests rc s).get ⟨j, hj⟩).ID =
            some false)) ∧
    (∀ L e, rc.cache.Requests s = (L, some e) → cacheRequests rc s = []) ∧
    ∀ (cfg : List CacheMethod) (m : String),
      (FromConfig ⟨cfg⟩).IsUpdatable m = true ↔
        (∃ c ∈ cfg, c.Enabled = true ∧ c.Name = m) ∧
        ∀ c ∈ cfg, c.Enabled = true → c.Name = m → c.NoUpdateCache = false := by
  refine ⟨fun L hL => ?_, fun L e hL => ?_, fun cfg m => ?_⟩
  · have hc : cacheRequests rc s = cacheRequestsLoop rc.matcher L 1 [] := by
      simp [cacheRequests, hL]
    have hids : (cacheRequests rc s).map (fun r => r.ID) =
        (List.range (cacheRequests rc s).length).map
          (fun k => Value.float64 ((k + 1 : ℕ) : ℚ)) := by
      rw [hc, cacheRequestsLoop_ids, cacheRequestsLoop_length]
      simp only [List.map_nil, List.nil_append, List.length_nil, Nat.zero_add]
      apply List.map_congr_left
      intro k _
      rw [Nat.add_comm]
    refine ⟨?_, hids, hids ▸ counter_ids_nodup _,
      fun hb i j hi hj hij => counter_ids_distinct _ hids hb i j hi hj hij⟩
    rw [hc, cacheRequestsLoop_erased rc.matcher (fun r => { r with ID := Value.nil })
      (fun _ _ => rfl)]
    simp
  · simp [cacheRequests, hL]
  · simp only [Match.IsUpdatable, lookup_FromConfig]
    cases hf : cfg.filter (fun c => c.Enabled && c.Name == m) with
    | nil =>
      simp only [List.isEmpty_nil, if_true]
      constructor
      · intro h; cases h
      · rintro ⟨⟨c, hc, hE, hN⟩, _⟩
        have : c ∈ cfg.filter (fun c => c.Enabled && c.Name == m) := by
          simp [List.mem_filter, hc, hE, hN]
        rw [hf] at this
        cases this
    | cons t ts =>
      have ht : t ∈ cfg.filter (fun c => c.Enabled && c.Name == m) := by
        rw [hf]; exact List.mem_cons_self _ _
      simp only [List.isEmpty_cons, Bool.false_eq_true, if_false]
      rw [← hf]
      simp only [List.mem_filter, Bool.and_eq_true, beq_iff_eq] at ht
      constructor
      · intro h
        refine ⟨⟨t, ht.1, ht.2.1, ht.2.2⟩, fun c hc hE hN => ?_⟩
        simp only [Bool.not_eq_true', List.any_eq_false, List.mem_map, List.mem_filter,
          Bool.and_eq_true, beq_iff_eq] at h
        have := h (ingest c) ⟨c, ⟨hc, hE, hN⟩, rfl⟩
        simpa [ingest] using this
      · rintro ⟨_, hall⟩
        simp only [Bool.not_eq_true', List.any_eq_false, List.mem_map, List.mem_filter,
          Bool.and_eq_true, beq_iff_eq]
        rintro cm ⟨c, ⟨hc, hE, hN⟩, rfl⟩
        simpa [ingest] using hall c hc hE hN

theorem methodRequestsLoop_pairs (ms : List customMethod) (counter : Nat) (reqs : RPCRequests) :
    (methodRequestsLoop ms counter reqs).map (fun r => (r.Method, r.Params)) =
      reqs.map (fun r => (r.Method, r.Params)) ++ ms.map (fun m => (m.Name, m.Params)) := by
  induction ms generalizing counter reqs with
  | nil => simp [methodRequestsLoop]
  | cons m rest ih => simp [methodRequestsLoop, ih]

theorem methodRequestsLoop_ids (ms : List customMethod) (counter : Nat) (reqs : RPCRequests) :
    (methodRequestsLoop ms counter reqs).map (fun r => r.ID) =
      reqs.map (fun r => r.ID) ++
        (List.range ms.length).map (fun k => Value.float64 ((counter + k : ℕ) : ℚ)) := by
  induction ms generalizing counter reqs with
  | nil => simp [methodRequestsLoop]
  | cons m rest ih =>
    simp only [methodRequestsLoop, ih, List.length_cons, List.range_succ_eq_map, List.map_cons,
      List.map_append, List.map_map, List.append_assoc, List.singleton_append, List.map_nil,
      Nat.add_zero]
    congr 2
    apply List.map_congr_left
    intro k _
    simp only [Function.comp, Nat.succ_eq_add_one]
    congr 2
    omega

theorem methodRequestsLoop_version (ms : List customMethod) (counter : Nat)
    (reqs : RPCRequests) (h : ∀ r ∈ reqs, r.JSONRPC = "2.0") :
    ∀ r ∈ methodRequestsLoop ms counter reqs, r.JSONRPC = "2.0" := by
  induction ms generalizing counter reqs with
  | nil => simpa [methodRequestsLoop] using h
  | cons m rest ih =>
    simp only [methodRequestsLoop]
    apply ih
    intro r hr
    rcases List.mem_append.1 hr with hr | hr
    · exact h r hr
    · rw [List.mem_singleton] at hr
      rw [hr]

theorem customOf_eq (l : List cacheMethod) :
    customOf l = (l.filter (fun cm => cm.kind.IsCustom)).map
      (fun cm => ⟨cm.name, cm.paramsForRequest⟩) := by
  induction l with
  | nil => rfl
  | cons cm rest ih =>
    by_cases h : cm.kind.IsCustom = true
    · simp [customOf, h, ih, List.filter_cons]
    · simp [customOf, h, ih, List.filter_cons]

theorem customOf_append (a b : List cacheMethod) :
    customOf (a ++ b) = customOf a ++ customOf b := by
  simp [customOf_eq]

theorem Custom_eq_customOf_specs (ms : methods) : ms.Custom = customOf ms.specs := by
  induction ms with
  | nil => rfl
  | cons e rest ih =>
    obtain ⟨k, cms⟩ := e
    simp only [methods.Custom, ih, methods.specs, List.map_cons, List.flatten_cons,
      customOf_append]

theorem specs_methodsAppend (ms : methods) (name : String) (cm : cacheMethod) :
    (methodsAppend ms name cm).specs.Perm (ms.specs ++ [cm]) := by
  induction ms with
  | nil => simp [methodsAppend, methods.specs]
  | cons e rest ih =>
    obtain ⟨k, cms⟩ := e
    by_cases hk : k = name
    · simp only [methodsAppend, hk, if_true, methods.specs, List.map_cons, List.flatten_cons,
        List.append_assoc]
      exact List.Perm.append_left _ List.perm_append_comm
    · simp only [methodsAppend, hk, if_false, methods.specs, List.map_cons, List.flatten_cons,
        List.append_assoc]
      exact List.Perm.append_left _ ih

theorem specs_foldl_addMethod (cfg : List CacheMethod) (acc : Match) :
    (cfg.foldl Match.addMethod acc).methods.specs.Perm
      (acc.methods.specs ++ (cfg.filter (fun c => c.Enabled)).map ingest) := by
  induction cfg generalizing acc with
  | nil => simp
  | cons c cfg ih =>
    by_cases hE : c.Enabled = true
    · have hadd : acc.addMethod c = ⟨methodsAppend acc.methods c.Name (ingest c)⟩ := by
        simp [Match.addMethod, hE, ingest]
      simp only [List.foldl_cons, List.filter_cons, hE, if_true, List.map_cons]
      refine (ih _).trans ?_
      rw [hadd]
      have h := (specs_methodsAppend acc.methods c.Name (ingest c)).append_right
        ((cfg.filter (fun c => c.Enabled)).map ingest)
      simpa using h
    · have hadd : acc.addMethod c = acc := by simp [Match.addMethod, hE]
      simp only [List.foldl_cons, List.filter_cons, hE, hadd]
      exact ih acc

theorem specs_perm (ms ms2 : methods) (h : ms.Perm ms2) : ms.specs.Perm ms2.specs :=
  (h.map Prod.snd).flatten

/-- Custom methods of a matcher built from a configuration, whatever the
iteration order of its methods map: the enabled specs of custom kind. -/
theorem Custom_FromConfig_perm (cfg : List CacheMethod) (ms : methods)
    (hperm : ms.Perm (FromConfig ⟨cfg⟩).methods) :
    (ms.Custom.map (fun m => (m.Name, m.Params))).Perm
      ((cfg.filter (fun c => c.Enabled && c.Kind.IsCustom)).map
        (fun c => (c.Name, c.ParamsForRequest))) := by
  have h1 : ms.specs.Perm ((cfg.filter (fun c => c.Enabled)).map ingest) := by
    have h := (specs_perm ms _ hperm).trans (specs_foldl_addMethod cfg newMatcher)
    simpa [FromConfig, newMatcher, methods.specs] using h
  rw [Custom_eq_customOf_specs, customOf_eq]
  have h2 := ((h1.filter (fun cm => cm.kind.IsCustom)).map
    (fun cm : cacheMethod => (⟨cm.name, cm.paramsForRequest⟩ : customMethod))).map
    (fun m : customMethod => (m.Name, m.Params))
  refine h2.trans ?_
  simp only [List.filter_map, List.map_map, List.filter_filter]
  apply List.Perm.of_eq
  have hf : (fun c : CacheMethod => ((fun cm : cacheMethod => cm.kind.IsCustom) ∘ ingest) c
      && c.Enabled) = (fun c => c.Enabled && c.Kind.IsCustom) := by
    funext c
    simp [ingest, Bool.and_comm]
  rw [hf]
  apply List.map_congr_left
  intro c _
  simp [ingest]

/-- C23. Method refresher workload. For the matcher built by `FromConfig` from
any list of specs, iterated in any order of its methods map, `methodRequests`
returns one request per enabled spec of custom kind and none for the others:
the (method, params) pairs of the requests are, as a multiset, the (name,
params_for_request) pairs of those specs; every request has jsonrpc "2.0",
and the k-th request (from 1) has ID `k`. -/
theorem methodRequests_one_per_custom_spec {σ : Type} (cd : Codec) (c : Cache σ)
    (cfg : List CacheMethod) (ms : methods) (hperm : ms.Perm (FromConfig ⟨cfg⟩).methods) :
    ((methodRequests ⟨c, Match.toMatcher cd ⟨ms⟩⟩).map (fun r => (r.Method, r.Params))).Perm
      ((cfg.filter (fun s => s.Enabled && s.Kind.IsCustom)).map
        (fun s => (s.Name, s.ParamsForRequest))) ∧
    (methodRequests ⟨c, Match.toMatcher cd ⟨ms⟩⟩).length =
      (cfg.filter (fun s => s.Enabled && s.Kind.IsCustom)).length ∧
    (∀ r ∈ methodRequests ⟨c, Match.toMatcher cd ⟨ms⟩⟩, r.JSONRPC = "2.0") ∧
    (methodRequests ⟨c, Match.toMatcher cd ⟨ms⟩⟩).map (fun r => r.ID) =
      (List.range (methodRequests ⟨c, Match.toMatcher cd ⟨ms⟩⟩).length).map
        (fun k => Value.float64 ((k + 1 : ℕ) : ℚ)) := by
  have hm : methodRequests ⟨c, Match.toMatcher cd ⟨ms⟩⟩ = methodRequestsLoop ms.Custom 1 [] := rfl
  have hpairs : (methodRequests ⟨c, Match.toMatcher cd ⟨ms⟩⟩).map (fun r => (r.Method, r.Params))
      = ms.Custom.map (fun m => (m.Name, m.Params)) := by
    rw [hm, methodRequestsLoop_pairs]
    rfl
  have hlen : (methodRequests ⟨c, Match.toMatcher cd ⟨ms⟩⟩).length = ms.Custom.length := by
    simpa using congrArg List.length hpairs
  have hperm2 := Custom_FromConfig_perm cfg ms hperm
  refine ⟨hpairs ▸ hperm2, ?_, ?_, ?_⟩
  · have := hperm2.length_eq
    simp only [List.length_map] at this
    omega
  · rw [hm]
    exact methodRequestsLoop_version _ _ _ (fun r hr => by cases hr)
  · rw [hlen, hm, methodRequestsLoop_ids]
    simp only [List.map_nil, List.nil_append]
    apply List.map_congr_left
    intro k _
    rw [Nat.add_comm]

/-- C23, worked example: two enabled custom specs, one enabled regular spec
and one disabled custom spec give two requests. -/
theorem methodRequests_one_per_custom_spec_witness :
    ((methodRequests (⟨MemoryCache, Match.toMatcher toyCodec
        ⟨(FromConfig ⟨[kindSpec "a" CustomMethod true, kindSpec "b" RegularMethod true,
          kindSpec "c" CustomMethod false, kindSpec "d" CustomMethod true]⟩).methods⟩⟩ :
        ResponseCache MemoryState)).map (fun r => (r.Method, r.Params))).Perm
      [("a", Value.slice [.str "x"]), ("d", Value.slice [.str "x"])] ∧
    (methodRequests (⟨MemoryCache, Match.toMatcher toyCodec
        ⟨(FromConfig ⟨[kindSpec "a" CustomMethod true, kindSpec "b" RegularMethod true,
          kindSpec "c" CustomMethod false, kindSpec "d" CustomMethod true]⟩).methods⟩⟩ :
        ResponseCache MemoryState)).length = 2 :=
  ⟨(methodRequests_one_per_custom_spec toyCodec MemoryCache
      [kindSpec "a" CustomMethod true, kindSpec "b" RegularMethod true,
        kindSpec "c" CustomMethod false, kindSpec "d" CustomMethod true] _
      (List.Perm.refl _)).1,
   (methodRequests_one_per_custom_spec toyCodec MemoryCache
      [kindSpec "a" CustomMethod true, kindSpec "b" RegularMethod true,
        kindSpec "c" CustomMethod false, kindSpec "d" CustomMethod true] _
      (List.Perm.refl _)).2.1⟩

/-! ## Chunking: lemmas -/

theorem Min_pair (a b : Nat) : Min a [b] = min a b := by
  simp only [Min]
  split <;> omega

theorem ceil_lt_iff (n b k : Nat) (hb : 1 ≤ b) : k < (n + b - 1) / b ↔ k * b < n := by
  rw [Nat.lt_iff_add_one_le, Nat.le_div_iff_mul_le hb, Nat.add_mul, Nat.one_mul]
  omega

theorem sliceOf_length {α : Type} (l : List α) (i j : Nat) :
    (sliceOf l i j).length = min (j - i) (l.length - i) := by
  simp [sliceOf]

theorem chunkLoop_eq (reqs : RPCRequests) (b : Nat) (hb : 1 ≤ b) (fuel : Nat) :
    ∀ (k : Nat) (chunks : List RPCRequests), reqs.length ≤ fuel + k * b →
      chunkLoop reqs b fuel (k * b) chunks =
        some (chunks ++ (List.range' k ((reqs.length + b - 1) / b - k)).map
          (fun j => sliceOf reqs (j * b) (min ((j + 1) * b) reqs.length))) := by
  induction fuel with
  | zero =>
    intro k chunks h
    have hk : ¬ k * b < reqs.length := by omega
    have hc : (reqs.length + b - 1) / b - k = 0 := by
      have := (ceil_lt_iff reqs.length b k hb).not.2 hk
      omega
    simp [chunkLoop, hk, hc]
  | succ fuel ih =>
    intro k chunks h
    by_cases hk : k * b < reqs.length
    · have hc : (reqs.length + b - 1) / b - k = ((reqs.length + b - 1) / b - (k + 1)) + 1 := by
        have := (ceil_lt_iff reqs.length b k hb).2 hk
        omega
      have hnext : k * b + b = (k + 1) * b := by rw [Nat.add_mul, Nat.one_mul]
      simp only [chunkLoop, hk, if_true, Min_pair]
      rw [hnext, ih (k + 1) _ (by rw [← hnext]; omega), hc, List.range'_succ]
      simp
    · have hc : (reqs.length + b - 1) / b - k = 0 := by
        have := (ceil_lt_iff reqs.length b k hb).not.2 hk
        omega
      simp [chunkLoop, hk, hc]

theorem chunkLoop_flatten (reqs : RPCRequests) (b : Nat) (fuel : Nat) :
    ∀ (i : Nat) (chunks result : List RPCRequests), chunks.flatten = reqs.take i →
      chunkLoop reqs b fuel i chunks = some result → result.flatten = reqs := by
  induction fuel with
  | zero =>
    intro i chunks result hinv h
    by_cases hi : i < reqs.length
    · simp [chunkLoop, hi] at h
    · simp only [chunkLoop, hi, if_false, Option.some.injEq] at h
      rw [← h, hinv, List.take_of_length_le (by omega)]
  | succ fuel ih =>
    intro i chunks result hinv h
    by_cases hi : i < reqs.length
    · simp only [chunkLoop, hi, if_true, Min_pair] at h
      refine ih (i + b) _ result ?_ h
      rw [List.flatten_append, hinv, List.flatten_singleton, sliceOf, ← List.take_add]
      by_cases hle : i + b ≤ reqs.length
      · congr 1
        omega
      · rw [List.take_of_length_le (by omega), List.take_of_length_le (by omega)]
    · simp only [chunkLoop, hi, if_false, Option.some.injEq] at h
      rw [← h, hinv, List.take_of_length_le (by omega)]

/-! ## Chunking: claims -/

/-- C24. Fan-out chunking. For a request list of length `n ≥ 1` and a batch
size `b ≥ 1` the chunking loop of `update` finishes within `n` iterations and
dispatches `ceil(n / b)` chunks, the j-th being `reqs[j*b : min((j+1)*b, n)]`;
every chunk has between 1 and `b` requests, every chunk but the last has
exactly `b`, and the chunks put together in order are the original list. -/
theorem update_chunks (reqs : RPCRequests) (b fuel : Nat) (hn : 1 ≤ reqs.length)
    (hb : 1 ≤ b) (hfuel : reqs.length ≤ fuel) :
    ∃ chunks, updateChunks reqs b fuel = some chunks ∧
      chunks.length = (reqs.length + b - 1) / b ∧
      (∀ (j : Nat) (hj : j < chunks.length),
        chunks.get ⟨j, hj⟩ = sliceOf reqs (j * b) (min ((j + 1) * b) reqs.length)) ∧
      (∀ c ∈ chunks, 1 ≤ c.length ∧ c.length ≤ b) ∧
      (∀ (j : Nat) (hj : j < chunks.length), j + 1 < chunks.length →
        (chunks.get ⟨j, hj⟩).length = b) ∧
      chunks.flatten = reqs := by
  have hne : reqs.isEmpty = false := by
    cases reqs with
    | nil => simp at hn
    | cons _ _ => rfl
  have hrun : updateChunks reqs b fuel =
      some ((List.range ((reqs.length + b - 1) / b)).map
        (fun j => sliceOf reqs (j * b) (min ((j + 1) * b) reqs.length))) := by
    have h := chunkLoop_eq reqs b hb fuel 0 [] (by omega)
    simp only [Nat.zero_mul, List.nil_append, Nat.sub_zero] at h
    simp only [updateChunks, hne, Bool.false_eq_true, if_false, h, List.range_eq_range']
  have hflat := chunkLoop_flatten reqs b fuel 0 [] _ (by simp)
    (by simpa [updateChunks, hne] using hrun)
  have hsize : ∀ j, j < (reqs.length + b - 1) / b →
      1 ≤ (sliceOf reqs (j * b) (min ((j + 1) * b) reqs.length)).length ∧
      (sliceOf reqs (j * b) (min ((j + 1) * b) reqs.length)).length ≤ b ∧
      (j + 1 < (reqs.length + b - 1) / b →
        (sliceOf reqs (j * b) (min ((j + 1) * b) reqs.length)).length = b) := by
    intro j hj
    have h1 := (ceil_lt_iff reqs.length b j hb).1 hj
    have h2 : (j + 1) * b = j * b + b := by rw [Nat.add_mul, Nat.one_mul]
    rw [sliceOf_length, h2]
    refine ⟨by omega, by omega, fun hj2 => ?_⟩
    have h3 := (ceil_lt_iff reqs.length b (j + 1) hb).1 hj2
    rw [h2] at h3
    omega
  refine ⟨_, hrun, by simp, ?_, ?_, ?_, hflat⟩
  · intro j hj
    simp
  · intro c hc
    simp only [List.mem_map, List.mem_range] at hc
    obtain ⟨j, hj, rfl⟩ := hc
    exact ⟨(hsize j hj).1, (hsize j hj).2.1⟩
  · intro j hj hj2
    simp only [List.length_map, List.length_range] at hj hj2
    simp only [List.get_eq_getElem, List.getElem_map, List.getElem_range]
    exact (hsize j hj).2.2 hj2

/-- C24, worked example of `TestMethodsUpdaterConcurrency`: 100 requests with
batch size 5 are dispatched as 20 chunks of at most 5 requests. -/
theorem update_chunks_witness :
    ∃ chunks, updateChunks hundredRequests 5 100 = some chunks ∧ chunks.length = 20 ∧
      (∀ c ∈ chunks, c.length ≤ 5) ∧ chunks.flatten = hundredRequests := by
  obtain ⟨chunks, h1, h2, _, h4, _, h6⟩ :=
    update_chunks hundredRequests 5 100 (by decide) (by decide) (by decide)
  exact ⟨chunks, h1, h2, fun c hc => (h4 c hc).2, h6⟩

/-! ## Response assembly and batch detection: claims -/

/-- C25. Response assembly shape. For a response list of length 1, `Response`
yields status 200, Content-Type application/json and a body that is the one
response as a single object, whose text is the JSON of that response; a
parsed request list of one element, which is what both a single request and
a one-element batch parse to, is answered from the cache in that shape. For a
list of length at least 2 the body is the array of all responses in order. -/
theorem Response_shape_by_length {σ : Type} (marshal : RPCResponse → String) :
    (∀ r : RPCResponse, Response [r] = ⟨200, "application/json", .object r⟩ ∧
      (Response [r]).Body.render marshal = marshal r) ∧
    (∀ R : RPCResponses, 2 ≤ R.length →
      Response R = ⟨200, "application/json", .array R⟩ ∧
      (Response R).Body.render marshal = "[" ++ ",".intercalate (R.map marshal) ++ "]") ∧
    ∀ (rc : ResponseCache σ) (s : σ) (r : RPCRequest) (up : Upstream),
      isMiss rc s r = false →
      (RoundTrip rc s (.ok [r]) up).reply =
        .json ⟨200, "application/json", .object (cachedFor rc s r)⟩ := by
  refine ⟨fun r => ⟨rfl, rfl⟩, fun R hR => ?_, fun rc s r up hm => ?_⟩
  · match R, hR with
    | _ :: _ :: _, _ => exact ⟨rfl, rfl⟩
  · rw [RoundTrip_single_hit rc s r up hm]

/-- C26 (the code as written). When the upstream body does not parse,
`ParseResponses` returns a nil body together with the error, so the message
of the synthesized JSON-RPC error is empty: an upstream answer 502 with body
"Bad Gateway" to a cacheable request is answered with status 502, jsonrpc
"2.0", id null, code -32603 and message "". -/
theorem unparseable_upstream_body_is_dropped :
    (RoundTrip (memoryCacher ["test"]) [] (.ok [mkRequest "1" "test"]) badGateway).reply =
      .error ⟨502, ⟨"2.0", .nil, ⟨-32603, "", .nil⟩⟩⟩ ∧
    ∀ (res : UpstreamResponse) (err : String), 0 < res.Body.length →
      res.decoded = .error err →
      JSONRPCErrorResponse res.StatusCode (ParseResponses res).2.1 =
        ⟨res.StatusCode, ⟨"2.0", .nil, ⟨-32603, "", .nil⟩⟩⟩ := by
  refine ⟨rfl, fun res err hlen hdec => ?_⟩
  simp [ParseResponses, hlen, hdec, JSONRPCErrorResponse, jsonRPCError, jsonRPCInternal]

/-- C27. Batch detection. `isBatch` is true exactly when the bytes are some
run of spaces, tabs, line feeds and carriage returns followed by `[`, that is
when the first byte that is none of these four exists and is `[`; it is
false for the empty string and for a string made only of those four bytes. -/
theorem isBatch_iff_first_nonspace_is_bracket (b : List Nat) :
    (isBatch b = true ↔
      ∃ pre post, b = pre ++ 0x5b :: post ∧
        ∀ c ∈ pre, c = 0x20 ∨ c = 0x09 ∨ c = 0x0a ∨ c = 0x0d) ∧
    isBatch [] = false ∧
    ((∀ c ∈ b, c = 0x20 ∨ c = 0x09 ∨ c = 0x0a ∨ c = 0x0d) → isBatch b = false) := by
  refine ⟨?_, rfl, ?_⟩
  · induction b with
    | nil =>
      constructor
      · intro h; cases h
      · rintro ⟨pre, post, h, _⟩
        cases pre <;> cases h
    | cons c rest ih =>
      by_cases hc : c = 0x20 ∨ c = 0x09 ∨ c = 0x0a ∨ c = 0x0d
      · simp only [isBatch, hc, if_true]
        rw [ih]
        constructor
        · rintro ⟨pre, post, h, hpre⟩
          refine ⟨c :: pre, post, by rw [h]; rfl, fun x hx => ?_⟩
          rcases List.mem_cons.1 hx with hx | hx
          · rw [hx]; exact hc
          · exact hpre x hx
        · rintro ⟨pre, post, h, hpre⟩
          cases pre with
          | nil =>
            simp only [List.nil_append, List.cons.injEq] at h
            omega
          | cons p pre =>
            simp only [List.cons_append, List.cons.injEq] at h
            exact ⟨pre, post, h.2, fun x hx => hpre x (List.mem_cons_of_mem _ hx)⟩
      · simp only [isBatch, hc, if_false, beq_iff_eq]
        constructor
        · intro h
          exact ⟨[], rest, by rw [h]; rfl, fun x hx => by cases hx⟩
        · rintro ⟨pre, post, h, hpre⟩
          cases pre with
          | nil =>
            simp only [List.nil_append, List.cons.injEq] at h
            exact h.1
          | cons p pre =>
            simp only [List.cons_append, List.cons.injEq] at h
            exact absurd (h.1 ▸ hpre p (List.mem_cons_self _ _)) hc
  · induction b with
    | nil => intro _; rfl
    | cons c rest ih =>
      intro h
      have hc := h c (List.mem_cons_self _ _)
      simp only [isBatch, hc, if_true]
      exact ih (fun x hx => h x (List.mem_cons_of_mem _ hx))

/-- C28, counterexample. The body `Response` builds for an empty response
list is the marshalled nil interface, the four bytes `null`, not zero bytes. -/
theorem empty_response_list_body_is_null :
    (Response []).Body.render versionText = "null" ∧
    ((Response []).Body.render versionText).utf8ByteSize = 4 := by
  constructor
  · rfl
  · decide

/-- C28, amended. `Response` applied to an empty response list yields status
200, Content-Type application/json and the JSON text `null` as body, whatever
the marshalling of a response is. -/
theorem Response_of_empty_list (marshal : RPCResponse → String) :
    (Response []).StatusCode = 200 ∧
    (Response []).ContentType = "application/json" ∧
    (Response []).Body.render marshal = "null" :=
  ⟨rfl, rfl, rfl⟩

/-! ## Cache writes and key material -/

theorem ifaceEq_true_eq (a c : Value) (h : ifaceEq a c = some true) : a = c := by
  cases a <;> cases c <;> simp_all [ifaceEq]

theorem Equal_true_of_common (a b x : Value) (ha : Equal a x = some true)
    (hb : Equal b x = some true) : Equal a b = some true := by
  unfold Equal at *
  rw [ifaceEq_true_eq _ _ hb]
  exact ha

/-- C29, counterexample. `RoundTrip` looks the request of a response up by ID
in the whole parsed batch, first match first. In the batch of a request for
"warm" (served from the cache) and a request for "test" (a miss), both with
ID "1", only the "test" request is forwarded; the response to it is stored
under the key of the "warm" request, nothing is stored for "test", and a
later request for "warm" is answered with the result of "test". -/
theorem response_is_stored_under_a_cache_hit :
    isMiss (memoryCacher ["test", "warm"]) warmStore (mkRequest "1" "warm") = false ∧
    isMiss (memoryCacher ["test", "warm"]) warmStore (mkRequest "1" "test") = true ∧
    RoundTrip (memoryCacher ["test", "warm"]) warmStore
        (.ok [mkRequest "1" "warm", mkRequest "1" "test"]) (replyWith [mkResponse "1" "16"]) =
      ⟨[("warm", ⟨mkRequest "1" "warm", mkResponse "1" "16"⟩)],
        some (.object (mkRequest "1" "test")),
        [(mkRequest "1" "warm", mkResponse "1" "16")],
        .json ⟨200, "application/json", .array [mkResponse "1" "7", mkResponse "1" "16"]⟩⟩ ∧
    (GetResponseCache (memoryCacher ["test", "warm"])
        [("warm", ⟨mkRequest "1" "warm", mkResponse "1" "16"⟩)] (mkRequest "2" "warm")).1 =
      mkResponse "1" "16" ∧
    isMiss (memoryCacher ["test", "warm"])
        [("warm", ⟨mkRequest "1" "warm", mkResponse "1" "16"⟩)] (mkRequest "1" "test") = true :=
  ⟨rfl, rfl, rfl, rfl, rfl⟩

/-- C29, amended. In a batch whose requests have pairwise different IDs (two
requests with equal IDs are one and the same request), when each upstream
response carries the ID of a forwarded request, every cache write of
`RoundTrip` stores the response under the keys of a request of the batch that
was a cache miss, hence forwarded, and that has the ID of the response. -/
theorem writes_are_under_forwarded_requests {σ : Type} (rc : ResponseCache σ) (s : σ)
    (P : RPCRequests) (up : Upstream)
    (hdistinct : ∀ a ∈ P, ∀ b ∈ P, Equal a.ID b.ID = some true → a = b)
    (hids : ∀ body res, up body = .ok res → ∀ resp ∈ (ParseResponses res).1,
      ∃ q ∈ P, isMiss rc s q = true ∧ Equal q.ID resp.ID = some true) :
    ∀ w ∈ (RoundTrip rc s (.ok P) up).writes,
      w.1 ∈ P ∧ isMiss rc s w.1 = true ∧ Equal w.1.ID w.2.ID = some true := by
  intro w hw
  obtain ⟨_, _, P2, hP, hfind⟩ := (RoundTrip_trace rc s (.ok P) up).2 w hw
  simp only [Except.ok.injEq] at hP
  subst hP
  obtain ⟨hmem, heq⟩ := FindByID_mem _ _ _ hfind
  obtain ⟨body, res, hup, hresp⟩ := RoundTrip_source rc s (.ok P) up w hw
  obtain ⟨q, hq, hmiss, hqid⟩ := hids body res hup _ hresp
  have hsame : w.1 = q := hdistinct _ hmem _ hq (Equal_true_of_common _ _ _ heq hqid)
  exact ⟨hmem, hsame ▸ hmiss, heq⟩

/-- C29, worked example: a cached "warm" request with ID "1" and a "test"
request with ID "2"; the response to "test" is stored under "test". -/
theorem writes_are_under_forwarded_requests_witness :
    (RoundTrip (memoryCacher ["test", "warm"]) warmStore
        (.ok [mkRequest "1" "warm", mkRequest "2" "test"])
        (replyWith [mkResponse "2" "16"])).writes =
      [(mkRequest "2" "test", mkResponse "2" "16")] ∧
    (mkRequest "2" "test" ∈ [mkRequest "1" "warm", mkRequest "2" "test"] ∧
      isMiss (memoryCacher ["test", "warm"]) warmStore (mkRequest "2" "test") = true ∧
      Equal (mkRequest "2" "test").ID (mkResponse "2" "16").ID = some true) :=
  ⟨rfl, writes_are_under_forwarded_requests (memoryCacher ["test", "warm"]) warmStore
    [mkRequest "1" "warm", mkRequest "2" "test"] (replyWith [mkResponse "2" "16"])
    (by
      intro a ha b hb h
      simp only [List.mem_cons, List.mem_singleton, List.not_mem_nil, or_false] at ha hb
      rcases ha with rfl | rfl <;> rcases hb with rfl | rfl
      · rfl
      · exact absurd h (by decide)
      · exact absurd h (by decide)
      · rfl)
    (fun body res h resp hr => by
      simp only [replyWith, Except.ok.injEq] at h
      subst h
      have hp : (ParseResponses ⟨200, "[...]", .ok [mkResponse "2" "16"]⟩).1 =
          [mkResponse "2" "16"] := rfl
      rw [hp, List.mem_singleton] at hr
      subst hr
      exact ⟨mkRequest "2" "test", by simp, rfl, rfl⟩)
    (mkRequest "2" "test", mkResponse "2" "16")
    (show (mkRequest "2" "test", mkResponse "2" "16") ∈
      [(mkRequest "2" "test", mkResponse "2" "16")] from List.mem_singleton.2 rfl)⟩

theorem properInitial_append (a c : List Nat) : properInitial a (a ++ c) = !c.isEmpty := by
  induction a with
  | nil => cases c <;> rfl
  | cons x a ih => simp [properInitial, ih]

theorem append_cancel_of_not_properInitial (a b r r2 : List Nat) (h : a ++ r = b ++ r2)
    (h1 : properInitial a b = false) (h2 : properInitial b a = false) : a = b ∧ r = r2 := by
  rcases List.append_eq_append_iff.1 h with ⟨c, rfl, hr⟩ | ⟨c, rfl, hr⟩
  · rw [properInitial_append] at h1
    have hc : c = [] := by cases c <;> simp_all
    subst hc
    simp_all
  · rw [properInitial_append] at h2
    have hc : c = [] := by cases c <;> simp_all
    subst hc
    simp_all

/-- C30, counterexample. JSON numbers are written without a delimiter, so the
parameter lists `[1, 23]` and `[12, 3]`, which differ in both positions, feed
the same bytes `123` to the hash and get the same cache key. -/
theorem number_parameters_share_key_material :
    keyMaterial decimalCodec [.float64 1, .float64 23] =
      keyMaterial decimalCodec [.float64 12, .float64 3] ∧
    decimalCodec.marshal (.float64 1) ≠ decimalCodec.marshal (.float64 12) ∧
    decimalCodec.marshal (.float64 23) ≠ decimalCodec.marshal (.float64 3) ∧
    byTwoIndexSpec.toKey decimalCodec "m" (.slice [.float64 1, .float64 23]) =
      byTwoIndexSpec.toKey decimalCodec "m" (.slice [.float64 12, .float64 3]) := by
  refine ⟨by decide, by decide, by decide, rfl⟩

/-- C30, amended. The key material separates parameters whose JSON texts are
prefix-free: for two parameter lists of the same length in which no
parameter's JSON text is a proper initial segment of the JSON text of a
parameter of the other list, different lists of JSON texts give a different
byte string fed to the hash. -/
theorem keyMaterial_separates_prefix_free (cd : Codec) (xs ys : List Value)
    (hlen : xs.length = ys.length)
    (hpf : ∀ x ∈ xs, ∀ y ∈ ys, properInitial (cd.marshal x) (cd.marshal y) = false ∧
      properInitial (cd.marshal y) (cd.marshal x) = false)
    (hne : xs.map cd.marshal ≠ ys.map cd.marshal) :
    keyMaterial cd xs ≠ keyMaterial cd ys := by
  intro h
  apply hne
  clear hne
  induction xs generalizing ys with
  | nil =>
    cases ys with
    | nil => rfl
    | cons _ _ => cases hlen
  | cons x xs ih =>
    cases ys with
    | nil => cases hlen
    | cons y ys =>
      have hp := hpf x (List.mem_cons_self _ _) y (List.mem_cons_self _ _)
      simp only [keyMaterial] at h
      obtain ⟨h1, h2⟩ := append_cancel_of_not_properInitial _ _ _ _ h hp.1 hp.2
      simp only [List.map_cons, h1, List.cons.injEq, true_and]
      exact ih ys (by simpa using hlen)
        (fun a ha b hb => hpf a (List.mem_cons_of_mem _ ha) b (List.mem_cons_of_mem _ hb)) h2

/-- C30, worked example: quoted strings are prefix-free, so `["a", "bc"]` and
`["ab", "c"]` feed different bytes to the hash. -/
theorem keyMaterial_separates_prefix_free_witness :
    keyMaterial toyCodec [.str "a", .str "bc"] ≠ keyMaterial toyCodec [.str "ab", .str "c"] :=
  keyMaterial_separates_prefix_free toyCodec [.str "a", .str "bc"] [.str "ab", .str "c"] rfl
    (by decide) (by decide)

end RpcProxy
